import Mathlib

/-!
# Radix tree and router of `cesbo/go-router` (`radix.go`, `router.go`)

A shallow embedding of the compressed prefix tree and of the router built on
it, and a verification of their contracts.

* A Go `string` is an immutable byte sequence: `Str := List Nat`.
* A tree value is a Go `any`; `nil` is the absence marker: `Option V`.
* The Go methods mutate the tree in place.  Every node is owned by exactly one
  edge, so an in-place update is modelled by returning the updated tree next
  to the Go results.
* `Insert`, `Remove`, `Lookup` and `LookupPath` consume at least one byte of
  the key per level, so the recursion (or loop) is driven by a fuel of
  `len(key) + 1` steps, which is always enough.
* A router is its tree, its middleware chain and its not-found handler; each
  method returns the updated router.
* Where Go would panic (index or slice out of range, nil edge) the operations
  above are total; a second, checked copy of them returns `none` there and is
  proved to agree with the first.
-/

namespace Router

/-- A Go string: a sequence of bytes. -/
abbrev Str := List Nat

/-- The bytes of an ASCII literal (for ASCII text the UTF-8 bytes are the code points). -/
def bytes (s : String) : Str := s.toList.map Char.toNat

/-- The loop of `strcmp`: `for eq < len(a) && a[eq] == b[eq] { eq++ }`, at most `fuel` rounds. -/
def strcmpLoop (a b : Str) : Nat → Nat → Nat
  | 0, eq => eq
  | fuel + 1, eq =>
    if eq < a.length ∧ a[eq]? = b[eq]? then strcmpLoop a b fuel (eq + 1) else eq

/-- Go `strcmp`: the number of equal leading bytes of two strings
(`if len(a) > len(b) { a, b = b, a }`, then the loop from `eq := 0`). -/
def strcmp (a b : Str) : Nat :=
  if a.length > b.length then strcmpLoop b a b.length 0 else strcmpLoop a b a.length 0

mutual
/-- Go `type Radix struct { edges []*radixEdge; value any }`. -/
inductive Radix (V : Type) : Type
  | mk (edges : List (radixEdge V)) (value : Option V) : Radix V
/-- Go `type radixEdge struct { prefix string; node *Radix }`
(the field `prefix` is written `pfx`). -/
inductive radixEdge (V : Type) : Type
  | mk (pfx : Str) (node : Radix V) : radixEdge V
end

variable {V : Type}

/-- Field `edges` of a node. -/
def Radix.edges : Radix V → List (radixEdge V)
  | .mk es _ => es

/-- Field `value` of a node (`none` is Go `nil`). -/
def Radix.value : Radix V → Option V
  | .mk _ v => v

/-- Field `prefix` of an edge. -/
def radixEdge.pfx : radixEdge V → Str
  | .mk p _ => p

/-- Field `node` of an edge. -/
def radixEdge.node : radixEdge V → Radix V
  | .mk _ n => n

/-- Go `new(Radix)`: the empty tree. -/
def Radix.new : Radix V := .mk [] none

/-- Go `newEdge(prefix, value)`. -/
def newEdge (p : Str) (value : Option V) : radixEdge V :=
  .mk p (.mk [] value)

/-- Go `(e *radixEdge) split(l)`: the edge keeps `prefix[:l]` and gets a fresh
node whose only edge carries `prefix[l:]` and the old node. -/
def radixEdge.split (e : radixEdge V) (l : Nat) : radixEdge V :=
  .mk (e.pfx.take l) (.mk [.mk (e.pfx.drop l) e.node] none)

/-- The loop of `find` from index `i` on. -/
def findLoop : List (radixEdge V) → Str → Nat → Int × Option (radixEdge V) × Nat
  | [], _, _ => (-1, none, 0)
  | e :: rest, key, i =>
    if strcmp e.pfx key ≠ 0 then (i, some e, strcmp e.pfx key) else findLoop rest key (i + 1)

/-- Go `(n *Radix) find(key)`: index, edge and shared length of the first edge
that shares a leading byte with `key`, or `(-1, nil, 0)`. -/
def Radix.find (n : Radix V) (key : Str) : Int × Option (radixEdge V) × Nat :=
  findLoop n.edges key 0

/-- The splice of `Remove`, case 0:
`last := len(n.edges) - 1; n.edges[i] = n.edges[last]; n.edges = n.edges[:last]`. -/
def removeEdge (edges : List (radixEdge V)) (i : Nat) : List (radixEdge V) :=
  match edges[edges.length - 1]? with
  | some x => (edges.set i x).take (edges.length - 1)
  | none => edges

/-- The clean-up of `Remove` after the recursive call, on the edge list of `n`
in which edge `i` already points to the updated child `e`:
an empty child is detached, a value-less child with one edge is merged. -/
def removeFixup (edges : List (radixEdge V)) (i : Nat) (e : radixEdge V) : List (radixEdge V) :=
  if e.node.value.isNone then
    match e.node.edges with
    | [] => removeEdge edges i
    | [last] => edges.set i (.mk (e.pfx ++ last.pfx) last.node)
    | _ => edges
  else edges

/-- Go `(n *Radix) Remove(key)` with `fuel` levels of recursion left.
Returns the updated tree, the removed value and whether one was removed. -/
def Radix.RemoveFuel : Nat → Radix V → Str → Radix V × Option V × Bool
  | 0, n, _ => (n, none, false)
  | fuel + 1, n, key =>
    if key = [] then
      match n.value with
      | none => (n, none, false)
      | some value => (.mk n.edges none, some value, true)
    else
      match n.find key with
      | (_, none, _) => (n, none, false)
      | (i, some e, l) =>
        if l ≠ e.pfx.length then (n, none, false)
        else
          let r := Radix.RemoveFuel fuel e.node (key.drop l)
          let e1 : radixEdge V := .mk e.pfx r.1
          (.mk (removeFixup (n.edges.set i.toNat e1) i.toNat e1) n.value, r.2)

/-- Go `(n *Radix) Remove(key)`. -/
def Radix.Remove (n : Radix V) (key : Str) : Radix V × Option V × Bool :=
  Radix.RemoveFuel (key.length + 1) n key

/-- Go `(n *Radix) Insert(key, value)` with `fuel` levels of recursion left.
Returns the updated tree, the old value and whether a value was overwritten. -/
def Radix.InsertFuel : Nat → Radix V → Str → Option V → Radix V × Option V × Bool
  | 0, n, _, _ => (n, none, false)
  | fuel + 1, n, key, value =>
    if value.isNone then Radix.RemoveFuel (fuel + 1) n key
    else if key = [] then
      match n.value with
      | none => (.mk n.edges value, none, false)
      | some old => (.mk n.edges value, some old, true)
    else
      match n.find key with
      | (i, e?, eq) =>
        if eq = 0 then
          (.mk (n.edges ++ [newEdge key value]) n.value, none, false)
        else
          match e? with
          | none => (n, none, false)
          | some e =>
            if eq = e.pfx.length then
              let r := Radix.InsertFuel fuel e.node (key.drop eq) value
              (.mk (n.edges.set i.toNat (.mk e.pfx r.1)) n.value, r.2)
            else if eq = key.length then
              let s := e.split eq
              (.mk (n.edges.set i.toNat (.mk s.pfx (.mk s.node.edges value))) n.value,
                none, false)
            else
              let s := e.split eq
              (.mk (n.edges.set i.toNat
                  (.mk s.pfx (.mk (s.node.edges ++ [newEdge (key.drop eq) value]) s.node.value)))
                n.value, none, false)

/-- Go `(n *Radix) Insert(key, value)`. -/
def Radix.Insert (n : Radix V) (key : Str) (value : Option V) : Radix V × Option V × Bool :=
  Radix.InsertFuel (key.length + 1) n key value

/-- The loop of `Lookup`, at most `fuel` rounds. -/
def Radix.LookupFuel : Nat → Radix V → Str → Option V × Bool
  | 0, _, _ => (none, false)
  | fuel + 1, n, key =>
    if key = [] then (n.value, true)
    else
      match n.find key with
      | (_, none, _) => (none, false)
      | (_, some e, l) =>
        if l ≠ e.pfx.length then (none, false)
        else Radix.LookupFuel fuel e.node (key.drop l)

/-- Go `(n *Radix) Lookup(key)`. -/
def Radix.Lookup (n : Radix V) (key : Str) : Option V × Bool :=
  Radix.LookupFuel (key.length + 1) n key

/-- The loop of `LookupPath`, at most `fuel` rounds, with the current `lastRoot`. -/
def Radix.LookupPathFuel : Nat → Radix V → Radix V → Str → Option V
  | 0, lastRoot, _, _ => lastRoot.value
  | fuel + 1, lastRoot, n, path =>
    if path = [] then n.value
    else
      match n.find path with
      | (_, none, _) => lastRoot.value
      | (_, some e, l) =>
        if l ≠ e.pfx.length then lastRoot.value
        else
          Radix.LookupPathFuel fuel
            (if e.node.value.isSome ∧ e.pfx[l - 1]? = some 47 then e.node else lastRoot)
            e.node (path.drop l)

/-- Go `(n *Radix) LookupPath(path)`. -/
def Radix.LookupPath (n : Radix V) (path : Str) : Option V :=
  Radix.LookupPathFuel (path.length + 1) n n path

/-- A call of the tree's mutating API. -/
inductive Op (V : Type) : Type
  | Insert (key : Str) (value : Option V) : Op V
  | Remove (key : Str) : Op V

/-- The tree after one call. -/
def Op.apply (t : Radix V) : Op V → Radix V
  | .Insert key value => (t.Insert key value).1
  | .Remove key => (t.Remove key).1

/-- The tree reached from the empty tree by a sequence of calls. -/
def run (ops : List (Op V)) : Radix V :=
  ops.foldl Op.apply Radix.new

/-- The effect of one call on the value a key holds. -/
def Op.update (k : Str) (held : Option V) : Op V → Option V
  | .Insert key value => if key = k then value else held
  | .Remove key => if key = k then none else held

/-- The value key `k` holds after a sequence of calls on the empty tree:
that of the last `Insert` of `k`, unless `k` was removed since. -/
def held (ops : List (Op V)) (k : Str) : Option V :=
  ops.foldl (Op.update k) none

/-- The node reached from `t` by following edges by index, if it exists. -/
def nodeAt : Radix V → List Nat → Option (Radix V)
  | t, [] => some t
  | t, i :: rest =>
    match t.edges[i]? with
    | some e => nodeAt e.node rest
    | none => none

/-- The calls of the test scenario `romane`, ..., `rom`. -/
def romOps : List (Op Nat) :=
  [.Insert (bytes "romane") (some 1), .Insert (bytes "romanus") (some 2),
   .Insert (bytes "romulus") (some 3), .Insert (bytes "rubens") (some 4),
   .Insert (bytes "ruber") (some 5), .Insert (bytes "rubicon") (some 6),
   .Insert (bytes "rubicundus") (some 7), .Insert (bytes "rom") (some 8)]

/-- The calls of the test scenario `/`, `/api`, ... -/
def apiOps : List (Op Nat) :=
  [.Insert (bytes "/") (some 0), .Insert (bytes "/api") (some 1),
   .Insert (bytes "/api/users") (some 2), .Insert (bytes "/api/users/") (some 3),
   .Insert (bytes "/api/users/admin") (some 4)]


/-- The calls of `TestRadix_LookupPath`: the scenario above followed by
`/last-root/a` and `/last-root/b`, which leave a value-less node at `/last-root/`. -/
def lastRootOps : List (Op Nat) :=
  apiOps ++ [.Insert (bytes "/last-root/a") (some 11), .Insert (bytes "/last-root/b") (some 12)]

/-- Two keys that branch after `a`. -/
def branchOps : List (Op Nat) :=
  [.Insert (bytes "ab") (some 1), .Insert (bytes "ac") (some 2)]

/-- The value-less branching node that `branchOps` creates below the edge `a`. -/
def branchNode : Radix Nat :=
  .mk [.mk (bytes "b") (.mk [] (some 1)), .mk (bytes "c") (.mk [] (some 2))] none

/-- The calls of the test `remove twice`, up to the first removal. -/
def appleOps : List (Op Nat) :=
  [.Insert (bytes "apple") (some 1), .Insert (bytes "orange") (some 2),
   .Remove (bytes "orange")]

/-! ## The router (`router.go`)

A value of the Go interface `http.Handler` is an `Option H`: `none` is the nil
interface, `some h` a handler.  The tree of a router only ever receives values
through `Handle`, so its values are handlers and the type assertion
`.(http.Handler)` of `Lookup` and `prepare` succeeds exactly on a non-nil
value.  The mutex does not change what the methods compute; the order of its
operations is modelled by a second, traced form of each method, which returns
the events of the call next to its result. -/

set_option linter.dupNamespace false

/-- Go `type MiddlewareFunc func(http.Handler) http.Handler`. -/
abbrev MiddlewareFunc (H : Type) := Option H → Option H

/-- Go `type Router struct { mutex; radix *Radix; mw []MiddlewareFunc; NotFoundHandler }`. -/
structure Router (H : Type) where
  /-- Field `radix`. -/
  radix : Radix H
  /-- Field `mw`. -/
  mw : List (MiddlewareFunc H)
  /-- Field `NotFoundHandler`. -/
  NotFoundHandler : Option H

variable {H : Type}

/-- Go `NewRouter()`; `notFound` stands for the value of `http.NotFoundHandler()`. -/
def NewRouter (notFound : H) : Router H :=
  { radix := Radix.new, mw := [], NotFoundHandler := some notFound }

/-- Go `(r *Router) Use(mw ...MiddlewareFunc)`: `r.mw = append(r.mw, mw...)`. -/
def Router.Use (r : Router H) (mw : List (MiddlewareFunc H)) : Router H :=
  { r with mw := r.mw ++ mw }

/-- Go `(r *Router) Handle(pattern, handler)`: `r.radix.Insert(pattern, handler)`. -/
def Router.Handle (r : Router H) (pattern : Str) (handler : Option H) : Router H :=
  { r with radix := (r.radix.Insert pattern handler).1 }

/-- Go `(r *Router) HandleFunc(pattern, handler)`: `r.Handle(pattern, handler)`.
A `http.HandlerFunc` converted to `http.Handler` is never the nil interface. -/
def Router.HandleFunc (r : Router H) (pattern : Str) (handler : H) : Router H :=
  r.Handle pattern (some handler)

/-- Go `(r *Router) Lookup(path)`: the value of `LookupPath` when it is a
handler, `nil` otherwise. -/
def Router.Lookup (r : Router H) (path : Str) : Option H :=
  match r.radix.LookupPath path with
  | some handler => some handler
  | none => none

/-- Go `(r *Router) Remove(path)`: `r.radix.Remove(path)`. -/
def Router.Remove (r : Router H) (path : Str) : Router H :=
  { r with radix := (r.radix.Remove path).1 }

/-- The loop of `prepare`,
`for i := len(r.mw) - 1; i >= 0; i-- { handler = r.mw[i](handler) }`,
with `i + 1` rounds left. -/
def wrapLoop (mw : List (MiddlewareFunc H)) : Nat → Option H → Option H
  | 0, handler => handler
  | i + 1, handler =>
    match mw[i]? with
    | some m => wrapLoop mw i (m handler)
    | none => wrapLoop mw i handler

/-- Go `(r *Router) prepare(path)`: the resolved handler wrapped in the
middleware, or `r.NotFoundHandler`. -/
def Router.prepare (r : Router H) (path : Str) : Option H :=
  match r.radix.LookupPath path with
  | some handler => wrapLoop r.mw r.mw.length (some handler)
  | none => r.NotFoundHandler

/-- Go `(r *Router) ServeHTTP(response, request)`: the handler whose `ServeHTTP`
is invoked on the request, `r.prepare(request.URL.Path)`. -/
def Router.ServeHTTP (r : Router H) (path : Str) : Option H :=
  r.prepare path

/-- A call of the router's configuration API. -/
inductive RouterOp (H : Type) : Type
  | Use (mw : List (MiddlewareFunc H)) : RouterOp H
  | Handle (pattern : Str) (handler : Option H) : RouterOp H
  | HandleFunc (pattern : Str) (handler : H) : RouterOp H
  | Remove (path : Str) : RouterOp H

/-- The router after one call. -/
def RouterOp.apply (r : Router H) : RouterOp H → Router H
  | .Use mw => r.Use mw
  | .Handle pattern handler => r.Handle pattern handler
  | .HandleFunc pattern handler => r.HandleFunc pattern handler
  | .Remove path => r.Remove path

/-- The router reached from `NewRouter()` by a sequence of calls. -/
def runRouter (notFound : H) (ops : List (RouterOp H)) : Router H :=
  ops.foldl RouterOp.apply (NewRouter notFound)

/-- The middleware passed to the `Use` calls of a sequence, in call order. -/
def usedMw : List (RouterOp H) → List (MiddlewareFunc H)
  | [] => []
  | .Use mw :: ops => mw ++ usedMw ops
  | _ :: ops => usedMw ops

/-- What a method does to the lock and which user-supplied code it calls: the
four operations of `r.mutex`, the call `r.mw[i](handler)` of `prepare` and the
call of the prepared handler's `ServeHTTP`. -/
inductive Event : Type
  | Lock : Event
  | Unlock : Event
  | RLock : Event
  | RUnlock : Event
  | Wrap (i : Nat) : Event
  | Serve : Event

/-- A method call in progress: the events performed so far and the deferred
calls, the last deferred first. -/
structure Frame where
  /-- The events performed so far, in order. -/
  events : List Event
  /-- The calls registered by `defer`, the last registered first. -/
  deferred : List Event

/-- The start of a method call. -/
def Frame.enter : Frame :=
  { events := [], deferred := [] }

/-- A statement that performs the event `e`. -/
def Frame.exec (f : Frame) (e : Event) : Frame :=
  { f with events := f.events ++ [e] }

/-- A call of code that performs the events `es`. -/
def Frame.execAll (f : Frame) (es : List Event) : Frame :=
  { f with events := f.events ++ es }

/-- Go `defer`: the event `e` is performed when the method returns. -/
def Frame.defer (f : Frame) (e : Event) : Frame :=
  { f with deferred := e :: f.deferred }

/-- Go `return`: the deferred calls run, the last deferred first. -/
def Frame.leave (f : Frame) : List Event :=
  f.events ++ f.deferred

/-- Go `(r *Router) Use(mw ...MiddlewareFunc)` with its events:
`r.mutex.Lock()`, `defer r.mutex.Unlock()`, `r.mw = append(r.mw, mw...)`. -/
def Router.UseTraced (r : Router H) (mw : List (MiddlewareFunc H)) :
    Router H × List Event :=
  let f := Frame.enter.exec .Lock
  let f := f.defer .Unlock
  let r := { r with mw := r.mw ++ mw }
  (r, f.leave)

/-- Go `(r *Router) Handle(pattern, handler)` with its events:
`r.mutex.Lock()`, `defer r.mutex.Unlock()`, `r.radix.Insert(pattern, handler)`. -/
def Router.HandleTraced (r : Router H) (pattern : Str) (handler : Option H) :
    Router H × List Event :=
  let f := Frame.enter.exec .Lock
  let f := f.defer .Unlock
  let r := { r with radix := (r.radix.Insert pattern handler).1 }
  (r, f.leave)

/-- Go `(r *Router) HandleFunc(pattern, handler)` with its events: the method
is the one call `r.Handle(pattern, handler)` and does not touch the lock itself. -/
def Router.HandleFuncTraced (r : Router H) (pattern : Str) (handler : H) :
    Router H × List Event :=
  r.HandleTraced pattern (some handler)

/-- Go `(r *Router) Lookup(path)` with its events: `r.mutex.RLock()`,
`defer r.mutex.RUnlock()`, the tree walk and the return. -/
def Router.LookupTraced (r : Router H) (path : Str) : Option H × List Event :=
  let f := Frame.enter.exec .RLock
  let f := f.defer .RUnlock
  match r.radix.LookupPath path with
  | some handler => (some handler, f.leave)
  | none => (none, f.leave)

/-- Go `(r *Router) Remove(path)` with its events: `r.mutex.Lock()`,
`defer r.mutex.Unlock()`, `r.radix.Remove(path)`. -/
def Router.RemoveTraced (r : Router H) (path : Str) : Router H × List Event :=
  let f := Frame.enter.exec .Lock
  let f := f.defer .Unlock
  let r := { r with radix := (r.radix.Remove path).1 }
  (r, f.leave)

/-- The loop of `prepare` with its events, with `i + 1` rounds left.  The call
`r.mw[i](handler)` runs the code of the middleware function: `calls i` is what
that code does to the router while it runs, the events of the router methods
it calls, `[]` when it calls none. -/
def wrapLoopTraced (mw : List (MiddlewareFunc H)) (calls : Nat → List Event) :
    Nat → Option H → Frame → Option H × Frame
  | 0, handler, f => (handler, f)
  | i + 1, handler, f =>
    match mw[i]? with
    | some m => wrapLoopTraced mw calls i (m handler) ((f.exec (.Wrap i)).execAll (calls i))
    | none => wrapLoopTraced mw calls i handler f

/-- Go `(r *Router) prepare(path)` with its events: `r.mutex.RLock()`,
`defer r.mutex.RUnlock()`, then the loop over the middleware and the return of
the wrapped handler, or the return of `r.NotFoundHandler`. -/
def Router.prepareTraced (r : Router H) (path : Str) (calls : Nat → List Event) :
    Option H × List Event :=
  let f := Frame.enter.exec .RLock
  let f := f.defer .RUnlock
  match r.radix.LookupPath path with
  | some handler =>
    let looped := wrapLoopTraced r.mw calls r.mw.length (some handler) f
    (looped.1, looped.2.leave)
  | none => (r.NotFoundHandler, f.leave)

/-- Go `(r *Router) ServeHTTP(response, request)` with its events: the call
`r.prepare(request.URL.Path)`, then the call of `ServeHTTP` on its result.
`served` is what the code of that handler does to the router while it runs. -/
def Router.ServeHTTPTraced (r : Router H) (path : Str) (calls : Nat → List Event)
    (served : List Event) : Option H × List Event :=
  let prepared := r.prepareTraced path calls
  (prepared.1, prepared.2 ++ Event.Serve :: served)

/-- The state of `r.mutex` as seen by the goroutine that runs a method: not
held by it, held for writing, held for reading. -/
inductive LockState : Type
  | free : LockState
  | write : LockState
  | read : LockState

/-- The lock after an event, `none` when the event breaks the discipline: the
lock is acquired while it is held, it is released while it is not held in that
mode, or user-supplied code is called while it is held.  With
`wrapIsUser = false` the calls `r.mw[i](handler)` are not counted as
user-supplied code. -/
def LockState.step (wrapIsUser : Bool) : LockState → Event → Option LockState
  | .free, .Lock => some .write
  | .free, .RLock => some .read
  | .write, .Unlock => some .free
  | .read, .RUnlock => some .free
  | .free, .Wrap _ => some .free
  | .write, .Wrap _ => if wrapIsUser then none else some .write
  | .read, .Wrap _ => if wrapIsUser then none else some .read
  | .free, .Serve => some .free
  | _, _ => none

/-- The lock discipline on the events of an execution, from a state of the
lock: no event breaks the discipline, and the lock is not held at the end. -/
def disciplined (wrapIsUser : Bool) : LockState → List Event → Bool
  | .free, [] => true
  | .write, [] => false
  | .read, [] => false
  | s, e :: rest =>
    match s.step wrapIsUser e with
    | some next => disciplined wrapIsUser next rest
    | none => false

/-- The events of the first `n` rounds of the loop of `prepare`, from
`i = n - 1` down to `0`: the call `r.mw[i](handler)`, then what it does to the
router. -/
def wrapCalls (calls : Nat → List Event) : Nat → List Event
  | 0 => []
  | i + 1 => Event.Wrap i :: (calls i ++ wrapCalls calls i)

/-- A middleware that marks the handler it wraps with `i`: the marks of a
handler list, outermost first, the logic that runs before it. -/
def mwMark (i : Nat) : MiddlewareFunc (List Nat) :=
  fun next => next.map (fun marks => i :: marks)

/-- The router of `TestRouter_Use`: `Use(mw1, mw2)`, then a handler at `/`. -/
def useRouter : Router (List Nat) :=
  ((NewRouter [404]).Use [mwMark 1, mwMark 2]).Handle (bytes "/") (some [0])

/-! ## The tree operations with their run-time checks

Go panics on an index or a slice out of range and on the use of a nil pointer.
The definitions of this section repeat the operations of `radix.go` with each
such access checked: they return `none` where the Go code would panic. -/

/-- Go `s[i]` for an `int` index: `none` when the index is out of range. -/
def byteAt (s : Str) (i : Int) : Option Nat :=
  if 0 ≤ i then s[i.toNat]? else none

/-- Go `s[l:]`: `none` when `l > len(s)`. -/
def sliceFrom (s : Str) (l : Nat) : Option Str :=
  if l ≤ s.length then some (s.drop l) else none

/-- Go `s[:l]`: `none` when `l > len(s)`. -/
def sliceTo (s : Str) (l : Nat) : Option Str :=
  if l ≤ s.length then some (s.take l) else none

/-- The loop of `strcmp` with the reads `a[eq]` and `b[eq]` checked. -/
def strcmpLoopChecked (a b : Str) : Nat → Nat → Option Nat
  | 0, eq => some eq
  | fuel + 1, eq =>
    if eq < a.length then
      match a[eq]?, b[eq]? with
      | some x, some y => if x = y then strcmpLoopChecked a b fuel (eq + 1) else some eq
      | _, _ => none
    else some eq

/-- Go `strcmp` with its reads checked. -/
def strcmpChecked (a b : Str) : Option Nat :=
  if a.length > b.length then strcmpLoopChecked b a b.length 0
  else strcmpLoopChecked a b a.length 0

/-- The loop of `find` over checked `strcmp`. -/
def findLoopChecked : List (radixEdge V) → Str → Nat → Option (Int × Option (radixEdge V) × Nat)
  | [], _, _ => some (-1, none, 0)
  | e :: rest, key, i =>
    match strcmpChecked e.pfx key with
    | none => none
    | some eq => if eq ≠ 0 then some (i, some e, eq) else findLoopChecked rest key (i + 1)

/-- Go `(n *Radix) find(key)` with its reads checked. -/
def Radix.findChecked (n : Radix V) (key : Str) : Option (Int × Option (radixEdge V) × Nat) :=
  findLoopChecked n.edges key 0

/-- Go `(e *radixEdge) split(l)` with the slices `e.prefix[l:]` and
`e.prefix[:l]` checked. -/
def radixEdge.splitChecked (e : radixEdge V) (l : Nat) : Option (radixEdge V) :=
  match sliceFrom e.pfx l, sliceTo e.pfx l with
  | some tail, some front => some (.mk front (.mk [.mk tail e.node] none))
  | _, _ => none

/-- The splice of `Remove` with the reads and writes `n.edges[last]`,
`n.edges[i]` checked (`last` is `len(n.edges) - 1` as an `int`). -/
def removeEdgeChecked (edges : List (radixEdge V)) (i : Int) : Option (List (radixEdge V)) :=
  if 0 ≤ (edges.length : Int) - 1 ∧ 0 ≤ i ∧ i.toNat < edges.length then
    match edges[((edges.length : Int) - 1).toNat]? with
    | some x => some ((edges.set i.toNat x).take ((edges.length : Int) - 1).toNat)
    | none => none
  else none

/-- The clean-up of `Remove` with the read `e.node.edges[0]` and the splice checked. -/
def removeFixupChecked (edges : List (radixEdge V)) (i : Int) (e : radixEdge V) :
    Option (List (radixEdge V)) :=
  if e.node.value.isNone then
    match e.node.edges.length with
    | 0 => removeEdgeChecked edges i
    | 1 =>
      match e.node.edges[0]? with
      | some last => some (edges.set i.toNat (.mk (e.pfx ++ last.pfx) last.node))
      | none => none
    | _ => some edges
  else some edges

/-- Go `(n *Radix) Remove(key)` with every access checked: the edge `e` is used
only when it is not nil, and `key[l:]` is a checked slice. -/
def Radix.RemoveCheckedFuel : Nat → Radix V → Str → Option (Radix V × Option V × Bool)
  | 0, n, _ => some (n, none, false)
  | fuel + 1, n, key =>
    if key = [] then
      match n.value with
      | none => some (n, none, false)
      | some value => some (.mk n.edges none, some value, true)
    else
      match n.findChecked key with
      | none => none
      | some (_, none, _) => some (n, none, false)
      | some (i, some e, l) =>
        if l ≠ e.pfx.length then some (n, none, false)
        else
          match sliceFrom key l with
          | none => none
          | some rest =>
            match Radix.RemoveCheckedFuel fuel e.node rest with
            | none => none
            | some r =>
              match removeFixupChecked (n.edges.set i.toNat (.mk e.pfx r.1)) i (.mk e.pfx r.1) with
              | none => none
              | some es => some (.mk es n.value, r.2)

/-- Go `(n *Radix) Remove(key)`, checked. -/
def Radix.RemoveChecked (n : Radix V) (key : Str) : Option (Radix V × Option V × Bool) :=
  Radix.RemoveCheckedFuel (key.length + 1) n key

/-- Go `(n *Radix) Insert(key, value)` with every access checked: past `case 0`
the switch reads `e.prefix`, which fails on a nil edge; `key[eq:]` and the
slices of `split` are checked. -/
def Radix.InsertCheckedFuel : Nat → Radix V → Str → Option V →
    Option (Radix V × Option V × Bool)
  | 0, n, _, _ => some (n, none, false)
  | fuel + 1, n, key, value =>
    if value.isNone then Radix.RemoveCheckedFuel (fuel + 1) n key
    else if key = [] then
      match n.value with
      | none => some (.mk n.edges value, none, false)
      | some old => some (.mk n.edges value, some old, true)
    else
      match n.findChecked key with
      | none => none
      | some (i, e?, eq) =>
        if eq = 0 then
          some (.mk (n.edges ++ [newEdge key value]) n.value, none, false)
        else
          match e? with
          | none => none
          | some e =>
            if eq = e.pfx.length then
              match sliceFrom key eq with
              | none => none
              | some rest =>
                match Radix.InsertCheckedFuel fuel e.node rest value with
                | none => none
                | some r => some (.mk (n.edges.set i.toNat (.mk e.pfx r.1)) n.value, r.2)
            else if eq = key.length then
              match e.splitChecked eq with
              | none => none
              | some s =>
                some (.mk (n.edges.set i.toNat (.mk s.pfx (.mk s.node.edges value))) n.value,
                  none, false)
            else
              match e.splitChecked eq, sliceFrom key eq with
              | some s, some rest =>
                some (.mk (n.edges.set i.toNat
                    (.mk s.pfx (.mk (s.node.edges ++ [newEdge rest value]) s.node.value)))
                  n.value, none, false)
              | _, _ => none

/-- Go `(n *Radix) Insert(key, value)`, checked. -/
def Radix.InsertChecked (n : Radix V) (key : Str) (value : Option V) :
    Option (Radix V × Option V × Bool) :=
  Radix.InsertCheckedFuel (key.length + 1) n key value

/-- The loop of `Lookup` with every access checked. -/
def Radix.LookupCheckedFuel : Nat → Radix V → Str → Option (Option V × Bool)
  | 0, _, _ => some (none, false)
  | fuel + 1, n, key =>
    if key = [] then some (n.value, true)
    else
      match n.findChecked key with
      | none => none
      | some (_, none, _) => some (none, false)
      | some (_, some e, l) =>
        if l ≠ e.pfx.length then some (none, false)
        else
          match sliceFrom key l with
          | none => none
          | some rest => Radix.LookupCheckedFuel fuel e.node rest

/-- Go `(n *Radix) Lookup(key)`, checked. -/
def Radix.LookupChecked (n : Radix V) (key : Str) : Option (Option V × Bool) :=
  Radix.LookupCheckedFuel (key.length + 1) n key

/-- The choice of the new `lastRoot` in `LookupPath`:
`e.node.value != nil && e.prefix[l-1] == '/'`, the byte read only when the
node holds a value, at the `int` index `l - 1`. -/
def nextRootChecked (lastRoot : Radix V) (e : radixEdge V) (l : Nat) : Option (Radix V) :=
  if e.node.value.isSome then
    match byteAt e.pfx ((l : Int) - 1) with
    | none => none
    | some c => some (if c = 47 then e.node else lastRoot)
  else some lastRoot

/-- The loop of `LookupPath` with every access checked. -/
def Radix.LookupPathCheckedFuel : Nat → Radix V → Radix V → Str → Option (Option V)
  | 0, lastRoot, _, _ => some lastRoot.value
  | fuel + 1, lastRoot, n, path =>
    if path = [] then some n.value
    else
      match n.findChecked path with
      | none => none
      | some (_, none, _) => some lastRoot.value
      | some (_, some e, l) =>
        if l ≠ e.pfx.length then some lastRoot.value
        else
          match nextRootChecked lastRoot e l, sliceFrom path l with
          | some root, some rest => Radix.LookupPathCheckedFuel fuel root e.node rest
          | _, _ => none

/-- Go `(n *Radix) LookupPath(path)`, checked. -/
def Radix.LookupPathChecked (n : Radix V) (path : Str) : Option (Option V) :=
  Radix.LookupPathCheckedFuel (path.length + 1) n n path

/-! ## Specification vocabulary -/

/-- Length of the longest common prefix of two byte strings. -/
def lcp : Str → Str → Nat
  | x :: a, y :: b => if x = y then lcp a b + 1 else 0
  | _, _ => 0

/-- Leading byte of an edge's prefix, if any. -/
def radixEdge.head (e : radixEdge V) : Option Nat := e.pfx.head?

/-- A node that may not persist below the root: no value and at most one edge. -/
def Radix.redundant (n : Radix V) : Prop := n.value = none ∧ n.edges.length ≤ 1

/-- The shape invariant of the tree, at every node: edge prefixes are non-empty,
sibling edges start with different bytes, and no child is redundant. -/
inductive Inv : Radix V → Prop
  | mk (es : List (radixEdge V)) (v : Option V)
      (hne : ∀ e ∈ es, e.pfx ≠ [])
      (hnd : (es.map radixEdge.head).Nodup)
      (hcan : ∀ e ∈ es, ¬ e.node.redundant)
      (hsub : ∀ e ∈ es, Inv e.node) : Inv (.mk es v)

/-- The tree binds key `k` to value `v`: the edge prefixes along some path from
the node spell `k`, and the node reached carries `v`. -/
inductive Binds : Radix V → Str → V → Prop
  | here (es : List (radixEdge V)) (v : V) : Binds (.mk es (some v)) [] v
  | edge (es : List (radixEdge V)) (val : Option V) (e : radixEdge V) (k : Str) (v : V) :
      e ∈ es → Binds e.node k v → Binds (.mk es val) (e.pfx ++ k) v

/-- The edge leads to a binding of key `k` to `w`: `k` is the edge prefix
followed by a key that the child node binds to `w`. -/
def BindsVia (e : radixEdge V) (k : Str) (w : V) : Prop :=
  ∃ r, k = e.pfx ++ r ∧ Binds e.node r w

/-- The byte string ends in `/` (byte 47). -/
def endsSlash (k : Str) : Prop := k.getLast? = some 47

/-- Key `K` is a registered pattern usable as a fallback for path `p` after
the calls `ops`: it holds a value, ends in `/` and is a prefix of `p`. -/
def IsRootFor (ops : List (Op V)) (p K : Str) : Prop :=
  (held ops K).isSome ∧ endsSlash K ∧ K <+: p

/-- Key `K` is a registered pattern that ends in `/` and is a proper prefix of
the path `p`, after the calls `ops`. -/
def IsProperRootFor (ops : List (Op V)) (p K : Str) : Prop :=
  (held ops K).isSome ∧ endsSlash K ∧ K <+: p ∧ K ≠ p

/-- A tree holding `abc` only: the starting point of both kinds of split. -/
def abcOps : List (Op Nat) := [.Insert (bytes "abc") (some 1)]

/-- The calls that insert the pairs of a list, in order. -/
def insertAll (l : List (Str × V)) : List (Op V) :=
  l.map (fun kv => Op.Insert kv.1 (some kv.2))

/-- The byte string `q` leads from the node to a node of the tree: it is spelled
by the edge prefixes along a path. -/
inductive IsNode : Radix V → Str → Prop
  | root (n : Radix V) : IsNode n []
  | edge (es : List (radixEdge V)) (val : Option V) (e : radixEdge V) (r : Str) :
      e ∈ es → IsNode e.node r → IsNode (.mk es val) (e.pfx ++ r)

/-- Three pairs in one order. -/
def pairsA : List (Str × Nat) := [(bytes "/a/b", 1), (bytes "/a/c", 2), (bytes "/", 0)]

/-- The same pairs in another order. -/
def pairsB : List (Str × Nat) := [(bytes "/", 0), (bytes "/a/c", 2), (bytes "/a/b", 1)]

/-- The edge prefix and the key start with the same byte. -/
def sharesFirstByte (e : radixEdge V) (key : Str) : Prop :=
  ∃ c, e.pfx.head? = some c ∧ key.head? = some c

/-! ## Theorems -/

@[simp] theorem lcp_nil_left (b : Str) : lcp [] b = 0 := by
  cases b <;> rfl

@[simp] theorem lcp_nil_right (a : Str) : lcp a [] = 0 := by
  cases a <;> rfl

@[simp] theorem lcp_cons (x y : Nat) (a b : Str) :
    lcp (x :: a) (y :: b) = if x = y then lcp a b + 1 else 0 := rfl

theorem lcp_comm (a b : Str) : lcp a b = lcp b a := by
  induction a generalizing b with
  | nil => simp
  | cons x a ih =>
    cases b with
    | nil => simp
    | cons y b =>
      by_cases h : x = y
      · subst h; simp [ih b]
      · have h2 : ¬ y = x := fun e => h e.symm
        simp [h, h2]

theorem strcmpLoop_eq (a b : Str) (fuel eq : Nat) (h : a.length ≤ eq + fuel) :
    strcmpLoop a b fuel eq = eq + lcp (a.drop eq) (b.drop eq) := by
  induction fuel generalizing eq with
  | zero =>
    have : a.drop eq = [] := List.drop_eq_nil_of_le (by omega)
    simp [strcmpLoop, this]
  | succ fuel ih =>
    unfold strcmpLoop
    by_cases hlt : eq < a.length
    · by_cases hb : eq < b.length
      · rw [List.drop_eq_getElem_cons hlt, List.drop_eq_getElem_cons hb]
        simp only [List.getElem?_eq_getElem hlt, List.getElem?_eq_getElem hb, Option.some.injEq,
          lcp_cons, hlt, true_and]
        by_cases hx : a[eq] = b[eq]
        · rw [if_pos hx, if_pos hx, ih (eq + 1) (by omega)]; omega
        · rw [if_neg hx, if_neg hx]; rfl
      · have hb2 : b.drop eq = [] := List.drop_eq_nil_of_le (by omega)
        have : a[eq]? ≠ b[eq]? := by
          rw [List.getElem?_eq_getElem hlt, List.getElem?_eq_none (by omega)]; simp
        simp [this, hb2]
    · have : a.drop eq = [] := List.drop_eq_nil_of_le (by omega)
      simp [hlt, this]

theorem strcmp_eq_lcp (a b : Str) : strcmp a b = lcp a b := by
  unfold strcmp
  split
  · rw [strcmpLoop_eq b a _ 0 (by omega)]; simp [lcp_comm]
  · rw [strcmpLoop_eq a b _ 0 (by omega)]; simp

theorem lcp_le_left (a b : Str) : lcp a b ≤ a.length := by
  induction a generalizing b with
  | nil => simp
  | cons x a ih =>
    cases b with
    | nil => simp
    | cons y b =>
      have := ih b
      simp only [lcp_cons, List.length_cons]
      split <;> omega

theorem lcp_le_right (a b : Str) : lcp a b ≤ b.length := by
  rw [lcp_comm]; exact lcp_le_left b a

theorem lcp_eq_length_iff (a b : Str) : lcp a b = a.length ↔ a <+: b := by
  induction a generalizing b with
  | nil => simp
  | cons x a ih =>
    cases b with
    | nil => simp
    | cons y b =>
      by_cases h : x = y
      · subst h
        simp [ih b, List.cons_prefix_cons]
      · simp [h, List.cons_prefix_cons]

theorem lcp_append_left (p r k : Str) : lcp (p ++ r) (p ++ k) = p.length + lcp r k := by
  induction p with
  | nil => simp
  | cons x p ih => simp [ih]; omega

theorem lcp_ne_zero_iff (a b : Str) : lcp a b ≠ 0 ↔ a ≠ [] ∧ a.head? = b.head? := by
  cases a with
  | nil => simp
  | cons x a =>
    cases b with
    | nil => simp
    | cons y b =>
      by_cases h : x = y <;> simp [h]

/-- The two strings agree on their common prefix. -/
theorem lcp_take (a b : Str) : a.take (lcp a b) = b.take (lcp a b) := by
  induction a generalizing b with
  | nil => simp
  | cons x a ih =>
    cases b with
    | nil => simp
    | cons y b =>
      by_cases h : x = y
      · subst h; simp [ih b]
      · simp [h]

/-- Past their common prefix the two strings share no leading byte. -/
theorem lcp_drop (a b : Str) : lcp (a.drop (lcp a b)) (b.drop (lcp a b)) = 0 := by
  induction a generalizing b with
  | nil => simp
  | cons x a ih =>
    cases b with
    | nil => simp
    | cons y b =>
      by_cases h : x = y
      · subst h; simp [ih b]
      · simp [h]

@[simp] theorem Radix.edges_mk (es : List (radixEdge V)) (v : Option V) :
    (Radix.mk es v).edges = es := rfl

@[simp] theorem Radix.value_mk (es : List (radixEdge V)) (v : Option V) :
    (Radix.mk es v).value = v := rfl

@[simp] theorem radixEdge.pfx_mk (p : Str) (n : Radix V) : (radixEdge.mk p n).pfx = p := rfl

@[simp] theorem radixEdge.node_mk (p : Str) (n : Radix V) : (radixEdge.mk p n).node = n := rfl

theorem Radix.mk_eta (n : Radix V) : Radix.mk n.edges n.value = n := by
  cases n; rfl

theorem radixEdge.edge_eta (e : radixEdge V) : radixEdge.mk e.pfx e.node = e := by
  cases e; rfl

@[simp] theorem radixEdge.head_mk (p : Str) (n : Radix V) :
    (radixEdge.mk p n).head = p.head? := rfl

/-! ### `find` -/

theorem findLoop_miss (es : List (radixEdge V)) (key : Str) (i : Nat)
    (h : ∀ e ∈ es, lcp e.pfx key = 0) : findLoop es key i = (-1, none, 0) := by
  induction es generalizing i with
  | nil => rfl
  | cons e es ih =>
    have he : lcp e.pfx key = 0 := h e (List.mem_cons_self _ _)
    simp only [findLoop, strcmp_eq_lcp, he, ne_eq, not_true_eq_false, if_false]
    exact ih _ (fun x hx => h x (List.mem_cons_of_mem _ hx))

theorem findLoop_hit (a b : List (radixEdge V)) (e : radixEdge V) (key : Str) (i : Nat)
    (ha : ∀ x ∈ a, lcp x.pfx key = 0) (he : lcp e.pfx key ≠ 0) :
    findLoop (a ++ e :: b) key i = (((i + a.length : Nat) : Int), some e, lcp e.pfx key) := by
  induction a generalizing i with
  | nil => simp [findLoop, strcmp_eq_lcp, he]
  | cons x a ih =>
    have hx : lcp x.pfx key = 0 := ha x (List.mem_cons_self _ _)
    have hstep : findLoop (x :: (a ++ e :: b)) key i = findLoop (a ++ e :: b) key (i + 1) := by
      simp only [findLoop, strcmp_eq_lcp, hx, ne_eq, not_true_eq_false, if_false]
    rw [List.cons_append, hstep, ih _ (fun y hy => ha y (List.mem_cons_of_mem _ hy))]
    simp only [List.length_cons]
    congr 2
    omega

/-- Either no edge shares a leading byte with the key, or the edge list splits at
the first edge that does. -/
theorem edges_cases (es : List (radixEdge V)) (key : Str) :
    (∀ e ∈ es, lcp e.pfx key = 0) ∨
    ∃ a e b, es = a ++ e :: b ∧ (∀ x ∈ a, lcp x.pfx key = 0) ∧ lcp e.pfx key ≠ 0 := by
  induction es with
  | nil => left; simp
  | cons x es ih =>
    by_cases hx : lcp x.pfx key = 0
    · rcases ih with h | ⟨a, e, b, rfl, ha, he⟩
      · left
        intro y hy
        rcases List.mem_cons.1 hy with rfl | hy
        · exact hx
        · exact h y hy
      · right
        refine ⟨x :: a, e, b, rfl, ?_, he⟩
        intro y hy
        rcases List.mem_cons.1 hy with rfl | hy
        · exact hx
        · exact ha y hy
    · right
      exact ⟨[], x, es, rfl, by simp, hx⟩

theorem Radix.find_miss (es : List (radixEdge V)) (v : Option V) (key : Str)
    (h : ∀ e ∈ es, lcp e.pfx key = 0) : (Radix.mk es v).find key = (-1, none, 0) :=
  findLoop_miss es key 0 h

theorem Radix.find_hit (a b : List (radixEdge V)) (e : radixEdge V) (v : Option V) (key : Str)
    (ha : ∀ x ∈ a, lcp x.pfx key = 0) (he : lcp e.pfx key ≠ 0) :
    (Radix.mk (a ++ e :: b) v).find key = ((a.length : Int), some e, lcp e.pfx key) := by
  have := findLoop_hit a b e key 0 ha he
  simpa [Radix.find] using this

theorem set_mid (a b : List (radixEdge V)) (e x : radixEdge V) :
    (a ++ e :: b).set a.length x = a ++ x :: b := by
  induction a with
  | nil => rfl
  | cons y a ih => simp [ih]

/-- Edges whose prefixes share a leading byte with the same key start alike. -/
theorem head_eq_of_lcp {e x : radixEdge V} {key : Str}
    (he : lcp e.pfx key ≠ 0) (hx : lcp x.pfx key ≠ 0) : x.head = e.head := by
  rw [lcp_ne_zero_iff] at he hx
  unfold radixEdge.head
  rw [he.2, hx.2]

/-- With pairwise different leading bytes, an edge that shares a leading byte
with the key is the only one that does. -/
theorem split_of_mem {es : List (radixEdge V)} (hnd : (es.map radixEdge.head).Nodup)
    {e : radixEdge V} (hmem : e ∈ es) {key : Str} (he : lcp e.pfx key ≠ 0) :
    ∃ a b, es = a ++ e :: b ∧ (∀ x ∈ a, lcp x.pfx key = 0) ∧ (∀ x ∈ b, lcp x.pfx key = 0) := by
  obtain ⟨a, b, rfl⟩ := List.append_of_mem hmem
  refine ⟨a, b, rfl, ?_, ?_⟩
  · intro x hx
    by_contra hne
    have hh := head_eq_of_lcp he hne
    rw [List.map_append, List.map_cons, List.nodup_append] at hnd
    exact hnd.2.2 (List.mem_map_of_mem _ hx) (by rw [hh]; exact List.mem_cons_self _ _)
  · intro x hx
    by_contra hne
    have hh := head_eq_of_lcp he hne
    rw [List.map_append, List.map_cons, List.nodup_append, List.nodup_cons] at hnd
    exact hnd.2.1.1 (by rw [← hh]; exact List.mem_map_of_mem _ hx)

theorem lcp_ne_zero_of_pfx {p k : Str} (hp : p ≠ []) (h : p <+: k) : lcp p k ≠ 0 := by
  have := (lcp_eq_length_iff p k).2 h
  have hl : p.length ≠ 0 := by simpa using hp
  omega

/-! ### One step of each operation -/

theorem key_ne_nil_of_lcp {p key : Str} (h : lcp p key ≠ 0) : key ≠ [] := by
  rintro rfl
  simp at h

theorem LookupFuel_nil (fuel : Nat) (n : Radix V) :
    Radix.LookupFuel (fuel + 1) n [] = (n.value, true) := by
  simp [Radix.LookupFuel]

theorem LookupFuel_miss (fuel : Nat) (es : List (radixEdge V)) (v : Option V) (key : Str)
    (hk : key ≠ []) (h : ∀ e ∈ es, lcp e.pfx key = 0) :
    Radix.LookupFuel (fuel + 1) (.mk es v) key = (none, false) := by
  simp [Radix.LookupFuel, hk, Radix.find_miss es v key h]

theorem LookupFuel_short (fuel : Nat) (a b : List (radixEdge V)) (e : radixEdge V)
    (v : Option V) (key : Str) (ha : ∀ x ∈ a, lcp x.pfx key = 0) (he : lcp e.pfx key ≠ 0)
    (hl : lcp e.pfx key ≠ e.pfx.length) :
    Radix.LookupFuel (fuel + 1) (.mk (a ++ e :: b) v) key = (none, false) := by
  simp [Radix.LookupFuel, key_ne_nil_of_lcp he, Radix.find_hit a b e v key ha he, hl]

theorem LookupFuel_hit (fuel : Nat) (a b : List (radixEdge V)) (e : radixEdge V)
    (v : Option V) (key : Str) (ha : ∀ x ∈ a, lcp x.pfx key = 0) (he : lcp e.pfx key ≠ 0)
    (hl : lcp e.pfx key = e.pfx.length) :
    Radix.LookupFuel (fuel + 1) (.mk (a ++ e :: b) v) key =
      Radix.LookupFuel fuel e.node (key.drop e.pfx.length) := by
  simp [Radix.LookupFuel, key_ne_nil_of_lcp he, Radix.find_hit a b e v key ha he, hl]

theorem drop_length_lt {p key : Str} (he : lcp p key ≠ 0) :
    (key.drop p.length).length < key.length := by
  rw [List.length_drop]
  have h1 := List.length_pos.2 (key_ne_nil_of_lcp he)
  have h2 : p ≠ [] := ((lcp_ne_zero_iff _ _).1 he).1
  have h3 := List.length_pos.2 h2
  omega

/-- Any two amounts of fuel above the key length give the same result. -/
theorem LookupFuel_congr (f1 f2 : Nat) (n : Radix V) (key : Str)
    (h1 : key.length < f1) (h2 : key.length < f2) :
    Radix.LookupFuel f1 n key = Radix.LookupFuel f2 n key := by
  induction f1 generalizing f2 n key with
  | zero => omega
  | succ f1 ih =>
    obtain _ | f2 := f2
    · omega
    obtain ⟨es, v⟩ := n
    by_cases hk : key = []
    · subst hk; simp [Radix.LookupFuel]
    · rcases edges_cases es key with hm | ⟨a, e, b, rfl, ha, he⟩
      · rw [LookupFuel_miss _ _ _ _ hk hm, LookupFuel_miss _ _ _ _ hk hm]
      · by_cases hl : lcp e.pfx key = e.pfx.length
        · rw [LookupFuel_hit _ _ _ _ _ _ ha he hl, LookupFuel_hit _ _ _ _ _ _ ha he hl]
          have hlen := drop_length_lt he
          exact ih _ _ _ (by omega) (by omega)
        · rw [LookupFuel_short _ _ _ _ _ _ ha he hl, LookupFuel_short _ _ _ _ _ _ ha he hl]

/-- More fuel than the key is long changes nothing. -/
theorem LookupFuel_eq (fuel : Nat) (n : Radix V) (key : Str) (h : key.length < fuel) :
    Radix.LookupFuel fuel n key = n.Lookup key :=
  LookupFuel_congr _ _ n key h (Nat.lt_succ_self _)

theorem Lookup_nil (n : Radix V) : n.Lookup [] = (n.value, true) := by
  simp [Radix.Lookup, Radix.LookupFuel]

theorem Lookup_miss (es : List (radixEdge V)) (v : Option V) (key : Str)
    (hk : key ≠ []) (h : ∀ e ∈ es, lcp e.pfx key = 0) :
    (Radix.mk es v).Lookup key = (none, false) :=
  LookupFuel_miss _ es v key hk h

theorem Lookup_short (a b : List (radixEdge V)) (e : radixEdge V)
    (v : Option V) (key : Str) (ha : ∀ x ∈ a, lcp x.pfx key = 0) (he : lcp e.pfx key ≠ 0)
    (hl : lcp e.pfx key ≠ e.pfx.length) :
    (Radix.mk (a ++ e :: b) v).Lookup key = (none, false) :=
  LookupFuel_short _ a b e v key ha he hl

theorem Lookup_hit (a b : List (radixEdge V)) (e : radixEdge V)
    (v : Option V) (key : Str) (ha : ∀ x ∈ a, lcp x.pfx key = 0) (he : lcp e.pfx key ≠ 0)
    (hl : lcp e.pfx key = e.pfx.length) :
    (Radix.mk (a ++ e :: b) v).Lookup key = e.node.Lookup (key.drop e.pfx.length) := by
  unfold Radix.Lookup
  rw [LookupFuel_hit _ _ _ _ _ _ ha he hl]
  apply LookupFuel_eq
  exact drop_length_lt he

/-- Lookup through an edge whose prefix starts the key, when siblings start
with different bytes. -/
theorem Lookup_edge {es : List (radixEdge V)} (hnd : (es.map radixEdge.head).Nodup)
    (v : Option V) {e : radixEdge V} (hmem : e ∈ es) (hp : e.pfx ≠ []) (r : Str) :
    (Radix.mk es v).Lookup (e.pfx ++ r) = e.node.Lookup r := by
  have hpre : e.pfx <+: e.pfx ++ r := List.prefix_append _ _
  have he := lcp_ne_zero_of_pfx hp hpre
  obtain ⟨a, b, rfl, ha, -⟩ := split_of_mem hnd hmem he
  rw [Lookup_hit a b e v _ ha he ((lcp_eq_length_iff _ _).2 hpre), List.drop_left]

/-- Lookup fails when no edge prefix starts the key. -/
theorem Lookup_none (es : List (radixEdge V)) (v : Option V) (key : Str) (hk : key ≠ [])
    (h : ∀ e ∈ es, ¬ e.pfx <+: key) : (Radix.mk es v).Lookup key = (none, false) := by
  rcases edges_cases es key with hm | ⟨a, e, b, rfl, ha, he⟩
  · exact Lookup_miss es v key hk hm
  · apply Lookup_short a b e v key ha he
    intro hl
    exact h e (by simp) ((lcp_eq_length_iff _ _).1 hl)

/-- A value is only ever returned with the flag set. -/
theorem Lookup_flag_of_some (n : Radix V) (key : Str) (w : V)
    (h : (n.Lookup key).1 = some w) : (n.Lookup key).2 = true := by
  generalize hlen : key.length = len
  induction len using Nat.strong_induction_on generalizing n key with
  | _ len ih =>
    obtain ⟨es, v⟩ := n
    by_cases hk : key = []
    · subst hk; simp [Lookup_nil]
    · rcases edges_cases es key with hm | ⟨a, e, b, rfl, ha, he⟩
      · rw [Lookup_miss es v key hk hm] at h; simp at h
      · by_cases hl : lcp e.pfx key = e.pfx.length
        · rw [Lookup_hit a b e v key ha he hl] at h ⊢
          have hlt := drop_length_lt he
          exact ih _ (by omega) _ _ h rfl
        · rw [Lookup_short a b e v key ha he hl] at h; simp at h

/-! ### Bindings -/

theorem Binds_mk_iff (es : List (radixEdge V)) (val : Option V) (k : Str) (w : V) :
    Binds (.mk es val) k w ↔ (k = [] ∧ val = some w) ∨ ∃ e ∈ es, BindsVia e k w := by
  constructor
  · intro h
    cases h with
    | here => left; exact ⟨rfl, rfl⟩
    | edge _ _ e r _ hmem hb => right; exact ⟨e, hmem, r, rfl, hb⟩
  · rintro (⟨rfl, rfl⟩ | ⟨e, hmem, r, rfl, hb⟩)
    · exact Binds.here es w
    · exact Binds.edge es val e r w hmem hb

theorem BindsVia_mk (p : Str) (n : Radix V) (k : Str) (w : V) :
    BindsVia (.mk p n) k w ↔ ∃ r, k = p ++ r ∧ Binds n r w := Iff.rfl

theorem BindsVia_pfx {e : radixEdge V} {k : Str} {w : V} (h : BindsVia e k w) :
    e.pfx <+: k := by
  obtain ⟨r, rfl, -⟩ := h
  exact List.prefix_append _ _

theorem Binds_leaf (val : Option V) (k : Str) (w : V) :
    Binds (.mk [] val) k w ↔ k = [] ∧ val = some w := by
  simp [Binds_mk_iff]

/-- What `Lookup` returns is bound. -/
theorem Binds_of_Lookup (n : Radix V) (key : Str) (w : V)
    (h : (n.Lookup key).1 = some w) : Binds n key w := by
  generalize hlen : key.length = len
  induction len using Nat.strong_induction_on generalizing n key with
  | _ len ih =>
    obtain ⟨es, v⟩ := n
    by_cases hk : key = []
    · subst hk
      rw [Lookup_nil] at h
      simp only [Radix.value_mk] at h
      subst h
      exact Binds.here es w
    · rcases edges_cases es key with hm | ⟨a, e, b, rfl, ha, he⟩
      · rw [Lookup_miss es v key hk hm] at h; simp at h
      · by_cases hl : lcp e.pfx key = e.pfx.length
        · rw [Lookup_hit a b e v key ha he hl] at h
          have hlt := drop_length_lt he
          have hb := ih _ (by omega) _ _ h rfl
          have hpre := (lcp_eq_length_iff _ _).1 hl
          obtain ⟨r, rfl⟩ := hpre
          rw [List.drop_left] at hb
          exact Binds.edge _ v e r w (by simp) hb
        · rw [Lookup_short a b e v key ha he hl] at h; simp at h

/-- In a well-shaped tree `Lookup` returns what is bound. -/
theorem Lookup_of_Binds {n : Radix V} (hinv : Inv n) {key : Str} {w : V}
    (h : Binds n key w) : n.Lookup key = (some w, true) := by
  induction h with
  | here es v => rw [Lookup_nil]; rfl
  | edge es val e r w hmem _ ih =>
    cases hinv with
    | mk _ _ hne hnd hcan hsub =>
      rw [Lookup_edge hnd val hmem (hne e hmem) r]
      exact ih (hsub e hmem)

theorem Lookup_eq_some_iff {n : Radix V} (hinv : Inv n) (key : Str) (w : V) :
    (n.Lookup key).1 = some w ↔ Binds n key w :=
  ⟨Binds_of_Lookup n key w, fun h => by rw [Lookup_of_Binds hinv h]⟩

/-- Two well-shaped trees with the same bindings return the same values. -/
theorem Lookup_fst_congr {n m : Radix V} (hn : Inv n) (hm : Inv m) (key : Str)
    (h : ∀ w, Binds n key w ↔ Binds m key w) : (n.Lookup key).1 = (m.Lookup key).1 := by
  apply Option.ext
  intro w
  rw [Option.mem_def, Option.mem_def, Lookup_eq_some_iff hn, Lookup_eq_some_iff hm]
  exact h w

/-! ### The shape invariant under edits of an edge list -/

theorem Inv_iff (es : List (radixEdge V)) (v : Option V) :
    Inv (.mk es v) ↔ (∀ e ∈ es, e.pfx ≠ []) ∧ (es.map radixEdge.head).Nodup ∧
      (∀ e ∈ es, ¬ e.node.redundant) ∧ (∀ e ∈ es, Inv e.node) := by
  constructor
  · intro h
    cases h with
    | mk _ _ hne hnd hcan hsub => exact ⟨hne, hnd, hcan, hsub⟩
  · rintro ⟨hne, hnd, hcan, hsub⟩
    exact Inv.mk es v hne hnd hcan hsub

theorem Inv_value (es : List (radixEdge V)) (v v2 : Option V) (h : Inv (.mk es v)) :
    Inv (.mk es v2) := by
  rw [Inv_iff] at h ⊢; exact h

theorem Inv_perm {es es2 : List (radixEdge V)} (hp : es2.Perm es) (v : Option V)
    (h : Inv (.mk es v)) : Inv (.mk es2 v) := by
  rw [Inv_iff] at h ⊢
  obtain ⟨hne, hnd, hcan, hsub⟩ := h
  refine ⟨fun e he => hne e (hp.mem_iff.1 he), ?_, fun e he => hcan e (hp.mem_iff.1 he),
    fun e he => hsub e (hp.mem_iff.1 he)⟩
  exact ((hp.map radixEdge.head).nodup_iff).2 hnd

theorem Inv_drop (a b : List (radixEdge V)) (e : radixEdge V) (v : Option V)
    (h : Inv (.mk (a ++ e :: b) v)) : Inv (.mk (a ++ b) v) := by
  rw [Inv_iff] at h ⊢
  obtain ⟨hne, hnd, hcan, hsub⟩ := h
  have hsubl : (a ++ b).Sublist (a ++ e :: b) :=
    List.Sublist.append_left (List.sublist_cons_self e b) a
  refine ⟨fun x hx => hne x (hsubl.subset hx), ?_, fun x hx => hcan x (hsubl.subset hx),
    fun x hx => hsub x (hsubl.subset hx)⟩
  exact hnd.sublist (hsubl.map _)

theorem Inv_replace (a b : List (radixEdge V)) (e e2 : radixEdge V) (v : Option V)
    (h : Inv (.mk (a ++ e :: b) v)) (hp : e2.pfx ≠ []) (hh : e2.head = e.head)
    (hc : ¬ e2.node.redundant) (hs : Inv e2.node) : Inv (.mk (a ++ e2 :: b) v) := by
  rw [Inv_iff] at h ⊢
  obtain ⟨hne, hnd, hcan, hsub⟩ := h
  refine ⟨?_, ?_, ?_, ?_⟩
  · intro x hx
    rcases List.mem_append.1 hx with hx | hx
    · exact hne x (by simp [hx])
    · rcases List.mem_cons.1 hx with rfl | hx
      · exact hp
      · exact hne x (by simp [hx])
  · simpa [hh] using hnd
  · intro x hx
    rcases List.mem_append.1 hx with hx | hx
    · exact hcan x (by simp [hx])
    · rcases List.mem_cons.1 hx with rfl | hx
      · exact hc
      · exact hcan x (by simp [hx])
  · intro x hx
    rcases List.mem_append.1 hx with hx | hx
    · exact hsub x (by simp [hx])
    · rcases List.mem_cons.1 hx with rfl | hx
      · exact hs
      · exact hsub x (by simp [hx])

theorem Inv_leaf (v : Option V) : Inv (Radix.mk ([] : List (radixEdge V)) v) := by
  rw [Inv_iff]; simp

/-! ### The splice and the clean-up of `Remove` -/

theorem removeEdge_perm (a b : List (radixEdge V)) (x : radixEdge V) :
    (removeEdge (a ++ x :: b) a.length).Perm (a ++ b) := by
  rcases List.eq_nil_or_concat b with rfl | ⟨b2, y, rfl⟩
  · have h1 : (a ++ [x]).length - 1 = a.length := by simp
    have h2 : (a ++ [x])[a.length]? = some x := by simp
    unfold removeEdge
    rw [h1, h2]
    simp
  · rw [List.concat_eq_append]
    have h1 : (a ++ x :: (b2 ++ [y])).length - 1 = a.length + (b2.length + 1) := by
      simp
    have h2 : (a ++ x :: (b2 ++ [y]))[a.length + (b2.length + 1)]? = some y := by
      rw [List.getElem?_append_right (by omega)]
      simp
    unfold removeEdge
    rw [h1, h2]
    simp only []
    rw [set_mid]
    have h3 : (a ++ y :: (b2 ++ [y])).take (a.length + (b2.length + 1)) = a ++ y :: b2 := by
      rw [List.take_append]
      simp
    rw [h3]
    exact List.Perm.append_left a (List.perm_append_singleton y b2).symm

theorem removeFixup_keep (es : List (radixEdge V)) (i : Nat) (e : radixEdge V)
    (h : ¬ e.node.redundant) : removeFixup es i e = es := by
  obtain ⟨p, ⟨mes, mval⟩⟩ := e
  unfold removeFixup
  cases mval with
  | some v => simp
  | none =>
    match mes, h with
    | [], h => exact absurd ⟨rfl, by simp⟩ h
    | [_], h => exact absurd ⟨rfl, by simp⟩ h
    | _ :: _ :: _, _ => simp

theorem removeFixup_empty (a b : List (radixEdge V)) (x : radixEdge V) (p : Str) :
    removeFixup (a ++ x :: b) a.length (.mk p (.mk [] none)) = removeEdge (a ++ x :: b) a.length := by
  simp [removeFixup]

theorem removeFixup_merge (a b : List (radixEdge V)) (x last : radixEdge V) (p : Str) :
    removeFixup (a ++ x :: b) a.length (.mk p (.mk [last] none))
      = a ++ .mk (p ++ last.pfx) last.node :: b := by
  simp [removeFixup, set_mid]

/-! ### `Remove`, step by step -/

theorem RemoveFuel_nil (fuel : Nat) (es : List (radixEdge V)) (val : Option V) :
    Radix.RemoveFuel (fuel + 1) (.mk es val) [] = (.mk es none, val, val.isSome) := by
  cases val <;> simp [Radix.RemoveFuel]

theorem RemoveFuel_miss (fuel : Nat) (es : List (radixEdge V)) (v : Option V) (key : Str)
    (hk : key ≠ []) (h : ∀ e ∈ es, lcp e.pfx key = 0) :
    Radix.RemoveFuel (fuel + 1) (.mk es v) key = (.mk es v, none, false) := by
  simp [Radix.RemoveFuel, hk, Radix.find_miss es v key h]

theorem RemoveFuel_short (fuel : Nat) (a b : List (radixEdge V)) (e : radixEdge V)
    (v : Option V) (key : Str) (ha : ∀ x ∈ a, lcp x.pfx key = 0) (he : lcp e.pfx key ≠ 0)
    (hl : lcp e.pfx key ≠ e.pfx.length) :
    Radix.RemoveFuel (fuel + 1) (.mk (a ++ e :: b) v) key = (.mk (a ++ e :: b) v, none, false) := by
  simp [Radix.RemoveFuel, key_ne_nil_of_lcp he, Radix.find_hit a b e v key ha he, hl]

theorem RemoveFuel_hit (fuel : Nat) (a b : List (radixEdge V)) (e : radixEdge V)
    (v : Option V) (key : Str) (ha : ∀ x ∈ a, lcp x.pfx key = 0) (he : lcp e.pfx key ≠ 0)
    (hl : lcp e.pfx key = e.pfx.length) :
    Radix.RemoveFuel (fuel + 1) (.mk (a ++ e :: b) v) key =
      (.mk (removeFixup
          (a ++ .mk e.pfx (Radix.RemoveFuel fuel e.node (key.drop e.pfx.length)).1 :: b) a.length
          (.mk e.pfx (Radix.RemoveFuel fuel e.node (key.drop e.pfx.length)).1)) v,
        (Radix.RemoveFuel fuel e.node (key.drop e.pfx.length)).2) := by
  simp [Radix.RemoveFuel, key_ne_nil_of_lcp he, Radix.find_hit a b e v key ha he, hl, set_mid]

/-- `Remove` returns the value `Lookup` finds and whether there is one. -/
theorem RemoveFuel_result (fuel : Nat) (n : Radix V) (key : Str) (h : key.length < fuel) :
    (Radix.RemoveFuel fuel n key).2 = ((n.Lookup key).1, (n.Lookup key).1.isSome) := by
  induction fuel generalizing n key with
  | zero => omega
  | succ fuel ih =>
    obtain ⟨es, v⟩ := n
    by_cases hk : key = []
    · subst hk; rw [RemoveFuel_nil, Lookup_nil]; rfl
    · rcases edges_cases es key with hm | ⟨a, e, b, rfl, ha, he⟩
      · rw [RemoveFuel_miss _ _ _ _ hk hm, Lookup_miss _ _ _ hk hm]; rfl
      · by_cases hl : lcp e.pfx key = e.pfx.length
        · rw [RemoveFuel_hit _ _ _ _ _ _ ha he hl, Lookup_hit _ _ _ _ _ ha he hl]
          have hlt := drop_length_lt he
          exact ih _ _ (by omega)
        · rw [RemoveFuel_short _ _ _ _ _ _ ha he hl, Lookup_short _ _ _ _ _ ha he hl]; rfl

/-- The clean-up keeps the shape invariant, whatever the updated child is. -/
theorem Inv_removeFixup (a b : List (radixEdge V)) (e : radixEdge V) (v : Option V)
    (m : Radix V) (h : Inv (.mk (a ++ e :: b) v)) (hm : Inv m) :
    Inv (.mk (removeFixup (a ++ .mk e.pfx m :: b) a.length (.mk e.pfx m)) v) := by
  have hpe : e.pfx ≠ [] := ((Inv_iff _ _).1 h).1 e (by simp)
  by_cases hred : m.redundant
  · obtain ⟨mes, mval⟩ := m
    obtain ⟨hv, hlen⟩ := hred
    simp only [Radix.value_mk] at hv
    subst hv
    match mes, hlen, hm with
    | [], _, _ =>
      rw [removeFixup_empty]
      exact Inv_perm (removeEdge_perm a b _) v (Inv_drop a b e v h)
    | [last], _, hm =>
      rw [removeFixup_merge]
      have hm2 := (Inv_iff _ _).1 hm
      refine Inv_replace a b e _ v h ?_ ?_ (hm2.2.2.1 last (by simp)) (hm2.2.2.2 last (by simp))
      · simp [hpe]
      · obtain ⟨p, n⟩ := e
        simp only [radixEdge.pfx_mk] at hpe
        obtain ⟨x, p2, rfl⟩ := List.exists_cons_of_ne_nil hpe
        simp [radixEdge.head]
    | _ :: _ :: _, hlen, _ => simp at hlen
  · rw [removeFixup_keep _ _ _ (by simpa using hred)]
    exact Inv_replace a b e _ v h (by simpa using hpe) (by simp [radixEdge.head])
      (by simpa using hred) (by simpa using hm)

theorem Inv_RemoveFuel (fuel : Nat) (n : Radix V) (key : Str) (hinv : Inv n) :
    Inv (Radix.RemoveFuel fuel n key).1 := by
  induction fuel generalizing n key with
  | zero => exact hinv
  | succ fuel ih =>
    obtain ⟨es, v⟩ := n
    by_cases hk : key = []
    · subst hk; rw [RemoveFuel_nil]; exact Inv_value es v none hinv
    · rcases edges_cases es key with hm | ⟨a, e, b, rfl, ha, he⟩
      · rw [RemoveFuel_miss _ _ _ _ hk hm]; exact hinv
      · by_cases hl : lcp e.pfx key = e.pfx.length
        · rw [RemoveFuel_hit _ _ _ _ _ _ ha he hl]
          exact Inv_removeFixup a b e v _ hinv (ih _ _ (((Inv_iff _ _).1 hinv).2.2.2 e (by simp)))
        · rw [RemoveFuel_short _ _ _ _ _ _ ha he hl]; exact hinv

/-- Removing a key that holds no value leaves a well-shaped tree as it is. -/
theorem RemoveFuel_unchanged (fuel : Nat) (n : Radix V) (key : Str) (h : key.length < fuel)
    (hinv : Inv n) (hnone : (n.Lookup key).1 = none) : (Radix.RemoveFuel fuel n key).1 = n := by
  induction fuel generalizing n key with
  | zero => omega
  | succ fuel ih =>
    obtain ⟨es, v⟩ := n
    by_cases hk : key = []
    · subst hk
      rw [Lookup_nil] at hnone
      simp only [Radix.value_mk] at hnone
      subst hnone
      rw [RemoveFuel_nil]
    · rcases edges_cases es key with hm | ⟨a, e, b, rfl, ha, he⟩
      · rw [RemoveFuel_miss _ _ _ _ hk hm]
      · by_cases hl : lcp e.pfx key = e.pfx.length
        · rw [RemoveFuel_hit _ _ _ _ _ _ ha he hl]
          rw [Lookup_hit _ _ _ _ _ ha he hl] at hnone
          have hlt := drop_length_lt he
          have hi := (Inv_iff _ _).1 hinv
          rw [ih _ _ (by omega) (hi.2.2.2 e (by simp)) hnone, radixEdge.edge_eta]
          rw [removeFixup_keep _ _ _ (hi.2.2.1 e (by simp))]
        · rw [RemoveFuel_short _ _ _ _ _ _ ha he hl]

/-! ### Bindings under edits of an edge list -/

theorem Binds_perm {es es2 : List (radixEdge V)} (hp : es2.Perm es) (v : Option V)
    (k : Str) (w : V) : Binds (.mk es2 v) k w ↔ Binds (.mk es v) k w := by
  simp only [Binds_mk_iff, hp.mem_iff]

theorem head_ne_of_others {a b : List (radixEdge V)} {e x : radixEdge V}
    (hnd : ((a ++ e :: b).map radixEdge.head).Nodup) (hx : x ∈ a ∨ x ∈ b) :
    x.head ≠ e.head := by
  rw [List.map_append, List.map_cons, List.nodup_append, List.nodup_cons] at hnd
  intro hh
  rcases hx with hx | hx
  · exact hnd.2.2 (List.mem_map_of_mem _ hx) (by rw [hh]; exact List.mem_cons_self _ _)
  · exact hnd.2.1.1 (by rw [← hh]; exact List.mem_map_of_mem _ hx)

/-- In a well-shaped node, only the edge that shares a leading byte with `key`
can lead to a binding of `key`. -/
theorem others_ne {a b : List (radixEdge V)} {e x : radixEdge V} {val : Option V}
    (hinv : Inv (.mk (a ++ e :: b) val)) {key : Str} (he : lcp e.pfx key ≠ 0)
    (hx : x ∈ a ∨ x ∈ b) {k : Str} {w : V} (hv : BindsVia x k w) : k ≠ key := by
  rintro rfl
  have hi := (Inv_iff _ _).1 hinv
  have hxm : x ∈ a ++ e :: b := by
    rcases hx with hx | hx <;> simp [hx]
  have hxl := lcp_ne_zero_of_pfx (hi.1 x hxm) (BindsVia_pfx hv)
  exact head_ne_of_others hi.2.1 hx (head_eq_of_lcp he hxl)

/-- Replacing the edge on the way to `key` by one whose bindings are those of
the old edge with `key` rebound to `new` rebinds `key` to `new` in the node. -/
theorem Binds_replace (a b : List (radixEdge V)) (e e2 : radixEdge V) (val : Option V)
    (key : Str) (new : Option V) (hinv : Inv (.mk (a ++ e :: b) val))
    (he : lcp e.pfx key ≠ 0)
    (H : ∀ k w, BindsVia e2 k w ↔ (k = key ∧ new = some w) ∨ (k ≠ key ∧ BindsVia e k w))
    (k : Str) (w : V) :
    Binds (.mk (a ++ e2 :: b) val) k w ↔
      (k = key ∧ new = some w) ∨ (k ≠ key ∧ Binds (.mk (a ++ e :: b) val) k w) := by
  have hkey := key_ne_nil_of_lcp he
  rw [Binds_mk_iff, Binds_mk_iff]
  constructor
  · rintro (⟨rfl, hv⟩ | ⟨x, hx, hv⟩)
    · exact Or.inr ⟨fun h => hkey h.symm, Or.inl ⟨rfl, hv⟩⟩
    · rcases List.mem_append.1 hx with hx | hx
      · exact Or.inr ⟨others_ne hinv he (Or.inl hx) hv, Or.inr ⟨x, by simp [hx], hv⟩⟩
      · rcases List.mem_cons.1 hx with rfl | hx
        · rcases (H k w).1 hv with h | ⟨hne, h⟩
          · exact Or.inl h
          · exact Or.inr ⟨hne, Or.inr ⟨e, by simp, h⟩⟩
        · exact Or.inr ⟨others_ne hinv he (Or.inr hx) hv, Or.inr ⟨x, by simp [hx], hv⟩⟩
  · rintro (h | ⟨hne, ⟨rfl, hv⟩ | ⟨x, hx, hv⟩⟩)
    · exact Or.inr ⟨e2, by simp, (H k w).2 (Or.inl h)⟩
    · exact Or.inl ⟨rfl, hv⟩
    · rcases List.mem_append.1 hx with hx | hx
      · exact Or.inr ⟨x, by simp [hx], hv⟩
      · rcases List.mem_cons.1 hx with rfl | hx
        · exact Or.inr ⟨e2, by simp, (H k w).2 (Or.inr ⟨hne, hv⟩)⟩
        · exact Or.inr ⟨x, by simp [hx], hv⟩

/-- The clean-up of `Remove` changes no binding. -/
theorem Binds_removeFixup (a b : List (radixEdge V)) (p : Str) (m : Radix V) (val : Option V)
    (k : Str) (w : V) :
    Binds (.mk (removeFixup (a ++ .mk p m :: b) a.length (.mk p m)) val) k w ↔
      Binds (.mk (a ++ .mk p m :: b) val) k w := by
  by_cases hred : m.redundant
  · obtain ⟨mes, mval⟩ := m
    obtain ⟨hv, hlen⟩ := hred
    simp only [Radix.value_mk] at hv
    subst hv
    match mes, hlen with
    | [], _ =>
      rw [removeFixup_empty, Binds_perm (removeEdge_perm a b _), Binds_mk_iff, Binds_mk_iff]
      simp only [List.mem_append, List.mem_cons]
      constructor
      · rintro (h | ⟨x, hx | hx, hv⟩)
        · exact Or.inl h
        · exact Or.inr ⟨x, Or.inl hx, hv⟩
        · exact Or.inr ⟨x, Or.inr (Or.inr hx), hv⟩
      · rintro (h | ⟨x, hx | rfl | hx, hv⟩)
        · exact Or.inl h
        · exact Or.inr ⟨x, Or.inl hx, hv⟩
        · obtain ⟨r, -, hb⟩ := hv
          simp [Binds_leaf] at hb
        · exact Or.inr ⟨x, Or.inr hx, hv⟩
    | [last], _ =>
      rw [removeFixup_merge, Binds_mk_iff, Binds_mk_iff]
      have hvia : ∀ k w, BindsVia (radixEdge.mk (p ++ last.pfx) last.node) k w ↔
          BindsVia (radixEdge.mk p (Radix.mk [last] none)) k w := by
        intro k w
        simp only [BindsVia_mk, Binds_mk_iff, List.mem_singleton]
        constructor
        · rintro ⟨r, rfl, hb⟩
          exact ⟨last.pfx ++ r, by simp, Or.inr ⟨last, rfl, r, rfl, hb⟩⟩
        · rintro ⟨r, rfl, ⟨-, h⟩ | ⟨x, rfl, r2, rfl, hb⟩⟩
          · simp at h
          · exact ⟨r2, by simp, hb⟩
      simp only [List.mem_append, List.mem_cons]
      constructor
      · rintro (h | ⟨x, hx | rfl | hx, hv⟩)
        · exact Or.inl h
        · exact Or.inr ⟨x, Or.inl hx, hv⟩
        · exact Or.inr ⟨_, Or.inr (Or.inl rfl), (hvia k w).1 hv⟩
        · exact Or.inr ⟨x, Or.inr (Or.inr hx), hv⟩
      · rintro (h | ⟨x, hx | rfl | hx, hv⟩)
        · exact Or.inl h
        · exact Or.inr ⟨x, Or.inl hx, hv⟩
        · exact Or.inr ⟨_, Or.inr (Or.inl rfl), (hvia k w).2 hv⟩
        · exact Or.inr ⟨x, Or.inr (Or.inr hx), hv⟩
    | _ :: _ :: _, hlen => simp at hlen
  · rw [removeFixup_keep _ _ _ (by simpa using hred)]

theorem Binds_unbound {n : Radix V} (hn : Inv n) {key : Str}
    (hl : n.Lookup key = (none, false)) (k : Str) (w : V) :
    Binds n k w ↔ k ≠ key ∧ Binds n k w := by
  refine ⟨fun hb => ⟨?_, hb⟩, fun hb => hb.2⟩
  rintro rfl
  rw [Lookup_of_Binds hn hb] at hl
  simp at hl

/-- After `Remove(key)` the tree binds what it bound before, except `key`. -/
theorem Binds_RemoveFuel (fuel : Nat) (n : Radix V) (key : Str) (h : key.length < fuel)
    (hinv : Inv n) (k : Str) (w : V) :
    Binds (Radix.RemoveFuel fuel n key).1 k w ↔ k ≠ key ∧ Binds n k w := by
  induction fuel generalizing n key k w with
  | zero => omega
  | succ fuel ih =>
    obtain ⟨es, v⟩ := n
    by_cases hk : key = []
    · subst hk
      rw [RemoveFuel_nil, Binds_mk_iff, Binds_mk_iff]
      have hi := (Inv_iff _ _).1 hinv
      constructor
      · rintro (⟨-, h⟩ | ⟨x, hx, hv⟩)
        · simp at h
        · refine ⟨?_, Or.inr ⟨x, hx, hv⟩⟩
          rintro rfl
          exact hi.1 x hx (List.prefix_nil.1 (BindsVia_pfx hv))
      · rintro ⟨hne, ⟨rfl, -⟩ | h⟩
        · exact absurd rfl hne
        · exact Or.inr h
    · rcases edges_cases es key with hm | ⟨a, e, b, rfl, ha, he⟩
      · rw [RemoveFuel_miss _ _ _ _ hk hm]
        exact Binds_unbound hinv (Lookup_miss _ _ _ hk hm) k w
      · by_cases hl : lcp e.pfx key = e.pfx.length
        · rw [RemoveFuel_hit _ _ _ _ _ _ ha he hl, Binds_removeFixup]
          have hlt := drop_length_lt he
          have hi := (Inv_iff _ _).1 hinv
          obtain ⟨r, rfl⟩ := (lcp_eq_length_iff _ _).1 hl
          rw [List.drop_left] at hlt ⊢
          have hsub := fun k w => ih e.node r (by omega) (hi.2.2.2 e (by simp)) k w
          have H : ∀ k w, BindsVia (radixEdge.mk e.pfx (Radix.RemoveFuel fuel e.node r).1) k w ↔
              (k = e.pfx ++ r ∧ (none : Option V) = some w) ∨
                (k ≠ e.pfx ++ r ∧ BindsVia e k w) := by
            intro k w
            constructor
            · rintro ⟨r2, rfl, hb⟩
              simp only [radixEdge.pfx_mk, radixEdge.node_mk] at hb ⊢
              rw [hsub] at hb
              exact Or.inr ⟨fun hh => hb.1 (List.append_cancel_left hh), r2, rfl, hb.2⟩
            · rintro (⟨-, h⟩ | ⟨hne, r2, rfl, hb⟩)
              · simp at h
              · refine ⟨r2, rfl, ?_⟩
                simp only [radixEdge.node_mk]
                rw [hsub]
                exact ⟨fun hh => hne (by rw [hh]), hb⟩
          have := Binds_replace a b e _ v (e.pfx ++ r) none hinv he H k w
          simpa using this
        · rw [RemoveFuel_short _ _ _ _ _ _ ha he hl]
          exact Binds_unbound hinv (Lookup_short _ _ _ _ _ ha he hl) k w

/-! ### `Insert`, step by step -/

theorem InsertFuel_nil (fuel : Nat) (es : List (radixEdge V)) (val : Option V) (v : V) :
    Radix.InsertFuel (fuel + 1) (.mk es val) [] (some v) = (.mk es (some v), val, val.isSome) := by
  cases val <;> simp [Radix.InsertFuel]

theorem InsertFuel_miss (fuel : Nat) (es : List (radixEdge V)) (val : Option V) (key : Str)
    (v : V) (hk : key ≠ []) (h : ∀ e ∈ es, lcp e.pfx key = 0) :
    Radix.InsertFuel (fuel + 1) (.mk es val) key (some v) =
      (.mk (es ++ [newEdge key (some v)]) val, none, false) := by
  simp [Radix.InsertFuel, hk, Radix.find_miss es val key h]

theorem InsertFuel_descend (fuel : Nat) (a b : List (radixEdge V)) (e : radixEdge V)
    (val : Option V) (key : Str) (v : V) (ha : ∀ x ∈ a, lcp x.pfx key = 0)
    (he : lcp e.pfx key ≠ 0) (hl : lcp e.pfx key = e.pfx.length) :
    Radix.InsertFuel (fuel + 1) (.mk (a ++ e :: b) val) key (some v) =
      (.mk (a ++ .mk e.pfx
          (Radix.InsertFuel fuel e.node (key.drop e.pfx.length) (some v)).1 :: b) val,
        (Radix.InsertFuel fuel e.node (key.drop e.pfx.length) (some v)).2) := by
  have he2 : e.pfx.length ≠ 0 := by omega
  simp [Radix.InsertFuel, key_ne_nil_of_lcp he, Radix.find_hit a b e val key ha he, hl, set_mid, he2]

theorem InsertFuel_split_value (fuel : Nat) (a b : List (radixEdge V)) (e : radixEdge V)
    (val : Option V) (key : Str) (v : V) (ha : ∀ x ∈ a, lcp x.pfx key = 0)
    (he : lcp e.pfx key ≠ 0) (hl : lcp e.pfx key ≠ e.pfx.length)
    (hkl : lcp e.pfx key = key.length) :
    Radix.InsertFuel (fuel + 1) (.mk (a ++ e :: b) val) key (some v) =
      (.mk (a ++ .mk (e.pfx.take (lcp e.pfx key))
          (.mk [.mk (e.pfx.drop (lcp e.pfx key)) e.node] (some v)) :: b) val, none, false) := by
  have hl2 : ¬ key.length = e.pfx.length := fun h => hl (hkl.trans h)
  have hk2 : key.length ≠ 0 := fun h => he (hkl.trans h)
  simp [Radix.InsertFuel, key_ne_nil_of_lcp he, Radix.find_hit a b e val key ha he, hl2, set_mid,
    hk2, hkl, radixEdge.split]

theorem InsertFuel_split_sibling (fuel : Nat) (a b : List (radixEdge V)) (e : radixEdge V)
    (val : Option V) (key : Str) (v : V) (ha : ∀ x ∈ a, lcp x.pfx key = 0)
    (he : lcp e.pfx key ≠ 0) (hl : lcp e.pfx key ≠ e.pfx.length)
    (hkl : lcp e.pfx key ≠ key.length) :
    Radix.InsertFuel (fuel + 1) (.mk (a ++ e :: b) val) key (some v) =
      (.mk (a ++ .mk (e.pfx.take (lcp e.pfx key))
          (.mk [.mk (e.pfx.drop (lcp e.pfx key)) e.node,
                newEdge (key.drop (lcp e.pfx key)) (some v)] none) :: b) val, none, false) := by
  simp [Radix.InsertFuel, key_ne_nil_of_lcp he, Radix.find_hit a b e val key ha he, hl, set_mid,
    he, hkl, radixEdge.split]

/-- `Insert` returns the value `Lookup` finds and whether there is one. -/
theorem InsertFuel_result (fuel : Nat) (n : Radix V) (key : Str) (v : V)
    (h : key.length < fuel) :
    (Radix.InsertFuel fuel n key (some v)).2 = ((n.Lookup key).1, (n.Lookup key).1.isSome) := by
  induction fuel generalizing n key with
  | zero => omega
  | succ fuel ih =>
    obtain ⟨es, val⟩ := n
    by_cases hk : key = []
    · subst hk; rw [InsertFuel_nil, Lookup_nil]; rfl
    · rcases edges_cases es key with hm | ⟨a, e, b, rfl, ha, he⟩
      · rw [InsertFuel_miss _ _ _ _ _ hk hm, Lookup_miss _ _ _ hk hm]; rfl
      · by_cases hl : lcp e.pfx key = e.pfx.length
        · rw [InsertFuel_descend _ _ _ _ _ _ _ ha he hl, Lookup_hit _ _ _ _ _ ha he hl]
          have hlt := drop_length_lt he
          exact ih _ _ (by omega)
        · rw [Lookup_short _ _ _ _ _ ha he hl]
          by_cases hkl : lcp e.pfx key = key.length
          · rw [InsertFuel_split_value _ _ _ _ _ _ _ ha he hl hkl]; rfl
          · rw [InsertFuel_split_sibling _ _ _ _ _ _ _ ha he hl hkl]; rfl

/-- Inserting a value never leaves the node redundant. -/
theorem InsertFuel_not_redundant (fuel : Nat) (n : Radix V) (key : Str) (v : V)
    (h : ¬ n.redundant) : ¬ (Radix.InsertFuel fuel n key (some v)).1.redundant := by
  cases fuel with
  | zero => exact h
  | succ fuel =>
    obtain ⟨es, val⟩ := n
    by_cases hk : key = []
    · subst hk; rw [InsertFuel_nil]; simp [Radix.redundant]
    · rcases edges_cases es key with hm | ⟨a, e, b, rfl, ha, he⟩
      · rw [InsertFuel_miss _ _ _ _ _ hk hm]
        simp only [Radix.redundant, Radix.value_mk, Radix.edges_mk, List.length_append,
          List.length_singleton, not_and, not_le] at h ⊢
        intro hv; have := h hv; omega
      · by_cases hl : lcp e.pfx key = e.pfx.length
        · rw [InsertFuel_descend _ _ _ _ _ _ _ ha he hl]
          simpa [Radix.redundant] using h
        · by_cases hkl : lcp e.pfx key = key.length
          · rw [InsertFuel_split_value _ _ _ _ _ _ _ ha he hl hkl]
            simpa [Radix.redundant] using h
          · rw [InsertFuel_split_sibling _ _ _ _ _ _ _ ha he hl hkl]
            simpa [Radix.redundant] using h

theorem head_take {p : Str} {n : Nat} (hn : n ≠ 0) : (p.take n).head? = p.head? := by
  cases p with
  | nil => simp
  | cons x p =>
    obtain _ | n := n
    · exact absurd rfl hn
    · simp

theorem Inv_append (es : List (radixEdge V)) (val : Option V) (key : Str) (v : V)
    (hinv : Inv (.mk es val)) (hk : key ≠ []) (h : ∀ e ∈ es, lcp e.pfx key = 0) :
    Inv (.mk (es ++ [newEdge key (some v)]) val) := by
  rw [Inv_iff] at hinv ⊢
  obtain ⟨hne, hnd, hcan, hsub⟩ := hinv
  refine ⟨?_, ?_, ?_, ?_⟩
  · intro x hx
    rcases List.mem_append.1 hx with hx | hx
    · exact hne x hx
    · rw [List.mem_singleton.1 hx]; exact hk
  · rw [List.map_append, List.nodup_append]
    refine ⟨hnd, by simp, ?_⟩
    intro o ho ho2
    obtain ⟨x, hx, rfl⟩ := List.mem_map.1 ho
    simp only [List.map_cons, List.map_nil, List.mem_singleton] at ho2
    have : lcp x.pfx key ≠ 0 := (lcp_ne_zero_iff _ _).2 ⟨hne x hx, ho2⟩
    exact this (h x hx)
  · intro x hx
    rcases List.mem_append.1 hx with hx | hx
    · exact hcan x hx
    · rw [List.mem_singleton.1 hx]; simp [Radix.redundant, newEdge]
  · intro x hx
    rcases List.mem_append.1 hx with hx | hx
    · exact hsub x hx
    · rw [List.mem_singleton.1 hx]; exact Inv_leaf _

theorem Inv_InsertFuel (fuel : Nat) (n : Radix V) (key : Str) (v : V) (hinv : Inv n) :
    Inv (Radix.InsertFuel fuel n key (some v)).1 := by
  induction fuel generalizing n key with
  | zero => exact hinv
  | succ fuel ih =>
    obtain ⟨es, val⟩ := n
    by_cases hk : key = []
    · subst hk; rw [InsertFuel_nil]; exact Inv_value es val _ hinv
    · rcases edges_cases es key with hm | ⟨a, e, b, rfl, ha, he⟩
      · rw [InsertFuel_miss _ _ _ _ _ hk hm]; exact Inv_append es val key v hinv hk hm
      · have hi := (Inv_iff _ _).1 hinv
        have hpe : e.pfx ≠ [] := hi.1 e (by simp)
        have hce : ¬ e.node.redundant := hi.2.2.1 e (by simp)
        have hse : Inv e.node := hi.2.2.2 e (by simp)
        have hle := lcp_le_left e.pfx key
        have hlk := lcp_le_right e.pfx key
        by_cases hl : lcp e.pfx key = e.pfx.length
        · rw [InsertFuel_descend _ _ _ _ _ _ _ ha he hl]
          exact Inv_replace a b e _ val hinv hpe rfl
            (InsertFuel_not_redundant _ _ _ _ hce) (ih _ _ hse)
        · have hdrop : e.pfx.drop (lcp e.pfx key) ≠ [] := by
            intro h0
            have := congrArg List.length h0
            simp at this
            omega
          have htake : e.pfx.take (lcp e.pfx key) ≠ [] := by
            intro h0
            have := congrArg List.length h0
            rw [List.length_take, List.length_nil] at this
            have := List.length_pos.2 hpe
            omega
          by_cases hkl : lcp e.pfx key = key.length
          · rw [InsertFuel_split_value _ _ _ _ _ _ _ ha he hl hkl]
            refine Inv_replace a b e _ val hinv htake (head_take he) (by simp [Radix.redundant]) ?_
            rw [radixEdge.node_mk, Inv_iff]
            simp [hdrop, hce, hse]
          · rw [InsertFuel_split_sibling _ _ _ _ _ _ _ ha he hl hkl]
            have hkdrop : key.drop (lcp e.pfx key) ≠ [] := by
              intro h0
              have := congrArg List.length h0
              simp at this
              omega
            refine Inv_replace a b e _ val hinv htake (head_take he) (by simp [Radix.redundant]) ?_
            rw [radixEdge.node_mk, Inv_iff]
            have hheads : (e.pfx.drop (lcp e.pfx key)).head? ≠ (key.drop (lcp e.pfx key)).head? := by
              intro hh
              exact (lcp_ne_zero_iff _ _).2 ⟨hdrop, hh⟩ (lcp_drop _ _)
            refine ⟨?_, ?_, ?_, ?_⟩
            · intro z hz
              simp only [List.mem_cons, List.mem_singleton, List.not_mem_nil, or_false] at hz
              rcases hz with rfl | rfl
              · exact hdrop
              · exact hkdrop
            · simp only [List.map_cons, List.map_nil, radixEdge.head_mk, newEdge,
                List.nodup_cons, List.mem_singleton, List.not_mem_nil, not_false_eq_true,
                List.nodup_nil, and_true]
              exact hheads
            · intro z hz
              simp only [List.mem_cons, List.mem_singleton, List.not_mem_nil, or_false] at hz
              rcases hz with rfl | rfl
              · exact hce
              · simp [Radix.redundant, newEdge]
            · intro z hz
              simp only [List.mem_cons, List.mem_singleton, List.not_mem_nil, or_false] at hz
              rcases hz with rfl | rfl
              · exact hse
              · exact Inv_leaf _

/-- After `Insert(key, v)` the tree binds `key` to `v` and everything else as before. -/
theorem Binds_InsertFuel (fuel : Nat) (n : Radix V) (key : Str) (v : V)
    (h : key.length < fuel) (hinv : Inv n) (k : Str) (w : V) :
    Binds (Radix.InsertFuel fuel n key (some v)).1 k w ↔
      (k = key ∧ some v = some w) ∨ (k ≠ key ∧ Binds n k w) := by
  induction fuel generalizing n key k w with
  | zero => omega
  | succ fuel ih =>
    obtain ⟨es, val⟩ := n
    have hi := (Inv_iff _ _).1 hinv
    by_cases hk : key = []
    · subst hk
      rw [InsertFuel_nil, Binds_mk_iff, Binds_mk_iff]
      constructor
      · rintro (h | ⟨x, hx, hv⟩)
        · exact Or.inl h
        · refine Or.inr ⟨?_, Or.inr ⟨x, hx, hv⟩⟩
          rintro rfl
          exact hi.1 x hx (List.prefix_nil.1 (BindsVia_pfx hv))
      · rintro (h | ⟨hne, ⟨rfl, -⟩ | h⟩)
        · exact Or.inl h
        · exact absurd rfl hne
        · exact Or.inr h
    · rcases edges_cases es key with hm | ⟨a, e, b, rfl, ha, he⟩
      · rw [InsertFuel_miss _ _ _ _ _ hk hm, Binds_mk_iff, Binds_mk_iff]
        have hold : ∀ x ∈ es, BindsVia x k w → k ≠ key := by
          rintro x hx hv rfl
          exact lcp_ne_zero_of_pfx (hi.1 x hx) (BindsVia_pfx hv) (hm x hx)
        constructor
        · rintro (⟨rfl, hv⟩ | ⟨x, hx, hv⟩)
          · exact Or.inr ⟨fun hh => hk hh.symm, Or.inl ⟨rfl, hv⟩⟩
          · rcases List.mem_append.1 hx with hx | hx
            · exact Or.inr ⟨hold x hx hv, Or.inr ⟨x, hx, hv⟩⟩
            · rw [List.mem_singleton.1 hx] at hv
              obtain ⟨r, rfl, hb⟩ := hv
              rw [newEdge, radixEdge.node_mk, Binds_leaf] at hb
              obtain ⟨rfl, hb⟩ := hb
              exact Or.inl ⟨by simp [newEdge], hb⟩
        · rintro (⟨rfl, hv⟩ | ⟨hne, ⟨rfl, hv⟩ | ⟨x, hx, hv⟩⟩)
          · refine Or.inr ⟨newEdge k (some v), by simp, [], by simp [newEdge], ?_⟩
            rw [newEdge, radixEdge.node_mk, Binds_leaf]
            exact ⟨rfl, hv⟩
          · exact Or.inl ⟨rfl, hv⟩
          · exact Or.inr ⟨x, by simp [hx], hv⟩
      · have hle := lcp_le_left e.pfx key
        have hlk := lcp_le_right e.pfx key
        have htk := lcp_take e.pfx key
        by_cases hl : lcp e.pfx key = e.pfx.length
        · rw [InsertFuel_descend _ _ _ _ _ _ _ ha he hl]
          have hlt := drop_length_lt he
          obtain ⟨r, rfl⟩ := (lcp_eq_length_iff _ _).1 hl
          rw [List.drop_left] at hlt ⊢
          have hsub := fun k w => ih e.node r (by omega) (hi.2.2.2 e (by simp)) k w
          refine Binds_replace a b e _ val (e.pfx ++ r) (some v) hinv he ?_ k w
          intro k w
          constructor
          · rintro ⟨r2, rfl, hb⟩
            simp only [radixEdge.pfx_mk, radixEdge.node_mk] at hb ⊢
            rw [hsub] at hb
            rcases hb with ⟨rfl, hv⟩ | ⟨hne, hb⟩
            · exact Or.inl ⟨rfl, hv⟩
            · exact Or.inr ⟨fun hh => hne (List.append_cancel_left hh), r2, rfl, hb⟩
          · rintro (⟨rfl, hv⟩ | ⟨hne, r2, rfl, hb⟩)
            · refine ⟨r, rfl, ?_⟩
              simp only [radixEdge.node_mk]
              rw [hsub]
              exact Or.inl ⟨rfl, hv⟩
            · refine ⟨r2, rfl, ?_⟩
              simp only [radixEdge.node_mk]
              rw [hsub]
              exact Or.inr ⟨fun hh => hne (by rw [hh]), hb⟩
        · have hnp : ¬ e.pfx <+: key := fun hp => hl ((lcp_eq_length_iff _ _).2 hp)
          by_cases hkl : lcp e.pfx key = key.length
          · rw [InsertFuel_split_value _ _ _ _ _ _ _ ha he hl hkl]
            have hkey : e.pfx.take (lcp e.pfx key) = key := by
              rw [htk, hkl, List.take_length]
            have hkk : key ++ e.pfx.drop (lcp e.pfx key) = e.pfx := by
              have := List.take_append_drop (lcp e.pfx key) e.pfx
              rw [hkey] at this
              exact this
            refine Binds_replace a b e _ val key (some v) hinv he ?_ k w
            intro k w
            rw [hkey]
            constructor
            · rintro ⟨r, rfl, hb⟩
              simp only [radixEdge.pfx_mk, radixEdge.node_mk, Binds_mk_iff,
                List.mem_singleton] at hb ⊢
              rcases hb with ⟨rfl, hv⟩ | ⟨x, rfl, r2, rfl, hb⟩
              · exact Or.inl ⟨by simp, hv⟩
              · simp only [radixEdge.pfx_mk, radixEdge.node_mk] at hb ⊢
                rw [← List.append_assoc, hkk]
                refine Or.inr ⟨?_, r2, rfl, hb⟩
                intro hh
                exact hnp ⟨r2, hh⟩
            · rintro (⟨hkeq, hv⟩ | ⟨hne, r2, rfl, hb⟩)
              · refine ⟨[], by simp [hkeq], ?_⟩
                simp only [radixEdge.node_mk, Binds_mk_iff]
                exact Or.inl ⟨by simp, hv⟩
              · refine ⟨e.pfx.drop (lcp e.pfx key) ++ r2, ?_, ?_⟩
                · simp only [radixEdge.pfx_mk]
                  rw [← List.append_assoc, hkk]
                · simp only [radixEdge.node_mk, Binds_mk_iff, List.mem_singleton]
                  exact Or.inr ⟨_, rfl, r2, rfl, hb⟩
          · rw [InsertFuel_split_sibling _ _ _ _ _ _ _ ha he hl hkl]
            have hkey : e.pfx.take (lcp e.pfx key) ++ key.drop (lcp e.pfx key) = key := by
              rw [htk, List.take_append_drop]
            refine Binds_replace a b e _ val key (some v) hinv he ?_ k w
            intro k w
            constructor
            · rintro ⟨r, rfl, hb⟩
              simp only [radixEdge.pfx_mk, radixEdge.node_mk, Binds_mk_iff, List.mem_cons,
                List.mem_singleton, List.not_mem_nil, or_false] at hb ⊢
              rcases hb with ⟨-, hv⟩ | ⟨x, rfl | rfl, r2, rfl, hb⟩
              · simp at hv
              · simp only [radixEdge.pfx_mk, radixEdge.node_mk] at hb ⊢
                rw [← List.append_assoc, List.take_append_drop]
                refine Or.inr ⟨?_, r2, rfl, hb⟩
                intro hh
                exact hnp ⟨r2, hh⟩
              · rw [newEdge, radixEdge.node_mk, Binds_leaf] at hb
                obtain ⟨rfl, hv⟩ := hb
                refine Or.inl ⟨?_, hv⟩
                simp only [newEdge, radixEdge.pfx_mk, List.append_nil]
                exact hkey
            · rintro (⟨hkeq, hv⟩ | ⟨hne, r2, rfl, hb⟩)
              · refine ⟨key.drop (lcp e.pfx key), by rw [hkeq]; exact hkey.symm, ?_⟩
                simp only [radixEdge.node_mk, Binds_mk_iff, List.mem_cons, List.mem_singleton,
                  List.not_mem_nil, or_false]
                refine Or.inr ⟨newEdge (key.drop (lcp e.pfx key)) (some v), Or.inr rfl, [],
                  by simp [newEdge], ?_⟩
                rw [newEdge, radixEdge.node_mk, Binds_leaf]
                exact ⟨rfl, hv⟩
              · refine ⟨e.pfx.drop (lcp e.pfx key) ++ r2, ?_, ?_⟩
                · simp only [radixEdge.pfx_mk]
                  rw [← List.append_assoc, List.take_append_drop]
                · simp only [radixEdge.node_mk, Binds_mk_iff, List.mem_cons, List.mem_singleton,
                    List.not_mem_nil, or_false]
                  exact Or.inr ⟨_, Or.inl rfl, r2, rfl, hb⟩

/-! ### `LookupPath`, step by step -/

theorem LookupPathFuel_nil (fuel : Nat) (lr n : Radix V) :
    Radix.LookupPathFuel (fuel + 1) lr n [] = n.value := by
  simp [Radix.LookupPathFuel]

theorem LookupPathFuel_miss (fuel : Nat) (lr : Radix V) (es : List (radixEdge V))
    (v : Option V) (key : Str) (hk : key ≠ []) (h : ∀ e ∈ es, lcp e.pfx key = 0) :
    Radix.LookupPathFuel (fuel + 1) lr (.mk es v) key = lr.value := by
  simp [Radix.LookupPathFuel, hk, Radix.find_miss es v key h]

theorem LookupPathFuel_short (fuel : Nat) (lr : Radix V) (a b : List (radixEdge V))
    (e : radixEdge V) (v : Option V) (key : Str) (ha : ∀ x ∈ a, lcp x.pfx key = 0)
    (he : lcp e.pfx key ≠ 0) (hl : lcp e.pfx key ≠ e.pfx.length) :
    Radix.LookupPathFuel (fuel + 1) lr (.mk (a ++ e :: b) v) key = lr.value := by
  simp [Radix.LookupPathFuel, key_ne_nil_of_lcp he, Radix.find_hit a b e v key ha he, hl]

theorem LookupPathFuel_hit (fuel : Nat) (lr : Radix V) (a b : List (radixEdge V))
    (e : radixEdge V) (v : Option V) (key : Str) (ha : ∀ x ∈ a, lcp x.pfx key = 0)
    (he : lcp e.pfx key ≠ 0) (hl : lcp e.pfx key = e.pfx.length) :
    Radix.LookupPathFuel (fuel + 1) lr (.mk (a ++ e :: b) v) key =
      Radix.LookupPathFuel fuel
        (if e.node.value.isSome ∧ e.pfx[e.pfx.length - 1]? = some 47 then e.node else lr)
        e.node (key.drop e.pfx.length) := by
  simp [Radix.LookupPathFuel, key_ne_nil_of_lcp he, Radix.find_hit a b e v key ha he, hl]

/-- When the walk consumes the path exactly at a node, `LookupPath` returns
that node's value, whatever fallback was recorded. -/
theorem LookupPathFuel_exact (fuel : Nat) (lr n : Radix V) (key : Str)
    (h : key.length < fuel) (hf : (n.Lookup key).2 = true) :
    Radix.LookupPathFuel fuel lr n key = (n.Lookup key).1 := by
  induction fuel generalizing lr n key with
  | zero => omega
  | succ fuel ih =>
    obtain ⟨es, v⟩ := n
    by_cases hk : key = []
    · subst hk; rw [LookupPathFuel_nil, Lookup_nil]
    · rcases edges_cases es key with hm | ⟨a, e, b, rfl, ha, he⟩
      · rw [Lookup_miss _ _ _ hk hm] at hf; simp at hf
      · by_cases hl : lcp e.pfx key = e.pfx.length
        · rw [LookupPathFuel_hit _ _ _ _ _ _ _ ha he hl]
          rw [Lookup_hit _ _ _ _ _ ha he hl] at hf ⊢
          have hlt := drop_length_lt he
          exact ih _ _ _ (by omega) hf
        · rw [Lookup_short _ _ _ _ _ ha he hl] at hf; simp at hf

/-! ### Trees reached from the empty tree -/

theorem Insert_none (n : Radix V) (key : Str) : n.Insert key none = n.Remove key := by
  simp [Radix.Insert, Radix.Remove, Radix.InsertFuel]

theorem Inv_apply (t : Radix V) (op : Op V) (h : Inv t) : Inv (Op.apply t op) := by
  cases op with
  | Insert key value =>
    cases value with
    | none => rw [Op.apply, Insert_none]; exact Inv_RemoveFuel _ _ _ h
    | some v => exact Inv_InsertFuel _ _ _ _ h
  | Remove key => exact Inv_RemoveFuel _ _ _ h

theorem run_append (ops : List (Op V)) (op : Op V) :
    run (ops ++ [op]) = Op.apply (run ops) op := by
  simp [run, List.foldl_append]

theorem held_append (ops : List (Op V)) (op : Op V) (k : Str) :
    held (ops ++ [op]) k = Op.update k (held ops k) op := by
  simp [held, List.foldl_append]

/-- Every tree reached from the empty tree has the shape invariant. -/
theorem Inv_run (ops : List (Op V)) : Inv (run ops) := by
  induction ops using List.reverseRecOn with
  | nil => exact Inv_leaf none
  | append_singleton ops op ih => rw [run_append]; exact Inv_apply _ _ ih

theorem Binds_Remove (n : Radix V) (key : Str) (hinv : Inv n) (k : Str) (w : V) :
    Binds (n.Remove key).1 k w ↔ k ≠ key ∧ Binds n k w :=
  Binds_RemoveFuel _ n key (Nat.lt_succ_self _) hinv k w

theorem Binds_Insert (n : Radix V) (key : Str) (v : V) (hinv : Inv n) (k : Str) (w : V) :
    Binds (n.Insert key (some v)).1 k w ↔
      (k = key ∧ some v = some w) ∨ (k ≠ key ∧ Binds n k w) :=
  Binds_InsertFuel _ n key v (Nat.lt_succ_self _) hinv k w

/-- The tree binds exactly what the calls made so far left registered. -/
theorem Binds_run (ops : List (Op V)) (k : Str) (w : V) :
    Binds (run ops) k w ↔ held ops k = some w := by
  induction ops using List.reverseRecOn with
  | nil => simp [run, held, Radix.new, Binds_leaf]
  | append_singleton ops op ih =>
    rw [run_append, held_append]
    have hinv := Inv_run ops
    cases op with
    | Insert key value =>
      cases value with
      | none =>
        rw [Op.apply, Insert_none, Binds_Remove _ _ hinv, ih, Op.update]
        by_cases hk : key = k
        · subst hk; simp
        · have : k ≠ key := fun h => hk h.symm
          simp [hk, this]
      | some v =>
        rw [Op.apply, Binds_Insert _ _ _ hinv, ih, Op.update]
        by_cases hk : key = k
        · subst hk; simp
        · have : k ≠ key := fun h => hk h.symm
          simp [hk, this]
    | Remove key =>
      rw [Op.apply, Binds_Remove _ _ hinv, ih, Op.update]
      by_cases hk : key = k
      · subst hk; simp
      · have : k ≠ key := fun h => hk h.symm
        simp [hk, this]

/-- On a reachable tree, `Lookup` returns as its value what the key holds. -/
theorem Lookup_run (ops : List (Op V)) (k : Str) : ((run ops).Lookup k).1 = held ops k := by
  apply Option.ext
  intro w
  rw [Option.mem_def, Option.mem_def, Lookup_eq_some_iff (Inv_run ops), Binds_run]

/-! ### Nodes of a well-shaped tree -/

theorem Inv_nodeAt (t : Radix V) (path : List Nat) (n : Radix V) (h : Inv t)
    (hn : nodeAt t path = some n) : Inv n ∧ (path ≠ [] → ¬ n.redundant) := by
  induction path generalizing t with
  | nil =>
    simp only [nodeAt, Option.some.injEq] at hn
    subst hn
    exact ⟨h, fun h0 => absurd rfl h0⟩
  | cons i rest ih =>
    obtain ⟨es, v⟩ := t
    have hi := (Inv_iff _ _).1 h
    simp only [nodeAt, Radix.edges_mk] at hn
    cases hes : es[i]? with
    | none => rw [hes] at hn; simp at hn
    | some e =>
      rw [hes] at hn
      simp only at hn
      have hmem : e ∈ es := List.getElem?_mem hes
      have := ih e.node (hi.2.2.2 e hmem) hn
      refine ⟨this.1, fun _ => ?_⟩
      by_cases hr : rest = []
      · subst hr
        simp only [nodeAt, Option.some.injEq] at hn
        subst hn
        exact hi.2.2.1 e hmem
      · exact this.2 hr

/-! ### The fuel never runs out

Each operation is started with `len(key) + 1` units of fuel.  Any two amounts
above the key length give the same result, so the exhausted branch of the
definitions is never the one that answers. -/

theorem RemoveFuel_congr (f1 f2 : Nat) (n : Radix V) (key : Str)
    (h1 : key.length < f1) (h2 : key.length < f2) :
    Radix.RemoveFuel f1 n key = Radix.RemoveFuel f2 n key := by
  induction f1 generalizing f2 n key with
  | zero => omega
  | succ f1 ih =>
    obtain _ | f2 := f2
    · omega
    obtain ⟨es, v⟩ := n
    by_cases hk : key = []
    · subst hk; rw [RemoveFuel_nil, RemoveFuel_nil]
    · rcases edges_cases es key with hm | ⟨a, e, b, rfl, ha, he⟩
      · rw [RemoveFuel_miss _ _ _ _ hk hm, RemoveFuel_miss _ _ _ _ hk hm]
      · by_cases hl : lcp e.pfx key = e.pfx.length
        · rw [RemoveFuel_hit _ _ _ _ _ _ ha he hl, RemoveFuel_hit _ _ _ _ _ _ ha he hl]
          have hlen := drop_length_lt he
          rw [ih f2 e.node _ (by omega) (by omega)]
        · rw [RemoveFuel_short _ _ _ _ _ _ ha he hl, RemoveFuel_short _ _ _ _ _ _ ha he hl]

theorem RemoveFuel_eq (fuel : Nat) (n : Radix V) (key : Str) (h : key.length < fuel) :
    Radix.RemoveFuel fuel n key = n.Remove key :=
  RemoveFuel_congr _ _ n key h (Nat.lt_succ_self _)

theorem InsertFuel_congr (f1 f2 : Nat) (n : Radix V) (key : Str) (value : Option V)
    (h1 : key.length < f1) (h2 : key.length < f2) :
    Radix.InsertFuel f1 n key value = Radix.InsertFuel f2 n key value := by
  induction f1 generalizing f2 n key with
  | zero => omega
  | succ f1 ih =>
    obtain _ | f2 := f2
    · omega
    cases value with
    | none =>
      have e1 : Radix.InsertFuel (f1 + 1) n key none = Radix.RemoveFuel (f1 + 1) n key := by
        simp [Radix.InsertFuel]
      have e2 : Radix.InsertFuel (f2 + 1) n key none = Radix.RemoveFuel (f2 + 1) n key := by
        simp [Radix.InsertFuel]
      rw [e1, e2]
      exact RemoveFuel_congr _ _ n key h1 h2
    | some v =>
      obtain ⟨es, val⟩ := n
      by_cases hk : key = []
      · subst hk; rw [InsertFuel_nil, InsertFuel_nil]
      · rcases edges_cases es key with hm | ⟨a, e, b, rfl, ha, he⟩
        · rw [InsertFuel_miss _ _ _ _ _ hk hm, InsertFuel_miss _ _ _ _ _ hk hm]
        · by_cases hl : lcp e.pfx key = e.pfx.length
          · rw [InsertFuel_descend _ _ _ _ _ _ _ ha he hl,
              InsertFuel_descend _ _ _ _ _ _ _ ha he hl]
            have hlen := drop_length_lt he
            rw [ih f2 e.node _ (by omega) (by omega)]
          · by_cases hkl : lcp e.pfx key = key.length
            · rw [InsertFuel_split_value _ _ _ _ _ _ _ ha he hl hkl,
                InsertFuel_split_value _ _ _ _ _ _ _ ha he hl hkl]
            · rw [InsertFuel_split_sibling _ _ _ _ _ _ _ ha he hl hkl,
                InsertFuel_split_sibling _ _ _ _ _ _ _ ha he hl hkl]

theorem InsertFuel_eq (fuel : Nat) (n : Radix V) (key : Str) (value : Option V)
    (h : key.length < fuel) : Radix.InsertFuel fuel n key value = n.Insert key value :=
  InsertFuel_congr _ _ n key value h (Nat.lt_succ_self _)

theorem LookupPathFuel_congr (f1 f2 : Nat) (lr n : Radix V) (key : Str)
    (h1 : key.length < f1) (h2 : key.length < f2) :
    Radix.LookupPathFuel f1 lr n key = Radix.LookupPathFuel f2 lr n key := by
  induction f1 generalizing f2 lr n key with
  | zero => omega
  | succ f1 ih =>
    obtain _ | f2 := f2
    · omega
    obtain ⟨es, v⟩ := n
    by_cases hk : key = []
    · subst hk; rw [LookupPathFuel_nil, LookupPathFuel_nil]
    · rcases edges_cases es key with hm | ⟨a, e, b, rfl, ha, he⟩
      · rw [LookupPathFuel_miss _ _ _ _ _ hk hm, LookupPathFuel_miss _ _ _ _ _ hk hm]
      · by_cases hl : lcp e.pfx key = e.pfx.length
        · rw [LookupPathFuel_hit _ _ _ _ _ _ _ ha he hl, LookupPathFuel_hit _ _ _ _ _ _ _ ha he hl]
          have hlen := drop_length_lt he
          exact ih _ _ _ _ (by omega) (by omega)
        · rw [LookupPathFuel_short _ _ _ _ _ _ _ ha he hl,
            LookupPathFuel_short _ _ _ _ _ _ _ ha he hl]

/-! ### One level of each operation, as the Go code reads -/

/-- `Remove` on a key that goes through edge `e`: the recursive call on the
child, then the clean-up. -/
theorem Remove_hit (a b : List (radixEdge V)) (e : radixEdge V)
    (v : Option V) (key : Str) (ha : ∀ x ∈ a, lcp x.pfx key = 0) (he : lcp e.pfx key ≠ 0)
    (hl : lcp e.pfx key = e.pfx.length) :
    (Radix.mk (a ++ e :: b) v).Remove key =
      (.mk (removeFixup
          (a ++ .mk e.pfx (e.node.Remove (key.drop e.pfx.length)).1 :: b) a.length
          (.mk e.pfx (e.node.Remove (key.drop e.pfx.length)).1)) v,
        (e.node.Remove (key.drop e.pfx.length)).2) := by
  unfold Radix.Remove
  rw [RemoveFuel_hit _ _ _ _ _ _ ha he hl]
  have := RemoveFuel_eq key.length e.node (key.drop e.pfx.length) (drop_length_lt he)
  unfold Radix.Remove at this
  rw [this]

/-- `Insert` on a key that goes through edge `e`: the recursive call on the child. -/
theorem Insert_descend (a b : List (radixEdge V)) (e : radixEdge V)
    (val : Option V) (key : Str) (v : V) (ha : ∀ x ∈ a, lcp x.pfx key = 0)
    (he : lcp e.pfx key ≠ 0) (hl : lcp e.pfx key = e.pfx.length) :
    (Radix.mk (a ++ e :: b) val).Insert key (some v) =
      (.mk (a ++ .mk e.pfx (e.node.Insert (key.drop e.pfx.length) (some v)).1 :: b) val,
        (e.node.Insert (key.drop e.pfx.length) (some v)).2) := by
  unfold Radix.Insert
  rw [InsertFuel_descend _ _ _ _ _ _ _ ha he hl]
  have := InsertFuel_eq key.length e.node (key.drop e.pfx.length) (some v) (drop_length_lt he)
  unfold Radix.Insert at this
  rw [this]

/-! ### The fallback of `LookupPath` -/

theorem endsSlash_ne_nil {K : Str} (h : endsSlash K) : K ≠ [] := by
  rintro rfl
  simp [endsSlash] at h

theorem endsSlash_append (p : Str) {K : Str} (hK : K ≠ []) :
    endsSlash (p ++ K) ↔ endsSlash K := by
  unfold endsSlash
  rw [List.getLast?_append_of_ne_nil p hK]

theorem endsSlash_iff_getElem? (p : Str) : endsSlash p ↔ p[p.length - 1]? = some 47 := by
  unfold endsSlash
  rw [List.getLast?_eq_getElem?]

/-- In a well-shaped tree, the empty key is bound to the value of the node. -/
theorem Binds_nil_iff {n : Radix V} (hinv : Inv n) (w : V) :
    Binds n [] w ↔ n.value = some w := by
  obtain ⟨es, v⟩ := n
  rw [Binds_mk_iff]
  constructor
  · rintro (⟨-, hv⟩ | ⟨x, hx, hvia⟩)
    · exact hv
    · exact absurd (List.prefix_nil.1 (BindsVia_pfx hvia)) (((Inv_iff _ _).1 hinv).1 x hx)
  · intro hv
    exact Or.inl ⟨rfl, hv⟩

/-- In a well-shaped node, a non-empty key that the node binds and that starts
the path `e.pfx ++ r` goes through the edge `e`. -/
theorem Binds_via_edge {a b : List (radixEdge V)} {e : radixEdge V} {val : Option V}
    (hinv : Inv (.mk (a ++ e :: b) val)) {r K : Str} {w : V} (hK : K ≠ [])
    (hb : Binds (.mk (a ++ e :: b) val) K w) (hpre : K <+: e.pfx ++ r) :
    ∃ K2, K = e.pfx ++ K2 ∧ Binds e.node K2 w ∧ K2 <+: r := by
  have hi := (Inv_iff _ _).1 hinv
  have hpe : e.pfx ≠ [] := hi.1 e (by simp)
  have he : lcp e.pfx (e.pfx ++ r) ≠ 0 := lcp_ne_zero_of_pfx hpe (List.prefix_append _ _)
  rw [Binds_mk_iff] at hb
  rcases hb with ⟨h0, -⟩ | ⟨x, hx, K2, rfl, hb⟩
  · exact absurd h0 hK
  · have hxp : x.pfx <+: e.pfx ++ r := (List.prefix_append _ _).trans hpre
    have hxl : lcp x.pfx (e.pfx ++ r) ≠ 0 := lcp_ne_zero_of_pfx (hi.1 x hx) hxp
    have hxe : x = e := by
      rcases List.mem_append.1 hx with hx | hx
      · exact absurd (head_eq_of_lcp he hxl) (head_ne_of_others hi.2.1 (Or.inl hx))
      · rcases List.mem_cons.1 hx with rfl | hx
        · rfl
        · exact absurd (head_eq_of_lcp he hxl) (head_ne_of_others hi.2.1 (Or.inr hx))
    subst hxe
    exact ⟨K2, rfl, hb, (List.prefix_append_right_inj _).1 hpre⟩

/-- The fallback rule of `LookupPath`, at any node of a well-shaped tree: when
the walk does not end exactly on a node, the result is the value of the longest
bound key that ends in `/` and starts the path, or the recorded fallback when
there is no such key. -/
theorem LookupPathFuel_fallback (fuel : Nat) (lr n : Radix V) (p : Str)
    (h : p.length < fuel) (hinv : Inv n) (hf : (n.Lookup p).2 = false) :
    (∀ K w, Binds n K w → endsSlash K → K <+: p →
        (∀ K2 w2, Binds n K2 w2 → endsSlash K2 → K2 <+: p → K2.length ≤ K.length) →
        Radix.LookupPathFuel fuel lr n p = some w) ∧
    ((∀ K w, Binds n K w → endsSlash K → ¬ K <+: p) →
        Radix.LookupPathFuel fuel lr n p = lr.value) := by
  induction fuel generalizing lr n p with
  | zero => omega
  | succ fuel ih =>
    obtain ⟨es, val⟩ := n
    have hi := (Inv_iff _ _).1 hinv
    by_cases hk : p = []
    · subst hk; rw [Lookup_nil] at hf; simp at hf
    · -- no bound key ending in `/` starts the path when no edge prefix does
      have hnone : (∀ e ∈ es, ¬ e.pfx <+: p) →
          ∀ K w, Binds (.mk es val) K w → endsSlash K → ¬ K <+: p := by
        intro hno K w hb hs hpre
        rw [Binds_mk_iff] at hb
        rcases hb with ⟨h0, -⟩ | ⟨x, hx, K2, rfl, -⟩
        · exact endsSlash_ne_nil hs h0
        · exact hno x hx ((List.prefix_append _ _).trans hpre)
      rcases edges_cases es p with hm | ⟨a, e, b, rfl, ha, he⟩
      · rw [LookupPathFuel_miss _ _ _ _ _ hk hm]
        have hno : ∀ e ∈ es, ¬ e.pfx <+: p := fun e he hp =>
          lcp_ne_zero_of_pfx (hi.1 e he) hp (hm e he)
        exact ⟨fun K w hb hs hpre _ => absurd hpre (hnone hno K w hb hs), fun _ => rfl⟩
      · by_cases hl : lcp e.pfx p = e.pfx.length
        · obtain ⟨r, rfl⟩ := (lcp_eq_length_iff _ _).1 hl
          have hlt := drop_length_lt he
          rw [LookupPathFuel_hit _ _ _ _ _ _ _ ha he hl]
          rw [Lookup_hit _ _ _ _ _ ha he hl] at hf
          rw [List.drop_left] at hlt hf ⊢
          have hse : Inv e.node := hi.2.2.2 e (by simp)
          have hpe : e.pfx ≠ [] := hi.1 e (by simp)
          have hmem : e ∈ a ++ e :: b := by simp
          -- a key bound below `e` gives a key bound at this node
          have hlift : ∀ K2 w2, Binds e.node K2 w2 → endsSlash K2 → K2 <+: r →
              Binds (.mk (a ++ e :: b) val) (e.pfx ++ K2) w2 ∧ endsSlash (e.pfx ++ K2) ∧
                e.pfx ++ K2 <+: e.pfx ++ r := by
            intro K2 w2 hb hs hpre
            exact ⟨Binds.edge _ val e K2 w2 hmem hb, (endsSlash_append _ (endsSlash_ne_nil hs)).2 hs,
              (List.prefix_append_right_inj _).2 hpre⟩
          constructor
          · intro K w hb hs hpre hmax
            obtain ⟨K2, rfl, hb2, hpre2⟩ := Binds_via_edge hinv (endsSlash_ne_nil hs) hb hpre
            by_cases hK2 : K2 = []
            · subst hK2
              rw [List.append_nil] at hs hmax
              have hval : e.node.value = some w := (Binds_nil_iff hse w).1 hb2
              have hcond : e.node.value.isSome ∧ e.pfx[e.pfx.length - 1]? = some 47 :=
                ⟨by rw [hval]; rfl, (endsSlash_iff_getElem? _).1 hs⟩
              rw [if_pos hcond]
              rw [(ih e.node e.node r (by omega) hse hf).2, hval]
              intro K3 w3 hb3 hs3 hpre3
              obtain ⟨h1, h2, h3⟩ := hlift K3 w3 hb3 hs3 hpre3
              have := hmax _ _ h1 h2 h3
              have hK3 := List.length_pos.2 (endsSlash_ne_nil hs3)
              rw [List.length_append] at this
              omega
            · refine (ih _ e.node r (by omega) hse hf).1 K2 w hb2
                ((endsSlash_append _ hK2).1 hs) hpre2 ?_
              intro K3 w3 hb3 hs3 hpre3
              obtain ⟨h1, h2, h3⟩ := hlift K3 w3 hb3 hs3 hpre3
              have := hmax _ _ h1 h2 h3
              rw [List.length_append, List.length_append] at this
              omega
          · intro hno
            have hcond : ¬ (e.node.value.isSome ∧ e.pfx[e.pfx.length - 1]? = some 47) := by
              rintro ⟨hv, hs⟩
              obtain ⟨w, hw⟩ := Option.isSome_iff_exists.1 hv
              have hb : Binds (.mk (a ++ e :: b) val) (e.pfx ++ []) w :=
                Binds.edge _ val e [] w hmem ((Binds_nil_iff hse w).2 hw)
              rw [List.append_nil] at hb
              exact hno _ w hb ((endsSlash_iff_getElem? _).2 hs) (List.prefix_append _ _)
            rw [if_neg hcond]
            refine (ih lr e.node r (by omega) hse hf).2 ?_
            intro K2 w2 hb2 hs2 hpre2
            obtain ⟨h1, h2, h3⟩ := hlift K2 w2 hb2 hs2 hpre2
            exact hno _ _ h1 h2 h3
        · rw [LookupPathFuel_short _ _ _ _ _ _ _ ha he hl]
          have hno : ∀ x ∈ a ++ e :: b, ¬ x.pfx <+: p := by
            intro x hx hp
            have hxl := lcp_ne_zero_of_pfx (hi.1 x hx) hp
            rcases List.mem_append.1 hx with hx | hx
            · exact hxl (ha x hx)
            · rcases List.mem_cons.1 hx with rfl | hx
              · exact hl ((lcp_eq_length_iff _ _).2 hp)
              · exact head_ne_of_others hi.2.1 (Or.inr hx) (head_eq_of_lcp he hxl)
          exact ⟨fun K w hb hs hpre _ => absurd hpre (hnone hno K w hb hs), fun _ => rfl⟩

/-- On a reachable tree: when `Lookup(p)` reports `false`, `LookupPath(p)`
returns the value of the longest registered key that ends in `/` and is a
prefix of `p`, and the value held by the root (the empty key) when there is
no such key. -/
theorem LookupPath_fallback (ops : List (Op V)) (p : Str)
    (hf : ((run ops).Lookup p).2 = false) :
    (∀ K, IsRootFor ops p K → (∀ K2, IsRootFor ops p K2 → K2.length ≤ K.length) →
        (run ops).LookupPath p = held ops K) ∧
    ((∀ K, ¬ IsRootFor ops p K) → (run ops).LookupPath p = held ops []) := by
  have hmain := LookupPathFuel_fallback (p.length + 1) (run ops) (run ops) p
    (Nat.lt_succ_self _) (Inv_run ops) hf
  constructor
  · rintro K ⟨hv, hs, hpre⟩ hmax
    obtain ⟨w, hw⟩ := Option.isSome_iff_exists.1 hv
    rw [hw]
    refine hmain.1 K w ((Binds_run ops K w).2 hw) hs hpre ?_
    intro K2 w2 hb2 hs2 hpre2
    exact hmax K2 ⟨by rw [(Binds_run ops K2 w2).1 hb2]; rfl, hs2, hpre2⟩
  · intro hno
    have hroot : (run ops).value = held ops [] := by
      rw [← Lookup_run, Lookup_nil]
    unfold Radix.LookupPath
    rw [← hroot]
    refine hmain.2 ?_
    intro K w hb hs hpre
    exact hno K ⟨by rw [(Binds_run ops K w).1 hb]; rfl, hs, hpre⟩

/-! ### The contract of the tree -/

/-- In a well-shaped tree, a key just inserted is found with its value. -/
theorem Lookup_Insert_same (t : Radix V) (hinv : Inv t) (k : Str) (v : V) :
    (t.Insert k (some v)).1.Lookup k = (some v, true) :=
  Lookup_of_Binds (Inv_InsertFuel _ _ _ _ hinv)
    ((Binds_Insert t k v hinv k v).2 (Or.inl ⟨rfl, rfl⟩))

/-- In a well-shaped tree, a key just removed holds no value. -/
theorem Lookup_Remove_same (t : Radix V) (hinv : Inv t) (k : Str) :
    ((t.Remove k).1.Lookup k).1 = none := by
  have hinv1 : Inv (t.Remove k).1 := Inv_RemoveFuel _ _ _ hinv
  apply Option.eq_none_iff_forall_not_mem.2
  intro w hw
  rw [Option.mem_def, Lookup_eq_some_iff hinv1, Binds_Remove _ _ hinv] at hw
  exact hw.1 rfl

/-- C1 (round trip).  On every tree reached from the empty tree by `Insert` and
`Remove` calls, for every key `k` (the empty key included) and every non-nil
value `v`, `Insert(k, v)` followed by `Lookup(k)` returns `(v, true)`. -/
theorem Insert_Lookup_roundtrip (ops : List (Op V)) (k : Str) (v : V) :
    ((run ops).Insert k (some v)).1.Lookup k = (some v, true) :=
  Lookup_Insert_same (run ops) (Inv_run ops) k v

/-- C2 (exact match wins).  On every reachable tree, a key `k` that holds the
value `v` resolves to `v` under `LookupPath`, whatever keys ending in `/` are
registered above or below it. -/
theorem LookupPath_exact_match (ops : List (Op V)) (k : Str) (v : V)
    (h : held ops k = some v) : (run ops).LookupPath k = some v := by
  have hb : Binds (run ops) k v := (Binds_run ops k v).2 h
  have hl := Lookup_of_Binds (Inv_run ops) hb
  unfold Radix.LookupPath
  rw [LookupPathFuel_exact _ _ _ _ (Nat.lt_succ_self _) (by rw [hl]), hl]

/-- Witness of C2 on the five keys of the routing scenario. -/
theorem LookupPath_exact_match_witness :
    (held apiOps (bytes "/") = some 0 ∧ (run apiOps).LookupPath (bytes "/") = some 0) ∧
    (held apiOps (bytes "/api") = some 1 ∧ (run apiOps).LookupPath (bytes "/api") = some 1) ∧
    (held apiOps (bytes "/api/users") = some 2 ∧
      (run apiOps).LookupPath (bytes "/api/users") = some 2) ∧
    (held apiOps (bytes "/api/users/") = some 3 ∧
      (run apiOps).LookupPath (bytes "/api/users/") = some 3) ∧
    (held apiOps (bytes "/api/users/admin") = some 4 ∧
      (run apiOps).LookupPath (bytes "/api/users/admin") = some 4) :=
  ⟨⟨by decide, LookupPath_exact_match apiOps _ 0 (by decide)⟩,
   ⟨by decide, LookupPath_exact_match apiOps _ 1 (by decide)⟩,
   ⟨by decide, LookupPath_exact_match apiOps _ 2 (by decide)⟩,
   ⟨by decide, LookupPath_exact_match apiOps _ 3 (by decide)⟩,
   ⟨by decide, LookupPath_exact_match apiOps _ 4 (by decide)⟩⟩

/-- C3 (nearest enclosing root), at the path `/last-root/` of the tree of
`TestRadix_LookupPath`.  The path holds no value, the only registered key that
is a prefix of it is `/` (value 0), and a longer unmatched path falls back to 0,
yet `LookupPath("/last-root/")` returns `nil`: the walk ends exactly at the
value-less branching node and its absent value is returned instead of the
recorded fallback. -/
theorem LookupPath_valueless_node :
    held lastRootOps (bytes "/last-root/") = none ∧
    held lastRootOps (bytes "/") = some 0 ∧
    (∀ K ∈ (bytes "/last-root/").inits, (held lastRootOps K).isSome → K = bytes "/") ∧
    (run lastRootOps).LookupPath (bytes "/last-root/not-found") = some 0 ∧
    (run lastRootOps).LookupPath (bytes "/last-root") = some 0 ∧
    (run lastRootOps).LookupPath (bytes "/last-root/") = none := by
  refine ⟨by decide, by decide, by decide, by decide, by decide, by decide⟩

/-- C4 (presence flag of `Lookup`), on the scenario `romane`, ..., `rom`:
`rom` and `romane` are found with their values, but `rub`, which holds no
value and is only a branching point, is reported with the flag `true`. -/
theorem Lookup_rub_flag :
    (run romOps).Lookup (bytes "rom") = (some 8, true) ∧
    (run romOps).Lookup (bytes "romane") = (some 1, true) ∧
    held romOps (bytes "rub") = none ∧
    (run romOps).Lookup (bytes "rub") = (none, true) := by
  refine ⟨by decide, by decide, by decide, by decide⟩

/-- C5 (delete then lookup), where the node of the key survives the removal:
after `Insert("a", 3)` and `Remove("a")` on the tree holding `ab` and `ac`, and
after `Insert("", 3)` and `Remove("")` on the empty tree, `Lookup` of the key
returns no value but the flag `true`. -/
theorem Remove_then_Lookup_flag :
    (((run branchOps).Insert (bytes "a") (some 3)).1.Remove (bytes "a")).1.Lookup (bytes "a")
      = (none, true) ∧
    (((Radix.new : Radix Nat).Insert [] (some 3)).1.Remove []).1.Lookup [] = (none, true) := by
  refine ⟨by decide, by decide⟩

/-- C6 (overwrite).  On every reachable tree, for every key `k` and non-nil
values `v1`, `v2`: after `Insert(k, v1)`, the call `Insert(k, v2)` returns
`(v1, true)` and `Lookup(k)` then returns `v2`. -/
theorem Insert_overwrite (ops : List (Op V)) (k : Str) (v1 v2 : V) :
    (((run ops).Insert k (some v1)).1.Insert k (some v2)).2 = (some v1, true) ∧
    (((run ops).Insert k (some v1)).1.Insert k (some v2)).1.Lookup k = (some v2, true) := by
  have h1 := Lookup_Insert_same (run ops) (Inv_run ops) k v1
  have hinv1 : Inv ((run ops).Insert k (some v1)).1 := Inv_InsertFuel _ _ _ _ (Inv_run ops)
  constructor
  · unfold Radix.Insert at h1 ⊢
    rw [InsertFuel_result _ _ _ _ (Nat.lt_succ_self _), h1]
    rfl
  · exact Lookup_Insert_same _ hinv1 k v2

/-- C7 (result of `Insert`).  On every reachable tree, `Insert(k, v)` with a
non-nil `v` returns `(old, true)` when `k` held `old`, and `(nil, false)` when
`k` held no value, whatever the shape of the tree around `k`. -/
theorem Insert_result (ops : List (Op V)) (k : Str) (v : V) :
    ((run ops).Insert k (some v)).2 = (held ops k, (held ops k).isSome) := by
  unfold Radix.Insert
  rw [InsertFuel_result _ _ _ _ (Nat.lt_succ_self _), Lookup_run]

/-- C8 (result of `Remove`, idempotence).  On every reachable tree, `Remove(k)`
returns `(v, true)` when `k` held `v`; otherwise it returns `(nil, false)` and
leaves the whole tree unchanged; a second `Remove(k)` right after a first
returns `(nil, false)` and changes nothing. -/
theorem Remove_result_idempotent (ops : List (Op V)) (k : Str) :
    ((run ops).Remove k).2 = (held ops k, (held ops k).isSome) ∧
    (held ops k = none → ((run ops).Remove k).1 = run ops) ∧
    (((run ops).Remove k).1.Remove k).2 = (none, false) ∧
    (((run ops).Remove k).1.Remove k).1 = ((run ops).Remove k).1 := by
  have hinv := Inv_run ops
  have hinv1 : Inv ((run ops).Remove k).1 := Inv_RemoveFuel _ _ _ hinv
  have hnone := Lookup_Remove_same (run ops) hinv k
  refine ⟨?_, ?_, ?_, ?_⟩
  · unfold Radix.Remove
    rw [RemoveFuel_result _ _ _ (Nat.lt_succ_self _), Lookup_run]
  · intro h
    exact RemoveFuel_unchanged _ _ _ (Nat.lt_succ_self _) hinv (by rw [Lookup_run, h])
  · unfold Radix.Remove at hnone ⊢
    rw [RemoveFuel_result _ _ _ (Nat.lt_succ_self _), hnone]
    rfl
  · exact RemoveFuel_unchanged _ _ _ (Nat.lt_succ_self _) hinv1 hnone

/-- Witness of C8 on the test `remove twice`: `orange` is already removed. -/
theorem Remove_result_idempotent_witness :
    held appleOps (bytes "orange") = none ∧
    ((run appleOps).Remove (bytes "orange")).1 = run appleOps :=
  ⟨by decide, (Remove_result_idempotent appleOps (bytes "orange")).2.1 (by decide)⟩

/-- C9 (canonical form).  In every tree reached from the empty tree by `Insert`
and `Remove` calls (`Insert` with a nil value included), no node other than the
root has no value and no edges, and none has no value and exactly one edge. -/
theorem canonical_form (ops : List (Op V)) (path : List Nat) (n : Radix V)
    (hp : path ≠ []) (hn : nodeAt (run ops) path = some n) :
    ¬ (n.value = none ∧ n.edges.length = 0) ∧ ¬ (n.value = none ∧ n.edges.length = 1) := by
  have h := (Inv_nodeAt (run ops) path n (Inv_run ops) hn).2 hp
  constructor
  · rintro ⟨hv, hl⟩
    exact h ⟨hv, by omega⟩
  · rintro ⟨hv, hl⟩
    exact h ⟨hv, by omega⟩

/-- Witness of C9 at the branching node below the edge `a`. -/
theorem canonical_form_witness :
    ([0] : List Nat) ≠ [] ∧ nodeAt (run branchOps) [0] = some branchNode ∧
    (¬ (branchNode.value = none ∧ branchNode.edges.length = 0) ∧
      ¬ (branchNode.value = none ∧ branchNode.edges.length = 1)) :=
  ⟨by decide, rfl, canonical_form branchOps [0] branchNode (by decide) rfl⟩

/-- C10 (sibling divergence).  In every tree reached from the empty tree by
`Insert` and `Remove` calls, at every node every edge has a non-empty prefix
and no two edges have prefixes that start with the same byte. -/
theorem sibling_divergence (ops : List (Op V)) (path : List Nat) (n : Radix V)
    (hn : nodeAt (run ops) path = some n) :
    (∀ e ∈ n.edges, e.pfx ≠ []) ∧
    (∀ (i j : Nat) (e1 e2 : radixEdge V),
      n.edges[i]? = some e1 → n.edges[j]? = some e2 → i ≠ j →
      e1.pfx.head? ≠ e2.pfx.head?) := by
  have h := (Inv_nodeAt (run ops) path n (Inv_run ops) hn).1
  obtain ⟨es, v⟩ := n
  have hi := (Inv_iff _ _).1 h
  refine ⟨hi.1, ?_⟩
  intro i j e1 e2 h1 h2 hij hh
  simp only [Radix.edges_mk] at h1 h2
  have hlt : i < (es.map radixEdge.head).length := by
    rw [List.length_map]
    exact (List.getElem?_eq_some.1 h1).1
  apply hij
  apply List.getElem?_inj hlt hi.2.1
  rw [List.getElem?_map, List.getElem?_map, h1, h2]
  simp only [Option.map_some', Option.some.injEq]
  exact hh

/-- Witness of C10 at the branching node below the edge `a`. -/
theorem sibling_divergence_witness :
    nodeAt (run branchOps) [0] = some branchNode ∧
    ((∀ e ∈ branchNode.edges, e.pfx ≠ []) ∧
      (∀ (i j : Nat) (e1 e2 : radixEdge Nat),
        branchNode.edges[i]? = some e1 → branchNode.edges[j]? = some e2 → i ≠ j →
        e1.pfx.head? ≠ e2.pfx.head?)) :=
  ⟨rfl, sibling_divergence branchOps [0] branchNode rfl⟩

/-! ### Frame properties and the exact rule of `LookupPath` -/

/-- In a well-shaped tree, `Remove(k)` changes the value of no other key. -/
theorem Lookup_fst_Remove (t : Radix V) (hinv : Inv t) (k k2 : Str) (h : k2 ≠ k) :
    ((t.Remove k).1.Lookup k2).1 = (t.Lookup k2).1 := by
  have hinv1 : Inv (t.Remove k).1 := Inv_RemoveFuel _ _ _ hinv
  apply Lookup_fst_congr hinv1 hinv
  intro w
  rw [Binds_Remove _ _ hinv]
  exact ⟨fun hb => hb.2, fun hb => ⟨h, hb⟩⟩

/-- In a well-shaped tree, `Insert(k, v)` changes the value of no other key. -/
theorem Lookup_fst_Insert (t : Radix V) (hinv : Inv t) (k k2 : Str) (v : V) (h : k2 ≠ k) :
    ((t.Insert k (some v)).1.Lookup k2).1 = (t.Lookup k2).1 := by
  have hinv1 : Inv (t.Insert k (some v)).1 := Inv_InsertFuel _ _ _ _ hinv
  apply Lookup_fst_congr hinv1 hinv
  intro w
  rw [Binds_Insert _ _ _ hinv]
  constructor
  · rintro (⟨hk, -⟩ | ⟨-, hb⟩)
    · exact absurd hk h
    · exact hb
  · exact fun hb => Or.inr ⟨h, hb⟩

/-- A lookup that reports `false` returns no value. -/
theorem Lookup_fst_of_flag_false (n : Radix V) (key : Str) (h : (n.Lookup key).2 = false) :
    (n.Lookup key).1 = none := by
  apply Option.eq_none_iff_forall_not_mem.2
  intro w hw
  rw [Lookup_flag_of_some n key w hw] at h
  exact Bool.noConfusion h

/-- C16 (`Insert` with the absence marker is removal).  On every tree and for
every key `k`, `Insert(k, nil)` returns the pair and leaves the tree that
`Remove(k)` does; on a reachable tree it therefore returns `(old, true)` when
`k` held `old` and `(nil, false)` when `k` held nothing. -/
theorem Insert_nil_is_Remove (n : Radix V) (ops : List (Op V)) (k : Str) :
    n.Insert k none = n.Remove k ∧
    ((run ops).Insert k none).2 = (held ops k, (held ops k).isSome) := by
  refine ⟨Insert_none n k, ?_⟩
  rw [Insert_none]
  unfold Radix.Remove
  rw [RemoveFuel_result _ _ _ (Nat.lt_succ_self _), Lookup_run]

/-- C18 (the exact rule of `LookupPath`).  On every reachable tree and for every
path `p`: when `Lookup(p)` reports `true`, `LookupPath(p)` returns the value of
the node reached, absent or not; otherwise it returns the value of the longest
key that holds a value, ends in `/` and is a proper prefix of `p`, and the
value of the root node when there is no such key. -/
theorem LookupPath_rule (ops : List (Op V)) (p : Str) :
    (((run ops).Lookup p).2 = true → (run ops).LookupPath p = ((run ops).Lookup p).1) ∧
    (((run ops).Lookup p).2 = false →
      (∀ K, IsProperRootFor ops p K →
          (∀ K2, IsProperRootFor ops p K2 → K2.length ≤ K.length) →
          (run ops).LookupPath p = held ops K) ∧
      ((∀ K, ¬ IsProperRootFor ops p K) → (run ops).LookupPath p = (run ops).value)) := by
  constructor
  · intro hf
    exact LookupPathFuel_exact _ _ _ _ (Nat.lt_succ_self _) hf
  · intro hf
    have hnone : held ops p = none := by
      rw [← Lookup_run]; exact Lookup_fst_of_flag_false _ _ hf
    have hiff : ∀ K, IsRootFor ops p K ↔ IsProperRootFor ops p K := by
      intro K
      constructor
      · rintro ⟨hv, hs, hpre⟩
        refine ⟨hv, hs, hpre, ?_⟩
        rintro rfl
        rw [hnone] at hv
        exact Bool.noConfusion hv
      · rintro ⟨hv, hs, hpre, -⟩
        exact ⟨hv, hs, hpre⟩
    have hfb := LookupPath_fallback ops p hf
    have hroot : (run ops).value = held ops [] := by
      rw [← Lookup_run, Lookup_nil]
    constructor
    · intro K hK hmax
      exact hfb.1 K ((hiff K).2 hK) (fun K2 hK2 => hmax K2 ((hiff K2).1 hK2))
    · intro hno
      rw [hroot]
      exact hfb.2 (fun K hK => hno K ((hiff K).1 hK))

/-- Witness of C18 on the tree of `TestRadix_LookupPath`: `/api/users` is a key,
`/last-root/` is a value-less node, `/api/users/admin123` falls back to
`/api/users/`, and the empty tree falls back to its root. -/
theorem LookupPath_rule_witness :
    (((run lastRootOps).Lookup (bytes "/api/users")).2 = true ∧
      (run lastRootOps).LookupPath (bytes "/api/users")
        = ((run lastRootOps).Lookup (bytes "/api/users")).1) ∧
    (((run lastRootOps).Lookup (bytes "/last-root/")).2 = true ∧
      (run lastRootOps).LookupPath (bytes "/last-root/")
        = ((run lastRootOps).Lookup (bytes "/last-root/")).1) ∧
    (((run lastRootOps).Lookup (bytes "/api/users/admin123")).2 = false ∧
      IsProperRootFor lastRootOps (bytes "/api/users/admin123") (bytes "/api/users/") ∧
      (run lastRootOps).LookupPath (bytes "/api/users/admin123")
        = held lastRootOps (bytes "/api/users/")) ∧
    (((run ([] : List (Op Nat))).Lookup (bytes "/x")).2 = false ∧
      (run ([] : List (Op Nat))).LookupPath (bytes "/x") = (run ([] : List (Op Nat))).value) := by
  have hK : IsProperRootFor lastRootOps (bytes "/api/users/admin123") (bytes "/api/users/") :=
    ⟨by decide, show (bytes "/api/users/").getLast? = some 47 by decide,
      ⟨bytes "admin123", by decide⟩, by decide⟩
  refine ⟨⟨by decide, (LookupPath_rule lastRootOps _).1 (by decide)⟩,
    ⟨by decide, (LookupPath_rule lastRootOps _).1 (by decide)⟩,
    ⟨by decide, hK, ((LookupPath_rule lastRootOps _).2 (by decide)).1 _ hK ?_⟩,
    ⟨by decide, ((LookupPath_rule ([] : List (Op Nat)) _).2 (by decide)).2 ?_⟩⟩
  · rintro K2 ⟨hv, hs, hpre, -⟩
    have hmem := (List.mem_inits _ _).2 hpre
    have hall : ∀ K ∈ (bytes "/api/users/admin123").inits,
        (held lastRootOps K).isSome → K.getLast? = some 47 →
          K.length ≤ (bytes "/api/users/").length := by decide
    exact hall K2 hmem hv hs
  · rintro K ⟨hv, -⟩
    have : held ([] : List (Op Nat)) K = none := rfl
    rw [this] at hv
    exact Bool.noConfusion hv

/-- C19 (`Remove` touches only its key).  On every reachable tree and for all
keys `k2 ≠ k`, the value `Lookup(k2)` returns is the same before and after
`Remove(k)`, whether an edge is spliced out or a node merged on the way. -/
theorem Remove_frame (ops : List (Op V)) (k k2 : Str) (h : k2 ≠ k) :
    (((run ops).Remove k).1.Lookup k2).1 = ((run ops).Lookup k2).1 :=
  Lookup_fst_Remove (run ops) (Inv_run ops) k k2 h

/-- Witness of C19 on the scenario `romane`, ..., `rom`: removing `romulus`
splices an edge out and merges nothing, removing `rubens` merges `e` and `r`. -/
theorem Remove_frame_witness :
    (bytes "romane" ≠ bytes "romulus" ∧
      (((run romOps).Remove (bytes "romulus")).1.Lookup (bytes "romane")).1
        = ((run romOps).Lookup (bytes "romane")).1) ∧
    (bytes "ruber" ≠ bytes "rubens" ∧
      (((run romOps).Remove (bytes "rubens")).1.Lookup (bytes "ruber")).1
        = ((run romOps).Lookup (bytes "ruber")).1) :=
  ⟨⟨by decide, Remove_frame romOps _ _ (by decide)⟩,
   ⟨by decide, Remove_frame romOps _ _ (by decide)⟩⟩

/-- C20 (`Insert` touches only its key).  On every reachable tree, for all keys
`k2 ≠ k` and every non-nil value `v`, the value `Lookup(k2)` returns is the same
before and after `Insert(k, v)`, in each of the four cases of `Insert`. -/
theorem Insert_frame (ops : List (Op V)) (k k2 : Str) (v : V) (h : k2 ≠ k) :
    (((run ops).Insert k (some v)).1.Lookup k2).1 = ((run ops).Lookup k2).1 :=
  Lookup_fst_Insert (run ops) (Inv_run ops) k k2 v h

/-- Witness of C20 on the tree holding `abc`, one insertion per case of `Insert`:
a new edge (`x`), a descent (`abcd`), a split that ends at the key (`ab`) and a
split with a new sibling (`abd`). -/
theorem Insert_frame_witness :
    (bytes "abc" ≠ bytes "x" ∧
      (((run abcOps).Insert (bytes "x") (some 2)).1.Lookup (bytes "abc")).1
        = ((run abcOps).Lookup (bytes "abc")).1) ∧
    (bytes "abc" ≠ bytes "abcd" ∧
      (((run abcOps).Insert (bytes "abcd") (some 2)).1.Lookup (bytes "abc")).1
        = ((run abcOps).Lookup (bytes "abc")).1) ∧
    (bytes "abc" ≠ bytes "ab" ∧
      (((run abcOps).Insert (bytes "ab") (some 2)).1.Lookup (bytes "abc")).1
        = ((run abcOps).Lookup (bytes "abc")).1) ∧
    (bytes "abc" ≠ bytes "abd" ∧
      (((run abcOps).Insert (bytes "abd") (some 2)).1.Lookup (bytes "abc")).1
        = ((run abcOps).Lookup (bytes "abc")).1) :=
  ⟨⟨by decide, Insert_frame abcOps _ _ 2 (by decide)⟩,
   ⟨by decide, Insert_frame abcOps _ _ 2 (by decide)⟩,
   ⟨by decide, Insert_frame abcOps _ _ 2 (by decide)⟩,
   ⟨by decide, Insert_frame abcOps _ _ 2 (by decide)⟩⟩

/-! ### The nodes of a well-shaped tree are fixed by its bindings -/

theorem lcp_self (a : Str) : lcp a a = a.length := (lcp_eq_length_iff a a).2 (List.prefix_refl a)

/-- What `Lookup` reports with `true` is a node. -/
theorem IsNode_of_flag (n : Radix V) (key : Str) (h : (n.Lookup key).2 = true) :
    IsNode n key := by
  generalize hlen : key.length = len
  induction len using Nat.strong_induction_on generalizing n key with
  | _ len ih =>
    obtain ⟨es, v⟩ := n
    by_cases hk : key = []
    · subst hk; exact IsNode.root _
    · rcases edges_cases es key with hm | ⟨a, e, b, rfl, ha, he⟩
      · rw [Lookup_miss es v key hk hm] at h; simp at h
      · by_cases hl : lcp e.pfx key = e.pfx.length
        · rw [Lookup_hit a b e v key ha he hl] at h
          have hlt := drop_length_lt he
          have hb := ih _ (by omega) _ _ h rfl
          obtain ⟨r, rfl⟩ := (lcp_eq_length_iff _ _).1 hl
          rw [List.drop_left] at hb
          exact IsNode.edge _ v e r (by simp) hb
        · rw [Lookup_short a b e v key ha he hl] at h; simp at h

/-- In a well-shaped tree `Lookup` reports every node with `true`. -/
theorem flag_of_IsNode {n : Radix V} (hinv : Inv n) {key : Str} (h : IsNode n key) :
    (n.Lookup key).2 = true := by
  induction h with
  | root n => rw [Lookup_nil]
  | edge es val e r hmem _ ih =>
    have hi := (Inv_iff _ _).1 hinv
    rw [Lookup_edge hi.2.1 val hmem (hi.1 e hmem) r]
    exact ih (hi.2.2.2 e hmem)

theorem head_append_of_ne_nil {p : Str} (hp : p ≠ []) (r : Str) : (p ++ r).head? = p.head? := by
  cases p with
  | nil => exact absurd rfl hp
  | cons x p => rfl

/-- Keys that leave a well-shaped node through different edges share no leading byte. -/
theorem lcp_of_ne_edges {es : List (radixEdge V)} {val : Option V} (hinv : Inv (.mk es val))
    {e1 e2 : radixEdge V} (h1 : e1 ∈ es) (h2 : e2 ∈ es) (hne : e1 ≠ e2) (r1 r2 : Str) :
    lcp (e1.pfx ++ r1) (e2.pfx ++ r2) = 0 := by
  have hi := (Inv_iff _ _).1 hinv
  by_contra h0
  have hh := ((lcp_ne_zero_iff _ _).1 h0).2
  rw [head_append_of_ne_nil (hi.1 e1 h1), head_append_of_ne_nil (hi.1 e2 h2)] at hh
  exact hne (List.inj_on_of_nodup_map hi.2.1 h1 h2 hh)

/-- Below a node of a well-shaped tree that is not redundant there are two
bound keys that share no leading byte (the empty key twice when the node holds
a value). -/
theorem exists_branch {n : Radix V} (hinv : Inv n) (hr : ¬ n.redundant) :
    ∃ a b wa wb, Binds n a wa ∧ Binds n b wb ∧ lcp a b = 0 := by
  -- first: every node that is not redundant binds some key
  have live : ∀ m : Radix V, Inv m → ¬ m.redundant → ∃ k w, Binds m k w := by
    intro m hm
    induction hm with
    | mk es v hne hnd hcan hsub ih =>
      intro hred
      cases v with
      | some w => exact ⟨[], w, Binds.here es w⟩
      | none =>
        cases es with
        | nil => exact absurd ⟨rfl, by simp⟩ hred
        | cons e rest =>
          obtain ⟨k, w, hb⟩ := ih e (by simp) (hcan e (by simp))
          exact ⟨e.pfx ++ k, w, Binds.edge _ none e k w (by simp) hb⟩
  obtain ⟨es, v⟩ := n
  have hi := (Inv_iff _ _).1 hinv
  cases v with
  | some w => exact ⟨[], [], w, w, Binds.here es w, Binds.here es w, by simp⟩
  | none =>
    match es, hinv, hi, hr with
    | [], _, _, hr => exact absurd ⟨rfl, by simp⟩ hr
    | [_], _, _, hr => exact absurd ⟨rfl, by simp⟩ hr
    | e1 :: e2 :: rest, hinv, hi, _ =>
      obtain ⟨k1, w1, hb1⟩ := live e1.node (hi.2.2.2 e1 (by simp)) (hi.2.2.1 e1 (by simp))
      obtain ⟨k2, w2, hb2⟩ := live e2.node (hi.2.2.2 e2 (by simp)) (hi.2.2.1 e2 (by simp))
      have hne : e1 ≠ e2 := by
        rintro rfl
        have := hi.2.1
        simp at this
      exact ⟨e1.pfx ++ k1, e2.pfx ++ k2, w1, w2,
        Binds.edge _ none e1 k1 w1 (by simp) hb1,
        Binds.edge _ none e2 k2 w2 (by simp) hb2,
        lcp_of_ne_edges hinv (by simp) (by simp) hne k1 k2⟩

/-- Every node of a well-shaped tree below the root is the common prefix of two bound keys. -/
theorem IsNode_branch {n : Radix V} (hinv : Inv n) {q : Str} (h : IsNode n q) :
    q = [] ∨ ∃ a b wa wb, Binds n a wa ∧ Binds n b wb ∧ q = a.take (lcp a b) := by
  induction h with
  | root n => exact Or.inl rfl
  | edge es val e r hmem hnode ih =>
    have hi := (Inv_iff _ _).1 hinv
    right
    have lift : ∀ a b wa wb, Binds e.node a wa → Binds e.node b wb → r = a.take (lcp a b) →
        ∃ a b wa wb, Binds (Radix.mk es val) a wa ∧ Binds (Radix.mk es val) b wb ∧
          e.pfx ++ r = a.take (lcp a b) := by
      intro a b wa wb ha hb hr
      refine ⟨e.pfx ++ a, e.pfx ++ b, wa, wb, Binds.edge _ val e a wa hmem ha,
        Binds.edge _ val e b wb hmem hb, ?_⟩
      rw [lcp_append_left, List.take_append, hr]
    rcases ih (hi.2.2.2 e hmem) with rfl | ⟨a, b, wa, wb, ha, hb, hr⟩
    · obtain ⟨a, b, wa, wb, ha, hb, h0⟩ := exists_branch (hi.2.2.2 e hmem) (hi.2.2.1 e hmem)
      exact lift a b wa wb ha hb (by rw [h0, List.take_zero])
    · exact lift a b wa wb ha hb hr

/-- The common prefix of two bound keys is a node of a well-shaped tree. -/
theorem IsNode_of_Binds {n : Radix V} (hinv : Inv n) {a b : Str} {wa wb : V}
    (ha : Binds n a wa) (hb : Binds n b wb) : IsNode n (a.take (lcp a b)) := by
  induction ha generalizing b with
  | here es v => simpa using IsNode.root _
  | edge es val e r w hmem _ ih =>
    have hi := (Inv_iff _ _).1 hinv
    rw [Binds_mk_iff] at hb
    rcases hb with ⟨rfl, -⟩ | ⟨e2, hmem2, r2, rfl, hb2⟩
    · simpa using IsNode.root _
    · by_cases hee : e = e2
      · subst hee
        rw [lcp_append_left, List.take_append]
        exact IsNode.edge _ val e _ hmem (ih (hi.2.2.2 e hmem) hb2)
      · rw [lcp_of_ne_edges hinv hmem hmem2 hee r r2, List.take_zero]
        exact IsNode.root _

/-- Two well-shaped trees with the same bindings have the same nodes. -/
theorem IsNode_congr {t1 t2 : Radix V} (h1 : Inv t1) (h2 : Inv t2)
    (hb : ∀ k w, Binds t1 k w ↔ Binds t2 k w) (q : Str) : IsNode t1 q ↔ IsNode t2 q := by
  constructor
  · intro h
    rcases IsNode_branch h1 h with rfl | ⟨a, b, wa, wb, ha, hb2, rfl⟩
    · exact IsNode.root _
    · exact IsNode_of_Binds h2 ((hb a wa).1 ha) ((hb b wb).1 hb2)
  · intro h
    rcases IsNode_branch h2 h with rfl | ⟨a, b, wa, wb, ha, hb2, rfl⟩
    · exact IsNode.root _
    · exact IsNode_of_Binds h1 ((hb a wa).2 ha) ((hb b wb).2 hb2)

/-- Two well-shaped trees with the same bindings answer `Lookup` alike. -/
theorem Lookup_congr {t1 t2 : Radix V} (h1 : Inv t1) (h2 : Inv t2)
    (hb : ∀ k w, Binds t1 k w ↔ Binds t2 k w) (q : Str) : t1.Lookup q = t2.Lookup q := by
  apply Prod.ext
  · exact Lookup_fst_congr h1 h2 q (fun w => hb q w)
  · have hn := IsNode_congr h1 h2 hb q
    cases hf1 : (t1.Lookup q).2 with
    | true => exact (flag_of_IsNode h2 (hn.1 (IsNode_of_flag _ _ hf1))).symm
    | false =>
      cases hf2 : (t2.Lookup q).2 with
      | false => rfl
      | true =>
        rw [flag_of_IsNode h1 (hn.2 (IsNode_of_flag _ _ hf2))] at hf1
        exact Bool.noConfusion hf1

/-- Two well-shaped trees with the same bindings answer `LookupPath` alike. -/
theorem LookupPath_congr {t1 t2 : Radix V} (h1 : Inv t1) (h2 : Inv t2)
    (hb : ∀ k w, Binds t1 k w ↔ Binds t2 k w) (p : Str) :
    t1.LookupPath p = t2.LookupPath p := by
  have hL := Lookup_congr h1 h2 hb p
  cases hf : (t1.Lookup p).2 with
  | true =>
    unfold Radix.LookupPath
    rw [LookupPathFuel_exact _ _ _ _ (Nat.lt_succ_self _) hf,
      LookupPathFuel_exact _ _ _ _ (Nat.lt_succ_self _) (by rw [← hL]; exact hf), hL]
  | false =>
    have hf2 : (t2.Lookup p).2 = false := by rw [← hL]; exact hf
    have m1 := LookupPathFuel_fallback (p.length + 1) t1 t1 p (Nat.lt_succ_self _) h1 hf
    have m2 := LookupPathFuel_fallback (p.length + 1) t2 t2 p (Nat.lt_succ_self _) h2 hf2
    unfold Radix.LookupPath
    by_cases hex : ∃ K w, Binds t1 K w ∧ endsSlash K ∧ K <+: p
    · classical
      let P : Nat → Prop := fun n => ∃ K w, Binds t1 K w ∧ endsSlash K ∧ K <+: p ∧ K.length = n
      obtain ⟨K0, w0, hb0, hs0, hp0⟩ := hex
      have hP0 : P K0.length := ⟨K0, w0, hb0, hs0, hp0, rfl⟩
      obtain ⟨K, w, hbK, hsK, hpK, hlenK⟩ := Nat.findGreatest_spec hp0.length_le hP0
      have hmax : ∀ K2 w2, Binds t1 K2 w2 → endsSlash K2 → K2 <+: p → K2.length ≤ K.length := by
        intro K2 w2 hb2 hs2 hp2
        rw [hlenK]
        exact Nat.le_findGreatest hp2.length_le ⟨K2, w2, hb2, hs2, hp2, rfl⟩
      rw [m1.1 K w hbK hsK hpK hmax,
        m2.1 K w ((hb K w).1 hbK) hsK hpK
          (fun K2 w2 hb2 hs2 hp2 => hmax K2 w2 ((hb K2 w2).2 hb2) hs2 hp2)]
    · have hno1 : ∀ K w, Binds t1 K w → endsSlash K → ¬ K <+: p :=
        fun K w hbK hsK hpK => hex ⟨K, w, hbK, hsK, hpK⟩
      have hno2 : ∀ K w, Binds t2 K w → endsSlash K → ¬ K <+: p :=
        fun K w hbK hsK hpK => hex ⟨K, w, (hb K w).2 hbK, hsK, hpK⟩
      rw [m1.2 hno1, m2.2 hno2]
      apply Option.ext
      intro w
      rw [Option.mem_def, Option.mem_def, ← Binds_nil_iff h1, ← Binds_nil_iff h2]
      exact hb [] w

/-! ### Inserting a list of pairs -/

theorem insertAll_append (l : List (Str × V)) (kv : Str × V) :
    insertAll (l ++ [kv]) = insertAll l ++ [Op.Insert kv.1 (some kv.2)] := by
  simp [insertAll]

/-- With pairwise different keys, a key holds `v` after the insertions exactly
when the pair is in the list. -/
theorem held_insertAll (l : List (Str × V)) (hnd : (l.map Prod.fst).Nodup) (k : Str) (v : V) :
    held (insertAll l) k = some v ↔ (k, v) ∈ l := by
  induction l using List.reverseRecOn with
  | nil => simp [insertAll, held]
  | append_singleton l kv ih =>
    rw [insertAll_append, held_append, Op.update]
    rw [List.map_append, List.nodup_append] at hnd
    obtain ⟨hnd1, -, hdis⟩ := hnd
    by_cases hk : kv.1 = k
    · subst hk
      rw [if_pos rfl]
      have hnot : ∀ v, (kv.1, v) ∉ l := by
        intro v hv
        exact hdis (List.mem_map_of_mem Prod.fst hv) (by simp)
      constructor
      · intro h
        have hv : kv.2 = v := Option.some.inj h
        subst hv
        simp
      · intro h
        rcases List.mem_append.1 h with h | h
        · exact absurd h (hnot v)
        · have := List.mem_singleton.1 h
          rw [← this]
    · rw [if_neg hk, ih hnd1]
      constructor
      · intro h; exact List.mem_append_left _ h
      · intro h
        rcases List.mem_append.1 h with h | h
        · exact h
        · have := List.mem_singleton.1 h
          exact absurd (congrArg Prod.fst this).symm hk

/-- C11 (insertion-order independence).  For every list of (key, non-nil value)
pairs with pairwise distinct keys and every permutation of it, the trees built
by inserting the pairs into an empty tree in the two orders have the same
nodes and return the same results for `Lookup(q)` and `LookupPath(q)`, for
every query `q`. -/
theorem insertion_order_independent (l1 l2 : List (Str × V)) (hp : l1.Perm l2)
    (hnd : (l1.map Prod.fst).Nodup) (q : Str) :
    (run (insertAll l1)).Lookup q = (run (insertAll l2)).Lookup q ∧
    (run (insertAll l1)).LookupPath q = (run (insertAll l2)).LookupPath q ∧
    (IsNode (run (insertAll l1)) q ↔ IsNode (run (insertAll l2)) q) := by
  have hnd2 : (l2.map Prod.fst).Nodup := ((hp.map Prod.fst).nodup_iff).1 hnd
  have hb : ∀ k w, Binds (run (insertAll l1)) k w ↔ Binds (run (insertAll l2)) k w := by
    intro k w
    rw [Binds_run, Binds_run, held_insertAll l1 hnd, held_insertAll l2 hnd2]
    exact hp.mem_iff
  exact ⟨Lookup_congr (Inv_run _) (Inv_run _) hb q,
    LookupPath_congr (Inv_run _) (Inv_run _) hb q,
    IsNode_congr (Inv_run _) (Inv_run _) hb q⟩

/-- Witness of C11: three routes inserted in two orders answer `/a/x` alike. -/
theorem insertion_order_independent_witness :
    pairsA.Perm pairsB ∧ (pairsA.map Prod.fst).Nodup ∧
    ((run (insertAll pairsA)).Lookup (bytes "/a/x") = (run (insertAll pairsB)).Lookup (bytes "/a/x") ∧
     (run (insertAll pairsA)).LookupPath (bytes "/a/x")
       = (run (insertAll pairsB)).LookupPath (bytes "/a/x") ∧
     (IsNode (run (insertAll pairsA)) (bytes "/a/x") ↔
       IsNode (run (insertAll pairsB)) (bytes "/a/x"))) :=
  ⟨by decide, by decide, insertion_order_independent pairsA pairsB (by decide) (by decide) _⟩

/-! ### The router -/

/-- The loop of `prepare` applies the first `i` middleware, the last of them first. -/
theorem wrapLoop_eq (mw : List (MiddlewareFunc H)) (i : Nat) (hi : i ≤ mw.length)
    (handler : Option H) :
    wrapLoop mw i handler = (mw.take i).foldr (fun m next => m next) handler := by
  induction i generalizing handler with
  | zero => simp [wrapLoop]
  | succ i ih =>
    have hlt : i < mw.length := hi
    have htake : mw.take (i + 1) = mw.take i ++ [mw[i]] := by
      rw [List.take_succ, List.getElem?_eq_getElem hlt]
      rfl
    rw [wrapLoop, List.getElem?_eq_getElem hlt]
    simp only []
    rw [ih (by omega), htake, List.foldr_append]
    rfl

theorem prepare_found (r : Router H) (path : Str) (h : H)
    (hres : r.radix.LookupPath path = some h) :
    r.prepare path = r.mw.foldr (fun m next => m next) (some h) := by
  unfold Router.prepare
  rw [hres]
  simp only []
  rw [wrapLoop_eq _ _ (Nat.le_refl _), List.take_length]

theorem prepare_missing (r : Router H) (path : Str) (hres : r.radix.LookupPath path = none) :
    r.prepare path = r.NotFoundHandler := by
  unfold Router.prepare
  rw [hres]

theorem Router_Lookup_eq (r : Router H) (path : Str) :
    r.Lookup path = r.radix.LookupPath path := by
  unfold Router.Lookup
  cases r.radix.LookupPath path <;> rfl

theorem foldl_apply_mw (ops : List (RouterOp H)) (r : Router H) :
    (ops.foldl RouterOp.apply r).mw = r.mw ++ usedMw ops := by
  induction ops generalizing r with
  | nil => simp [usedMw]
  | cons op ops ih =>
    rw [List.foldl_cons, ih]
    cases op <;>
      simp [RouterOp.apply, usedMw, Router.Use, Router.Handle, Router.HandleFunc, Router.Remove]

/-- The tree of a router reached from `NewRouter()` is well-shaped. -/
theorem Inv_runRouter (notFound : H) (ops : List (RouterOp H)) :
    Inv (runRouter notFound ops).radix := by
  have gen : ∀ (ops : List (RouterOp H)) (r : Router H), Inv r.radix →
      Inv (ops.foldl RouterOp.apply r).radix := by
    intro ops
    induction ops with
    | nil => intro r hr; exact hr
    | cons op ops ih =>
      intro r hr
      rw [List.foldl_cons]
      apply ih
      cases op with
      | Use mw => exact hr
      | Handle pattern handler => exact Inv_apply r.radix (Op.Insert pattern handler) hr
      | HandleFunc pattern handler => exact Inv_apply r.radix (Op.Insert pattern (some handler)) hr
      | Remove path => exact Inv_apply r.radix (Op.Remove path) hr
  exact gen ops _ (Inv_leaf none)

/-- In a well-shaped tree, a key just inserted resolves to its value. -/
theorem LookupPath_Insert_same (t : Radix V) (hinv : Inv t) (p : Str) (v : V) :
    (t.Insert p (some v)).1.LookupPath p = some v := by
  have hl := Lookup_Insert_same t hinv p v
  unfold Radix.LookupPath
  rw [LookupPathFuel_exact _ _ _ _ (Nat.lt_succ_self _) (by rw [hl]), hl]

theorem LookupPath_new (path : Str) : (Radix.new : Radix V).LookupPath path = none := by
  unfold Radix.LookupPath Radix.new
  by_cases hk : path = []
  · subst hk; rw [LookupPathFuel_nil]; rfl
  · rw [LookupPathFuel_miss _ _ _ _ _ hk (by simp)]; rfl

/-- C12 (middleware order).  For a router whose chain is `M1, ..., Mn` and a
path that resolves to the handler `h`, the handler `ServeHTTP` invokes is
`M1(M2(...Mn(h)...))`; the chain of a router is what its `Use` calls passed,
in call order; and `Use(m1)` followed by `Use(m2)` gives the chain of
`Use(m1, m2)`. -/
theorem middleware_order (r : Router H) (path : Str) (h : H) (hres : r.Lookup path = some h)
    (notFound : H) (ops : List (RouterOp H)) (m1 m2 : List (MiddlewareFunc H)) :
    r.ServeHTTP path = r.mw.foldr (fun m next => m next) (some h) ∧
    (runRouter notFound ops).mw = usedMw ops ∧
    (r.Use m1).Use m2 = r.Use (m1 ++ m2) := by
  refine ⟨?_, ?_, ?_⟩
  · rw [Router_Lookup_eq] at hres
    exact prepare_found r path h hres
  · unfold runRouter
    rw [foldl_apply_mw]
    rfl
  · simp [Router.Use]

/-- Witness of C12 on `TestRouter_Use`: the request `/test` resolves to the
handler at `/` and is served by `mw1(mw2(handler))`, the marks 1, 2, 0 in that order. -/
theorem middleware_order_witness :
    useRouter.Lookup (bytes "/test") = some [0] ∧
    useRouter.ServeHTTP (bytes "/test") = some [1, 2, 0] ∧
    (useRouter.ServeHTTP (bytes "/test")
        = useRouter.mw.foldr (fun m next => m next) (some [0]) ∧
      (runRouter [404] [RouterOp.Use [mwMark 1], RouterOp.Use [mwMark 2]]).mw
        = usedMw [RouterOp.Use [mwMark 1], RouterOp.Use [mwMark 2]] ∧
      (useRouter.Use [mwMark 1]).Use [mwMark 2] = useRouter.Use ([mwMark 1] ++ [mwMark 2])) :=
  ⟨by decide, by decide,
    middleware_order useRouter (bytes "/test") [0] (by decide) [404] _ _ _⟩

/-- C13 (not found bypasses the middleware).  For every router and every path
for which `Lookup` returns no handler, `ServeHTTP` invokes `NotFoundHandler`
itself, whatever the chain holds; so does every path on a new router with any
middleware and no pattern. -/
theorem notFound_bypasses_middleware (r : Router H) (path : Str)
    (hmiss : r.Lookup path = none) (notFound : H) (mw : List (MiddlewareFunc H))
    (path2 : Str) :
    r.ServeHTTP path = r.NotFoundHandler ∧
    ((NewRouter notFound).Use mw).ServeHTTP path2 = some notFound := by
  constructor
  · rw [Router_Lookup_eq] at hmiss
    exact prepare_missing r path hmiss
  · exact prepare_missing _ path2 (LookupPath_new path2)

/-- Witness of C13 on `TestRouter_NewRouter` with two middleware registered:
`/not/found` is served by the bare not-found handler. -/
theorem notFound_bypasses_middleware_witness :
    ((NewRouter [404]).Use [mwMark 1, mwMark 2]).Lookup (bytes "/not/found") = none ∧
    (((NewRouter [404]).Use [mwMark 1, mwMark 2]).ServeHTTP (bytes "/not/found")
        = ((NewRouter [404]).Use [mwMark 1, mwMark 2]).NotFoundHandler ∧
      ((NewRouter [404]).Use [mwMark 1]).ServeHTTP (bytes "/") = some [404]) :=
  ⟨by decide, notFound_bypasses_middleware _ (bytes "/not/found") (by decide) [404] _ _⟩

/-- C14 (`Handle` registers and replaces).  On every router reached from
`NewRouter()`, for every pattern `p` and non-nil handlers `h1`, `h2`: after
`Handle(p, h1)` the call `Lookup(p)` returns `h1`, after a further
`Handle(p, h2)` it returns `h2`, and `HandleFunc(p, h1)` leaves the router that
`Handle(p, h1)` does. -/
theorem Handle_registers_and_replaces (notFound : H) (ops : List (RouterOp H)) (p : Str)
    (h1 h2 : H) :
    ((runRouter notFound ops).Handle p (some h1)).Lookup p = some h1 ∧
    (((runRouter notFound ops).Handle p (some h1)).Handle p (some h2)).Lookup p = some h2 ∧
    (runRouter notFound ops).HandleFunc p h1 = (runRouter notFound ops).Handle p (some h1) := by
  have hinv := Inv_runRouter notFound ops
  have hinv1 : Inv ((runRouter notFound ops).radix.Insert p (some h1)).1 :=
    Inv_InsertFuel _ _ _ _ hinv
  refine ⟨?_, ?_, rfl⟩
  · rw [Router_Lookup_eq]
    exact LookupPath_Insert_same _ hinv p h1
  · rw [Router_Lookup_eq]
    exact LookupPath_Insert_same _ hinv1 p h2

/-- C15 (`Router.Lookup` on a miss), on a new router: no handler is found for
`/not/found` and `Lookup` returns `nil`, not the router's `NotFoundHandler`,
which `ServeHTTP` does use for the same path. -/
theorem Router_Lookup_miss_is_nil :
    (NewRouter (404 : Nat)).Lookup (bytes "/not/found") = none ∧
    (NewRouter (404 : Nat)).NotFoundHandler = some 404 ∧
    (NewRouter (404 : Nat)).ServeHTTP (bytes "/not/found") = some 404 := by
  refine ⟨by decide, by decide, by decide⟩

/-- The traced loop of `prepare` computes the handler of the loop and performs
the calls of the middleware from the last to the first. -/
theorem wrapLoopTraced_eq (mw : List (MiddlewareFunc H)) (calls : Nat → List Event) (n : Nat)
    (hn : n ≤ mw.length) (handler : Option H) (f : Frame) :
    wrapLoopTraced mw calls n handler f
      = (wrapLoop mw n handler, f.execAll (wrapCalls calls n)) := by
  induction n generalizing handler f with
  | zero => simp [wrapLoopTraced, wrapLoop, wrapCalls, Frame.execAll]
  | succ i ih =>
    have hi : i < mw.length := by omega
    have hget : mw[i]? = some mw[i] := List.getElem?_eq_getElem hi
    unfold wrapLoopTraced wrapLoop
    simp only [hget]
    rw [ih (by omega)]
    simp [Frame.exec, Frame.execAll, wrapCalls]

/-- The traced `prepare` returns what `prepare` returns; its events are `RLock`,
the calls of the middleware when a handler resolves, and `RUnlock`. -/
theorem prepareTraced_eq (r : Router H) (path : Str) (calls : Nat → List Event) :
    r.prepareTraced path calls
      = (r.prepare path,
         Event.RLock ::
           (wrapCalls calls (match r.Lookup path with
                             | some _ => r.mw.length
                             | none => 0) ++ [Event.RUnlock])) := by
  rw [Router_Lookup_eq]
  unfold Router.prepareTraced Router.prepare
  cases hres : r.radix.LookupPath path with
  | none => rfl
  | some h =>
    simp only []
    rw [wrapLoopTraced_eq _ _ _ (le_refl _)]
    simp [Frame.exec, Frame.execAll, Frame.defer, Frame.leave, Frame.enter]

/-- Calls of middleware that leaves the router alone do not change the state
of the lock. -/
theorem disciplined_wrapCalls (calls : Nat → List Event) (n : Nat) (rest : List Event)
    (h : ∀ i, i < n → calls i = []) :
    disciplined false .read (wrapCalls calls n ++ rest) = disciplined false .read rest := by
  induction n with
  | zero => rfl
  | succ n ih =>
    have h0 : calls n = [] := h n (by omega)
    have ih1 := ih (fun i hi => h i (by omega))
    simp only [wrapCalls, h0, List.nil_append, List.cons_append]
    rw [← ih1]
    rfl

/-- C17 as stated fails on `TestRouter_Use`: serving `/test` calls the two
middleware functions between `RLock` and the deferred `RUnlock` of `prepare`,
and this is the only breach, for middleware that leaves the router alone.
When the first middleware function calls `r.Lookup("/")` while it wraps, the
read lock is acquired by the goroutine that holds it. -/
theorem lock_held_during_wrap :
    (useRouter.ServeHTTPTraced (bytes "/test") (fun _ => []) []).1 = some [1, 2, 0] ∧
    (useRouter.ServeHTTPTraced (bytes "/test") (fun _ => []) []).2
      = [Event.RLock, Event.Wrap 1, Event.Wrap 0, Event.RUnlock, Event.Serve] ∧
    disciplined true .free
      (useRouter.ServeHTTPTraced (bytes "/test") (fun _ => []) []).2 = false ∧
    disciplined false .free
      (useRouter.ServeHTTPTraced (bytes "/test") (fun _ => []) []).2 = true ∧
    (useRouter.ServeHTTPTraced (bytes "/test")
        (fun i => if i = 0 then (useRouter.LookupTraced (bytes "/")).2 else []) []).2
      = [Event.RLock, Event.Wrap 1, Event.Wrap 0, Event.RLock, Event.RUnlock,
         Event.RUnlock, Event.Serve] ∧
    disciplined false .free
      (useRouter.ServeHTTPTraced (bytes "/test")
        (fun i => if i = 0 then (useRouter.LookupTraced (bytes "/")).2 else []) []).2
      = false := by
  refine ⟨by decide, rfl, by decide, by decide, rfl, by decide⟩

/-- C17, amended (lock discipline).  `Use`, `Handle`, `HandleFunc` and `Remove`
return what they return without the lock and perform exactly `Lock`, then
`Unlock` on return; `Lookup` performs exactly `RLock`, then `RUnlock` on
return; none of them calls user-supplied code.  `ServeHTTP` performs `RLock`,
then, when a handler resolves, the calls `r.mw[i](handler)` from the last
middleware to the first, each followed by what that call does to the router,
then `RUnlock`, and only then the call of the prepared handler.  So the
prepared handler always runs with the lock released; the middleware functions
that wrap a resolved handler run with the read lock held, which breaks the
discipline as soon as there is one; the lock is not acquired again while held
provided that no middleware function calls a method of the router while it
wraps; and no user-supplied code at all runs under the lock when no handler
resolves or no middleware is installed. -/
theorem lock_discipline (r : Router H) (mw : List (MiddlewareFunc H)) (pattern path : Str)
    (handler : Option H) (fn : H) (calls : Nat → List Event) (served : List Event) :
    r.UseTraced mw = (r.Use mw, [Event.Lock, Event.Unlock]) ∧
    r.HandleTraced pattern handler
      = (r.Handle pattern handler, [Event.Lock, Event.Unlock]) ∧
    r.HandleFuncTraced pattern fn = (r.HandleFunc pattern fn, [Event.Lock, Event.Unlock]) ∧
    r.RemoveTraced path = (r.Remove path, [Event.Lock, Event.Unlock]) ∧
    r.LookupTraced path = (r.Lookup path, [Event.RLock, Event.RUnlock]) ∧
    r.ServeHTTPTraced path calls served
      = (r.ServeHTTP path,
         Event.RLock ::
           (wrapCalls calls (match r.Lookup path with
                             | some _ => r.mw.length
                             | none => 0)
             ++ Event.RUnlock :: Event.Serve :: served)) ∧
    ((r.Lookup path).isSome = true → r.mw ≠ [] →
      disciplined true .free (r.ServeHTTPTraced path calls served).2 = false) ∧
    ((∀ i, i < r.mw.length → calls i = []) →
      disciplined false .free (r.ServeHTTPTraced path calls served).2
        = disciplined false .free served) ∧
    (r.Lookup path = none ∨ r.mw = [] →
      disciplined true .free (r.ServeHTTPTraced path calls served).2
        = disciplined true .free served) := by
  have hserve : r.ServeHTTPTraced path calls served
      = (r.ServeHTTP path,
         Event.RLock ::
           (wrapCalls calls (match r.Lookup path with
                             | some _ => r.mw.length
                             | none => 0)
             ++ Event.RUnlock :: Event.Serve :: served)) := by
    unfold Router.ServeHTTPTraced Router.ServeHTTP
    rw [prepareTraced_eq]
    simp
  refine ⟨rfl, rfl, rfl, rfl, ?_, hserve, ?_, ?_, ?_⟩
  · unfold Router.LookupTraced Router.Lookup
    cases r.radix.LookupPath path <;> rfl
  · intro hsome hmw
    rw [hserve]
    obtain ⟨h, hh⟩ := Option.isSome_iff_exists.mp hsome
    obtain ⟨n, hn⟩ : ∃ n, r.mw.length = n + 1 :=
      Nat.exists_eq_succ_of_ne_zero (fun h0 => hmw (List.length_eq_zero.mp h0))
    simp only [hh, hn]
    rfl
  · intro hcalls
    rw [hserve]
    have hk : (match r.Lookup path with
               | some _ => r.mw.length
               | none => 0) ≤ r.mw.length := by
      cases r.Lookup path <;> simp
    show disciplined false .read _ = _
    rw [disciplined_wrapCalls calls _ _ (fun i hi => hcalls i (by omega))]
    rfl
  · intro hor
    rw [hserve]
    have hk : (match r.Lookup path with
               | some _ => r.mw.length
               | none => 0) = 0 := by
      rcases hor with hnone | hmw
      · rw [hnone]
      · cases r.Lookup path <;> simp [hmw]
    rw [hk]
    rfl

/-- Witness of C17, amended: `/test` on the router of `TestRouter_Use` and
`/not/found` on a router with the same middleware and no handler, with
middleware that leaves the router alone. -/
theorem lock_discipline_witness :
    ((useRouter.Lookup (bytes "/test")).isSome = true ∧ useRouter.mw ≠ [] ∧
      disciplined true .free
        (useRouter.ServeHTTPTraced (bytes "/test") (fun _ => []) []).2 = false) ∧
    ((∀ i, i < useRouter.mw.length → (fun _ => ([] : List Event)) i = []) ∧
      disciplined false .free
        (useRouter.ServeHTTPTraced (bytes "/test") (fun _ => []) []).2 = true) ∧
    (((NewRouter [404]).Use [mwMark 1, mwMark 2]).Lookup (bytes "/not/found") = none ∧
      disciplined true .free
        (((NewRouter [404]).Use [mwMark 1, mwMark 2]).ServeHTTPTraced
          (bytes "/not/found") (fun _ => []) []).2 = true) :=
  ⟨⟨by decide, List.cons_ne_nil (mwMark 1) [mwMark 2],
    (lock_discipline useRouter [] [] (bytes "/test") none [] (fun _ => []) []).2.2.2.2.2.2.1
      (by decide) (List.cons_ne_nil (mwMark 1) [mwMark 2])⟩,
   ⟨fun _ _ => rfl,
    (lock_discipline useRouter [] [] (bytes "/test") none [] (fun _ => []) []).2.2.2.2.2.2.2.1
      (fun _ _ => rfl)⟩,
   ⟨by decide,
    (lock_discipline ((NewRouter [404]).Use [mwMark 1, mwMark 2]) [] [] (bytes "/not/found")
      none [] (fun _ => []) []).2.2.2.2.2.2.2.2 (Or.inl (by decide))⟩⟩

/-! ### `strcmp`, `find` and `split` -/

/-- Where the common prefix stops, one string ends or the next bytes differ. -/
theorem lcp_stop (a b : Str) :
    lcp a b = min a.length b.length ∨
    ∃ x y, a[lcp a b]? = some x ∧ b[lcp a b]? = some y ∧ x ≠ y := by
  induction a generalizing b with
  | nil => left; simp
  | cons x a ih =>
    cases b with
    | nil => left; simp
    | cons y b =>
      by_cases h : x = y
      · subst h
        rcases ih b with h1 | ⟨u, v, hu, hv, huv⟩
        · left
          simp only [lcp_cons, if_true, List.length_cons, h1]
          omega
        · right
          refine ⟨u, v, ?_, ?_, huv⟩
          · simpa using hu
          · simpa using hv
      · right
        exact ⟨x, y, by simp [h], by simp [h], h⟩

theorem lcp_ne_zero_iff_shares (p key : Str) :
    lcp p key ≠ 0 ↔ ∃ c, p.head? = some c ∧ key.head? = some c := by
  rw [lcp_ne_zero_iff]
  cases p with
  | nil => simp
  | cons x p => simp [eq_comm]

/-- C24 (`strcmp` is the common-prefix length).  For all strings `a` and `b`,
`n = strcmp(a, b)` satisfies `n ≤ min(len(a), len(b))`, `a[:n] = b[:n]`, and
either `n = min(len(a), len(b))` or `a[n] ≠ b[n]`; `strcmp(a, b) = strcmp(b, a)`;
and the five rows of `TestRadix_strcmp` hold. -/
theorem strcmp_common_prefix (a b : Str) :
    strcmp a b ≤ min a.length b.length ∧
    a.take (strcmp a b) = b.take (strcmp a b) ∧
    (strcmp a b = min a.length b.length ∨
      ∃ x y, a[strcmp a b]? = some x ∧ b[strcmp a b]? = some y ∧ x ≠ y) ∧
    strcmp a b = strcmp b a ∧
    (strcmp (bytes "water") (bytes "apple") = 0 ∧
      strcmp (bytes "water") (bytes "water") = 5 ∧
      strcmp (bytes "water") (bytes "watermelon") = 5 ∧
      strcmp (bytes "watermelon") (bytes "water") = 5 ∧
      strcmp (bytes "water") (bytes "wine") = 1 ∧
      strcmp (bytes "wine") (bytes "water") = 1) := by
  refine ⟨?_, ?_, ?_, ?_, by decide⟩
  · rw [strcmp_eq_lcp]
    exact Nat.le_min.2 ⟨lcp_le_left a b, lcp_le_right a b⟩
  · rw [strcmp_eq_lcp]
    exact lcp_take a b
  · rw [strcmp_eq_lcp]
    exact lcp_stop a b
  · rw [strcmp_eq_lcp, strcmp_eq_lcp, lcp_comm]

/-- What `find` returns on a node with pairwise different leading bytes. -/
theorem find_spec (es : List (radixEdge V)) (v : Option V) (key : Str)
    (hnd : (es.map radixEdge.head).Nodup) :
    ((Radix.mk es v).find key = (-1, none, 0) ∧ ∀ e ∈ es, lcp e.pfx key = 0) ∨
    ∃ (i : Nat) (e : radixEdge V), es[i]? = some e ∧ lcp e.pfx key ≠ 0 ∧
      (Radix.mk es v).find key = ((i : Int), some e, lcp e.pfx key) ∧
      ∀ e2 ∈ es, e2 ≠ e → lcp e2.pfx key = 0 := by
  rcases edges_cases es key with hm | ⟨a, e, b, rfl, ha, he⟩
  · exact Or.inl ⟨Radix.find_miss es v key hm, hm⟩
  · right
    refine ⟨a.length, e, ?_, he, Radix.find_hit a b e v key ha he, ?_⟩
    · rw [List.getElem?_append_right (Nat.le_refl _)]
      simp
    intro e2 h2 hne
    rcases List.mem_append.1 h2 with h2 | h2
    · exact ha e2 h2
    · rcases List.mem_cons.1 h2 with rfl | h2
      · exact absurd rfl hne
      · by_contra h0
        exact head_ne_of_others hnd (Or.inr h2) (head_eq_of_lcp he h0)

/-- C23 (`find` returns the longest match).  At every node of a reachable tree
and for every key: `find(key)` is `(-1, nil, 0)` exactly when no edge shares a
first byte with the key; otherwise it returns the index `i`, the edge
`n.edges[i]` and the shared length `strcmp(e.prefix, key)` of an edge that
shares a first byte with the key, and no edge of the node has a longer common
prefix with the key (every other edge shares nothing with it). -/
theorem find_longest_match (ops : List (Op V)) (path : List Nat) (n : Radix V) (key : Str)
    (hn : nodeAt (run ops) path = some n) :
    (n.find key = (-1, none, 0) ↔ ∀ e ∈ n.edges, ¬ sharesFirstByte e key) ∧
    (n.find key = (-1, none, 0) ∨
      ∃ (i : Nat) (e : radixEdge V), n.find key = ((i : Int), some e, strcmp e.pfx key)) ∧
    (∀ (i : Int) (e : radixEdge V) (l : Nat), n.find key = (i, some e, l) →
      0 ≤ i ∧ n.edges[i.toNat]? = some e ∧ l = lcp e.pfx key ∧ sharesFirstByte e key ∧
      (∀ e2 ∈ n.edges, lcp e2.pfx key ≤ l) ∧
      (∀ e2 ∈ n.edges, e2 ≠ e → lcp e2.pfx key = 0)) := by
  have hinv := (Inv_nodeAt (run ops) path n (Inv_run ops) hn).1
  obtain ⟨es, v⟩ := n
  have hi := (Inv_iff _ _).1 hinv
  simp only [Radix.edges_mk]
  rcases find_spec es v key hi.2.1 with ⟨hf, hm⟩ | ⟨i, e, hie, he, hf, hothers⟩
  · refine ⟨?_, Or.inl hf, ?_⟩
    · refine ⟨fun _ e hmem hs => ?_, fun _ => hf⟩
      exact (lcp_ne_zero_iff_shares _ _).2 hs (hm e hmem)
    · intro i e l h
      rw [hf] at h
      simp at h
  · have hmem : e ∈ es := List.getElem?_mem hie
    refine ⟨?_, Or.inr ⟨i, e, by rw [strcmp_eq_lcp]; exact hf⟩, ?_⟩
    · constructor
      · intro h
        rw [hf] at h
        have := congrArg Prod.fst h
        simp at this
      · intro h
        exact absurd ((lcp_ne_zero_iff_shares _ _).1 he) (h e hmem)
    · intro i2 e2 l h
      rw [hf] at h
      simp only [Prod.mk.injEq, Option.some.injEq] at h
      obtain ⟨rfl, rfl, rfl⟩ := h
      refine ⟨by omega, by simpa using hie, rfl, (lcp_ne_zero_iff_shares _ _).1 he, ?_, hothers⟩
      intro e3 h3
      by_cases h3e : e3 = e
      · rw [h3e]
      · rw [hothers e3 h3 h3e]; omega

/-- Witness of C23 at the branching node below the edge `a`, whose edges are
`b` and `c`: the key `cx` finds edge 1 with shared length 1. -/
theorem find_longest_match_witness :
    nodeAt (run branchOps) [0] = some branchNode ∧
    branchNode.find (bytes "cx") = (1, branchNode.edges[1]?, 1) ∧
    ((branchNode.find (bytes "cx") = (-1, none, 0) ↔
        ∀ e ∈ branchNode.edges, ¬ sharesFirstByte e (bytes "cx")) ∧
      (branchNode.find (bytes "cx") = (-1, none, 0) ∨
        ∃ (i : Nat) (e : radixEdge Nat),
          branchNode.find (bytes "cx") = ((i : Int), some e, strcmp e.pfx (bytes "cx"))) ∧
      (∀ (i : Int) (e : radixEdge Nat) (l : Nat), branchNode.find (bytes "cx") = (i, some e, l) →
        0 ≤ i ∧ branchNode.edges[i.toNat]? = some e ∧ l = lcp e.pfx (bytes "cx") ∧
        sharesFirstByte e (bytes "cx") ∧
        (∀ e2 ∈ branchNode.edges, lcp e2.pfx (bytes "cx") ≤ l) ∧
        (∀ e2 ∈ branchNode.edges, e2 ≠ e → lcp e2.pfx (bytes "cx") = 0))) :=
  ⟨rfl, rfl, find_longest_match branchOps [0] branchNode (bytes "cx") rfl⟩

/-! ### The checked operations never fail -/

theorem strcmpLoopChecked_eq (a b : Str) (hab : a.length ≤ b.length) (fuel eq : Nat) :
    strcmpLoopChecked a b fuel eq = some (strcmpLoop a b fuel eq) := by
  induction fuel generalizing eq with
  | zero => rfl
  | succ fuel ih =>
    unfold strcmpLoopChecked strcmpLoop
    by_cases hlt : eq < a.length
    · have hb : eq < b.length := by omega
      rw [if_pos hlt, List.getElem?_eq_getElem hlt, List.getElem?_eq_getElem hb]
      simp only [Option.some.injEq, hlt, true_and]
      by_cases hx : a[eq] = b[eq]
      · rw [if_pos hx, if_pos hx, ih]
      · rw [if_neg hx, if_neg hx]
    · rw [if_neg hlt, if_neg (fun h => hlt h.1)]

theorem strcmpChecked_eq (a b : Str) : strcmpChecked a b = some (strcmp a b) := by
  unfold strcmpChecked strcmp
  by_cases h : a.length > b.length
  · rw [if_pos h, if_pos h]; exact strcmpLoopChecked_eq b a (by omega) _ _
  · rw [if_neg h, if_neg h]; exact strcmpLoopChecked_eq a b (by omega) _ _

theorem findLoopChecked_eq (es : List (radixEdge V)) (key : Str) (i : Nat) :
    findLoopChecked es key i = some (findLoop es key i) := by
  induction es generalizing i with
  | nil => rfl
  | cons e es ih =>
    unfold findLoopChecked findLoop
    rw [strcmpChecked_eq]
    simp only []
    by_cases h : strcmp e.pfx key ≠ 0
    · rw [if_pos h, if_pos h]
    · rw [if_neg h, if_neg h, ih]

theorem findChecked_eq (n : Radix V) (key : Str) : n.findChecked key = some (n.find key) :=
  findLoopChecked_eq n.edges key 0

theorem sliceFrom_eq {s : Str} {l : Nat} (h : l ≤ s.length) : sliceFrom s l = some (s.drop l) := by
  unfold sliceFrom; rw [if_pos h]

theorem sliceTo_eq {s : Str} {l : Nat} (h : l ≤ s.length) : sliceTo s l = some (s.take l) := by
  unfold sliceTo; rw [if_pos h]

theorem splitChecked_eq (e : radixEdge V) (l : Nat) (h : l ≤ e.pfx.length) :
    e.splitChecked l = some (e.split l) := by
  unfold radixEdge.splitChecked radixEdge.split
  rw [sliceFrom_eq h, sliceTo_eq h]

theorem removeEdgeChecked_eq (es : List (radixEdge V)) (i : Nat) (hi : i < es.length) :
    removeEdgeChecked es (i : Int) = some (removeEdge es i) := by
  unfold removeEdgeChecked removeEdge
  have h1 : (0 : Int) ≤ (es.length : Int) - 1 := by omega
  have h2 : ((es.length : Int) - 1).toNat = es.length - 1 := by omega
  have h3 : (0 : Int) ≤ (i : Int) ∧ (i : Int).toNat < es.length := by
    constructor
    · omega
    · simpa using hi
  rw [if_pos ⟨h1, h3⟩, h2]
  have h4 : es.length - 1 < es.length := by omega
  rw [List.getElem?_eq_getElem h4]
  simp

theorem removeFixupChecked_eq (es : List (radixEdge V)) (i : Nat) (hi : i < es.length)
    (e : radixEdge V) : removeFixupChecked es (i : Int) e = some (removeFixup es i e) := by
  obtain ⟨p, ⟨mes, mval⟩⟩ := e
  unfold removeFixupChecked removeFixup
  cases mval with
  | some v => simp
  | none =>
    match mes with
    | [] => simpa using removeEdgeChecked_eq es i hi
    | [x] => simp
    | _ :: _ :: _ => simp

theorem RemoveCheckedFuel_eq (fuel : Nat) (n : Radix V) (key : Str) :
    Radix.RemoveCheckedFuel fuel n key = some (Radix.RemoveFuel fuel n key) := by
  induction fuel generalizing n key with
  | zero => rfl
  | succ fuel ih =>
    obtain ⟨es, v⟩ := n
    by_cases hk : key = []
    · subst hk
      cases v <;> simp [Radix.RemoveCheckedFuel, Radix.RemoveFuel]
    · rcases edges_cases es key with hm | ⟨a, e, b, rfl, ha, he⟩
      · rw [RemoveFuel_miss _ _ _ _ hk hm]
        simp [Radix.RemoveCheckedFuel, hk, findChecked_eq, Radix.find_miss es v key hm]
      · by_cases hl : lcp e.pfx key = e.pfx.length
        · rw [RemoveFuel_hit _ _ _ _ _ _ ha he hl]
          have hs : sliceFrom key e.pfx.length = some (key.drop e.pfx.length) :=
            sliceFrom_eq (by rw [← hl]; exact lcp_le_right _ _)
          have hfix := removeFixupChecked_eq
            (a ++ radixEdge.mk e.pfx (Radix.RemoveFuel fuel e.node (key.drop e.pfx.length)).1 :: b)
            a.length (by simp)
            (radixEdge.mk e.pfx (Radix.RemoveFuel fuel e.node (key.drop e.pfx.length)).1)
          rw [Radix.RemoveCheckedFuel]
          simp only [if_neg hk, findChecked_eq, Radix.find_hit a b e v key ha he, hl, ne_eq,
            not_true_eq_false, if_false, hs, ih, Radix.edges_mk, Int.toNat_ofNat, set_mid, hfix,
            Radix.value_mk]
        · rw [RemoveFuel_short _ _ _ _ _ _ ha he hl]
          simp [Radix.RemoveCheckedFuel, hk, findChecked_eq, Radix.find_hit a b e v key ha he, hl]

theorem InsertCheckedFuel_eq (fuel : Nat) (n : Radix V) (key : Str) (value : Option V) :
    Radix.InsertCheckedFuel fuel n key value = some (Radix.InsertFuel fuel n key value) := by
  induction fuel generalizing n key with
  | zero => rfl
  | succ fuel ih =>
    cases value with
    | none => simp [Radix.InsertCheckedFuel, Radix.InsertFuel, RemoveCheckedFuel_eq]
    | some w =>
      obtain ⟨es, v⟩ := n
      by_cases hk : key = []
      · subst hk
        cases v <;> simp [Radix.InsertCheckedFuel, Radix.InsertFuel]
      · rcases edges_cases es key with hm | ⟨a, e, b, rfl, ha, he⟩
        · rw [InsertFuel_miss _ _ _ _ _ hk hm]
          simp [Radix.InsertCheckedFuel, hk, findChecked_eq, Radix.find_miss es v key hm]
        · have hle := lcp_le_left e.pfx key
          have hlk := lcp_le_right e.pfx key
          have hsk : sliceFrom key (lcp e.pfx key) = some (key.drop (lcp e.pfx key)) :=
            sliceFrom_eq hlk
          have hsp := splitChecked_eq e (lcp e.pfx key) hle
          by_cases hl : lcp e.pfx key = e.pfx.length
          · rw [InsertFuel_descend _ _ _ _ _ _ _ ha he hl]
            rw [hl] at hsk
            have he2 : e.pfx.length ≠ 0 := by omega
            rw [Radix.InsertCheckedFuel]
            simp only [Option.isNone_some, Bool.false_eq_true, if_false, if_neg hk,
              findChecked_eq, Radix.find_hit a b e v key ha he, hl, if_neg he2, if_true, hsk, ih,
              Radix.edges_mk, Int.toNat_ofNat, set_mid, Radix.value_mk]
          · by_cases hkl : lcp e.pfx key = key.length
            · rw [InsertFuel_split_value _ _ _ _ _ _ _ ha he hl hkl]
              rw [Radix.InsertCheckedFuel]
              simp only [Option.isNone_some, Bool.false_eq_true, if_false, if_neg hk,
                findChecked_eq, Radix.find_hit a b e v key ha he, if_neg he, if_neg hl,
                if_pos hkl, hsp, Radix.edges_mk, Int.toNat_ofNat, set_mid, Radix.value_mk,
                radixEdge.split, radixEdge.pfx_mk, radixEdge.node_mk]
            · rw [InsertFuel_split_sibling _ _ _ _ _ _ _ ha he hl hkl]
              rw [Radix.InsertCheckedFuel]
              simp only [Option.isNone_some, Bool.false_eq_true, if_false, if_neg hk,
                findChecked_eq, Radix.find_hit a b e v key ha he, if_neg he, if_neg hl,
                if_neg hkl, hsp, hsk, Radix.edges_mk, Int.toNat_ofNat, set_mid, Radix.value_mk,
                radixEdge.split, radixEdge.pfx_mk, radixEdge.node_mk]
              rfl

theorem LookupCheckedFuel_eq (fuel : Nat) (n : Radix V) (key : Str) :
    Radix.LookupCheckedFuel fuel n key = some (Radix.LookupFuel fuel n key) := by
  induction fuel generalizing n key with
  | zero => rfl
  | succ fuel ih =>
    obtain ⟨es, v⟩ := n
    by_cases hk : key = []
    · subst hk
      simp [Radix.LookupCheckedFuel, Radix.LookupFuel]
    · rcases edges_cases es key with hm | ⟨a, e, b, rfl, ha, he⟩
      · rw [LookupFuel_miss _ _ _ _ hk hm]
        simp [Radix.LookupCheckedFuel, hk, findChecked_eq, Radix.find_miss es v key hm]
      · by_cases hl : lcp e.pfx key = e.pfx.length
        · rw [LookupFuel_hit _ _ _ _ _ _ ha he hl]
          have hs : sliceFrom key e.pfx.length = some (key.drop e.pfx.length) :=
            sliceFrom_eq (by rw [← hl]; exact lcp_le_right _ _)
          rw [Radix.LookupCheckedFuel]
          simp only [if_neg hk, findChecked_eq, Radix.find_hit a b e v key ha he, hl, ne_eq,
            not_true_eq_false, if_false, hs, ih]
        · rw [LookupFuel_short _ _ _ _ _ _ ha he hl]
          simp [Radix.LookupCheckedFuel, hk, findChecked_eq, Radix.find_hit a b e v key ha he, hl]

theorem nextRootChecked_eq (lastRoot : Radix V) (e : radixEdge V) (hp : e.pfx ≠ []) :
    nextRootChecked lastRoot e e.pfx.length =
      some (if e.node.value.isSome ∧ e.pfx[e.pfx.length - 1]? = some 47 then e.node
        else lastRoot) := by
  have hpos := List.length_pos.2 hp
  have hlt : e.pfx.length - 1 < e.pfx.length := by omega
  have hb : byteAt e.pfx ((e.pfx.length : Int) - 1) = some (e.pfx[e.pfx.length - 1]) := by
    unfold byteAt
    have h0 : (0 : Int) ≤ (e.pfx.length : Int) - 1 := by omega
    have h1 : ((e.pfx.length : Int) - 1).toNat = e.pfx.length - 1 := by omega
    rw [if_pos h0, h1, List.getElem?_eq_getElem hlt]
  unfold nextRootChecked
  rw [hb, List.getElem?_eq_getElem hlt]
  cases e.node.value.isSome <;> simp

theorem LookupPathCheckedFuel_eq (fuel : Nat) (lr n : Radix V) (key : Str) :
    Radix.LookupPathCheckedFuel fuel lr n key = some (Radix.LookupPathFuel fuel lr n key) := by
  induction fuel generalizing lr n key with
  | zero => rfl
  | succ fuel ih =>
    obtain ⟨es, v⟩ := n
    by_cases hk : key = []
    · subst hk
      simp [Radix.LookupPathCheckedFuel, Radix.LookupPathFuel]
    · rcases edges_cases es key with hm | ⟨a, e, b, rfl, ha, he⟩
      · rw [LookupPathFuel_miss _ _ _ _ _ hk hm]
        simp [Radix.LookupPathCheckedFuel, hk, findChecked_eq, Radix.find_miss es v key hm]
      · by_cases hl : lcp e.pfx key = e.pfx.length
        · rw [LookupPathFuel_hit _ _ _ _ _ _ _ ha he hl]
          have hs : sliceFrom key e.pfx.length = some (key.drop e.pfx.length) :=
            sliceFrom_eq (by rw [← hl]; exact lcp_le_right _ _)
          have hp : e.pfx ≠ [] := ((lcp_ne_zero_iff _ _).1 he).1
          rw [Radix.LookupPathCheckedFuel]
          simp only [if_neg hk, findChecked_eq, Radix.find_hit a b e v key ha he, hl, ne_eq,
            not_true_eq_false, if_false, hs, nextRootChecked_eq _ e hp, ih]
        · rw [LookupPathFuel_short _ _ _ _ _ _ _ ha he hl]
          simp [Radix.LookupPathCheckedFuel, hk, findChecked_eq,
            Radix.find_hit a b e v key ha he, hl]

/-- What `find` returns, on any node: a found edge shares between one byte and
its whole prefix with the key and sits at the index returned; no edge comes
with the length 0. -/
theorem find_bounds (n : Radix V) (key : Str) :
    (∀ (i : Int) (e : radixEdge V) (l : Nat), n.find key = (i, some e, l) →
      1 ≤ l ∧ l ≤ e.pfx.length ∧ l ≤ key.length ∧ 0 ≤ i ∧ n.edges[i.toNat]? = some e) ∧
    (∀ (i : Int) (l : Nat), n.find key = (i, none, l) → l = 0) := by
  obtain ⟨es, v⟩ := n
  rcases edges_cases es key with hm | ⟨a, e, b, rfl, ha, he⟩
  · rw [Radix.find_miss es v key hm]
    constructor
    · intro i e l h
      simp at h
    · intro i l h
      simp only [Prod.mk.injEq] at h
      exact h.2.2.symm
  · rw [Radix.find_hit a b e v key ha he]
    constructor
    · intro i e2 l h
      simp only [Prod.mk.injEq, Option.some.injEq] at h
      obtain ⟨rfl, rfl, rfl⟩ := h
      refine ⟨by omega, lcp_le_left _ _, lcp_le_right _ _, by omega, ?_⟩
      simp only [Radix.edges_mk, Int.toNat_ofNat]
      rw [List.getElem?_append_right (Nat.le_refl _)]
      simp
    · intro i l h
      simp at h

/-- The checks are real: a slice or an index out of range, a splice of an empty
edge list and a split past the end of the prefix all fail. -/
theorem checked_can_fail :
    sliceFrom (bytes "ab") 3 = none ∧ sliceTo (bytes "ab") 3 = none ∧
    byteAt (bytes "ab") (-1) = none ∧ byteAt (bytes "ab") 2 = none ∧
    (removeEdgeChecked ([] : List (radixEdge Nat)) 0).isNone = true ∧
    ((newEdge (bytes "computer") (some 1)).splitChecked 9).isNone = true ∧
    (nextRootChecked Radix.new (newEdge [] (some 1)) 0).isNone = true := by
  refine ⟨by decide, by decide, by decide, by decide, by decide, by decide, by decide⟩

/-- C21 (edge split).  For every edge with prefix `s` and child `c` and every
`l` with `0 < l < len(s)`, `split(l)` slices within range and leaves the edge
with prefix `s[:l]` and a new child that has no value and exactly one edge,
with prefix `s[l:]` and the original node `c` as its child; both prefixes are
non-empty and concatenate to `s`. -/
theorem split_spec (s : Str) (c : Radix V) (l : Nat) (h0 : 0 < l) (hl : l < s.length) :
    (radixEdge.mk s c).splitChecked l = some ((radixEdge.mk s c).split l) ∧
    ((radixEdge.mk s c).split l).pfx = s.take l ∧
    ((radixEdge.mk s c).split l).node.value = none ∧
    ((radixEdge.mk s c).split l).node.edges = [radixEdge.mk (s.drop l) c] ∧
    ((radixEdge.mk s c).split l).pfx ++ s.drop l = s ∧
    ((radixEdge.mk s c).split l).pfx.length = l ∧
    (s.drop l).length = s.length - l ∧
    ((radixEdge.mk s c).split l).pfx ≠ [] ∧ s.drop l ≠ [] := by
  have hlen : (s.take l).length = l := by
    rw [List.length_take]; omega
  have hdrop : (s.drop l).length = s.length - l := List.length_drop l s
  refine ⟨splitChecked_eq _ l (by simpa using Nat.le_of_lt hl), rfl, rfl, rfl,
    List.take_append_drop l s, hlen, hdrop, ?_, ?_⟩
  · intro h
    have h2 : ((radixEdge.mk s c).split l).pfx.length = l := hlen
    rw [h] at h2
    simp at h2
    omega
  · intro h
    rw [h] at hdrop
    simp at hdrop
    omega

/-- Witness of C21 on `TestRadix_split`: `computer` split at 3 gives `com` and
an intermediate node with the single edge `puter` to the old node. -/
theorem split_spec_witness :
    0 < 3 ∧ 3 < (bytes "computer").length ∧
    ((newEdge (bytes "computer") (some 1)).split 3).pfx = bytes "com" ∧
    ((newEdge (bytes "computer") (some 1)).split 3).node.edges
      = [radixEdge.mk (bytes "puter") (Radix.mk [] (some 1))] ∧
    ((radixEdge.mk (bytes "computer") (Radix.mk [] (some 1))).splitChecked 3
        = some ((radixEdge.mk (bytes "computer") (Radix.mk [] (some 1))).split 3) ∧
      ((radixEdge.mk (bytes "computer") (Radix.mk [] (some 1))).split 3).pfx
        = (bytes "computer").take 3 ∧
      ((radixEdge.mk (bytes "computer") (Radix.mk [] (some 1))).split 3).node.value = none ∧
      ((radixEdge.mk (bytes "computer") (Radix.mk [] (some 1))).split 3).node.edges
        = [radixEdge.mk ((bytes "computer").drop 3) (Radix.mk [] (some 1))] ∧
      ((radixEdge.mk (bytes "computer") (Radix.mk [] (some 1))).split 3).pfx
        ++ (bytes "computer").drop 3 = bytes "computer" ∧
      ((radixEdge.mk (bytes "computer") (Radix.mk [] (some 1))).split 3).pfx.length = 3 ∧
      ((bytes "computer").drop 3).length = (bytes "computer").length - 3 ∧
      ((radixEdge.mk (bytes "computer") (Radix.mk [] (some 1))).split 3).pfx ≠ [] ∧
      (bytes "computer").drop 3 ≠ []) :=
  ⟨by decide, by decide, by decide, rfl,
    split_spec (bytes "computer") (Radix.mk [] (some 1)) 3 (by decide) (by decide)⟩

/-- C22 (no out-of-range access).  On every reachable tree and for every key or
path, `Insert`, `Lookup`, `LookupPath` and `Remove` with every index, slice and
edge use checked never fail and return what the operations return.  The reasons:
`find` returns an edge only with `1 ≤ l ≤ len(e.prefix)` and `l ≤ len(key)`, at
a valid index, so the byte `e.prefix[l-1]` exists, `split` is called only with
`0 < l < len(e.prefix)`, and `find` returns no edge only with `l = 0`, the one
case in which `Insert` does not read `e.prefix`. -/
theorem no_out_of_range (ops : List (Op V)) (key : Str) (value : Option V) :
    (run ops).InsertChecked key value = some ((run ops).Insert key value) ∧
    (run ops).LookupChecked key = some ((run ops).Lookup key) ∧
    (run ops).LookupPathChecked key = some ((run ops).LookupPath key) ∧
    (run ops).RemoveChecked key = some ((run ops).Remove key) ∧
    (∀ (n : Radix V) (i : Int) (e : radixEdge V) (l : Nat), n.find key = (i, some e, l) →
      1 ≤ l ∧ l ≤ e.pfx.length ∧ l ≤ key.length ∧ 0 ≤ i ∧ n.edges[i.toNat]? = some e ∧
      (byteAt e.pfx ((l : Int) - 1)).isSome = true ∧
      (l ≠ e.pfx.length → 0 < l ∧ l < e.pfx.length)) ∧
    (∀ (n : Radix V) (i : Int) (l : Nat), n.find key = (i, none, l) → l = 0) := by
  refine ⟨InsertCheckedFuel_eq _ _ _ _, LookupCheckedFuel_eq _ _ _,
    LookupPathCheckedFuel_eq _ _ _ _, RemoveCheckedFuel_eq _ _ _, ?_, ?_⟩
  · intro n i e l h
    obtain ⟨h1, h2, h3, h4, h5⟩ := (find_bounds n key).1 i e l h
    refine ⟨h1, h2, h3, h4, h5, ?_, fun hne => ⟨by omega, by omega⟩⟩
    unfold byteAt
    have h0 : (0 : Int) ≤ (l : Int) - 1 := by omega
    have hlt : ((l : Int) - 1).toNat < e.pfx.length := by omega
    rw [if_pos h0, List.getElem?_eq_getElem hlt]
    rfl
  · intro n i l h
    exact (find_bounds n key).2 i l h

/-- Witness of C22: the checked removal of `romulus` from the scenario `romane`,
..., `rom` succeeds, and at the branching node with the edges `b` and `c`,
`find("cx")` returns edge 1 with length 1, within the bounds. -/
theorem no_out_of_range_witness :
    ((run romOps).RemoveChecked (bytes "romulus")).isSome = true ∧
    branchNode.find (bytes "cx") = (1, some (radixEdge.mk (bytes "c") (Radix.mk [] (some 2))), 1) ∧
    (1 ≤ 1 ∧ 1 ≤ (radixEdge.mk (bytes "c") (Radix.mk [] (some 2))).pfx.length ∧
      1 ≤ (bytes "cx").length ∧ (0 : Int) ≤ 1 ∧
      branchNode.edges[(1 : Int).toNat]? = some (radixEdge.mk (bytes "c") (Radix.mk [] (some 2))) ∧
      (byteAt (radixEdge.mk (bytes "c") (Radix.mk ([] : List (radixEdge Nat)) (some 2))).pfx
        (((1 : Nat) : Int) - 1)).isSome = true ∧
      (1 ≠ (radixEdge.mk (bytes "c") (Radix.mk ([] : List (radixEdge Nat)) (some 2))).pfx.length →
        0 < 1 ∧ 1 < (radixEdge.mk (bytes "c")
          (Radix.mk ([] : List (radixEdge Nat)) (some 2))).pfx.length)) :=
  ⟨by rw [(no_out_of_range romOps (bytes "romulus") none).2.2.2.1]; rfl, rfl,
    (no_out_of_range ([] : List (Op Nat)) (bytes "cx") none).2.2.2.2.1 branchNode 1 _ 1 rfl⟩

end Router
